import Mathlib

/-!
# Verification of the Xenon XML repair engine

A shallow embedding of the core of the `xenon` XML repair library
(`src/xenon/parser.py`, `src/xenon/attribute_parser.py`, `src/xenon/security.py`,
and the streaming proof-of-concept `poc_streaming.py`), together with theorems
settling the specification claims about it.

Strings are modelled as `List Char`; Python string indices become structural
recursion over suffixes.  Python operations that can raise (`list[0]` on an
empty list) are modelled with `Option`.  `str.replace` (which replaces all
non-overlapping occurrences left to right) is modelled by `replaceAll`.
-/

set_option maxHeartbeats 2000000

namespace Xenon

/-- Python `str.isspace` / `str.strip` whitespace, restricted to the ASCII
whitespace characters that can occur in the inputs considered here. -/
def pySpace (c : Char) : Bool :=
  c == ' ' || c == '\t' || c == '\n' || c == '\r' || c == '\x0b' || c == '\x0c'

/-- Python `str.strip()`: drop whitespace from both ends. -/
def pyStrip (l : List Char) : List Char :=
  ((l.dropWhile pySpace).reverse.dropWhile pySpace).reverse

/-- Lowercase a string character-wise (Python `str.lower` on ASCII). -/
def lowerStr (l : List Char) : List Char := l.map Char.toLower

/-- Uppercase a string character-wise (Python `str.upper` on ASCII). -/
def upperStr (l : List Char) : List Char := l.map Char.toUpper

/-- First whitespace-delimited word of a string, if any
(Python `s.split()[0]` guarded by `if s.split()`). -/
def pyFirstWord? (l : List Char) : Option (List Char) :=
  match (l.dropWhile pySpace).takeWhile (fun c => !pySpace c) with
  | [] => none
  | w => some w

/-- Python `s.split(None, 1)`: leading whitespace dropped, first word, then
the remainder with its leading whitespace dropped (kept verbatim otherwise). -/
def pySplit1 (l : List Char) : List (List Char) :=
  let l1 := l.dropWhile pySpace
  match l1 with
  | [] => []
  | _ =>
    let w := l1.takeWhile (fun c => !pySpace c)
    let r := (l1.dropWhile (fun c => !pySpace c)).dropWhile pySpace
    match r with
    | [] => [w]
    | _ => [w, r]

/-- Python `str.replace(pat, rep)`: replace all non-overlapping occurrences,
scanning left to right.  (Python inserts between characters when `pat` is
empty; the patterns used by the engine are never empty, so the empty pattern
is mapped to the identity.) -/
def replaceAll (pat rep : List Char) (l : List Char) : List Char :=
  if hp : pat = [] then l
  else
    match l with
    | [] => []
    | c :: cs =>
      if pat.isPrefixOf (c :: cs) then
        rep ++ replaceAll pat rep ((c :: cs).drop pat.length)
      else
        c :: replaceAll pat rep cs
termination_by l.length
decreasing_by
  · simp only [List.length_drop, List.length_cons]
    have : pat.length ≥ 1 := by
      cases pat with
      | nil => exact absurd rfl hp
      | cons a as => simp
    omega
  · simp

/-- Python `str.replace(pat, rep, 1)`: replace only the first occurrence. -/
def replaceFirst (pat rep : List Char) (l : List Char) : List Char :=
  if pat = [] then l
  else
    match l with
    | [] => []
    | c :: cs =>
      if pat.isPrefixOf (c :: cs) then
        rep ++ (c :: cs).drop pat.length
      else
        c :: replaceFirst pat rep cs

/-- Index of the first occurrence of `pat` in `l` (Python `str.find`),
`none` when absent. -/
def findSubIdx (pat : List Char) : List Char → Option Nat
  | [] => if pat = [] then some 0 else none
  | c :: cs =>
    if pat.isPrefixOf (c :: cs) then some 0
    else (findSubIdx pat cs).map (· + 1)

/-- Python `pat in s` substring containment. -/
def containsSub (pat l : List Char) : Bool := (findSubIdx pat l).isSome

/-- Decimal digit characters of a natural number, as Python `str(n)` /
`f-string` formatting produces them. -/
def natDecimal (n : Nat) : List Char :=
  if n = 0 then ['0']
  else (Nat.digits 10 n).reverse.map (fun d => Char.ofNat (48 + d))

/-! ## Entity / attribute escaper (`parser.py` `escape_entities`,
`attribute_parser.py` `escape_attribute_value`)

The valid-entity grammar is the regex
`&(?:lt|gt|amp|quot|apos|#\d+|#x[0-9a-fA-F]+);`.  `re.sub` scans left to
right, replacing non-overlapping leftmost matches; for this particular
pattern, a match at a given `&` exists iff one of the alternatives followed
by `;` matches there (the greedy digit runs are cut off by the `;`). -/

def hexDigit (c : Char) : Bool :=
  c.isDigit || ('a' ≤ c && c ≤ 'f') || ('A' ≤ c && c ≤ 'F')

def entityKeywords : List (List Char) :=
  ["lt".data, "gt".data, "amp".data, "quot".data, "apos".data]

/-- Try the keyword alternatives (in regex alternation order): `kw` then `;`. -/
def tryKeyword : List (List Char) → List Char → Option (List Char × List Char)
  | [], _ => none
  | k :: ks, cs =>
    if k.isPrefixOf cs then
      match cs.drop k.length with
      | d :: rest => if d = ';' then some (k ++ [';'], rest) else tryKeyword ks cs
      | [] => tryKeyword ks cs
    else tryKeyword ks cs

/-- A maximal nonempty run of characters satisfying `p`, terminated by `;`:
the shape forced on the regex's greedy `\d+;` / `[0-9a-fA-F]+;` pieces
(the run is cut off by the terminating `;`, so backtracking cannot help). -/
def runThenSemi (p : Char → Bool) (l : List Char) : Option (List Char × List Char) :=
  let run := l.takeWhile p
  if run ≠ [] then
    match l.drop run.length with
    | d :: rest => if d = ';' then some (run, rest) else none
    | [] => none
  else none

/-- Try the numeric alternatives: `#` digits `;` or `#x` hexdigits `;`.
(When digits follow `#` but no `;` terminates them, both alternatives fail:
the `x` of `#x` cannot be a digit.) -/
def tryNumeric (cs : List Char) : Option (List Char × List Char) :=
  match cs with
  | [] => none
  | c :: rest =>
    if c = '#' then
      match runThenSemi Char.isDigit rest with
      | some (ds, rest2) => some ('#' :: (ds ++ [';']), rest2)
      | none =>
        if rest.take 1 = ['x'] then
          match runThenSemi hexDigit (rest.drop 1) with
          | some (hs, rest2) => some ('#' :: 'x' :: (hs ++ [';']), rest2)
          | none => none
        else none
    else none

/-- A valid entity reference starting at the head of `l`:
returns the full entity text (including `&` and `;`) and the rest. -/
def matchEntityAt (l : List Char) : Option (List Char × List Char) :=
  match l with
  | [] => none
  | c :: cs =>
    if c = '&' then
      match tryKeyword entityKeywords cs with
      | some (body, rest) => some ('&' :: body, rest)
      | none =>
        match tryNumeric cs with
        | some (body, rest) => some ('&' :: body, rest)
        | none => none
    else none

theorem drop_cons_length {l t : List Char} {d : Char} {n : Nat}
    (h : l.drop n = d :: t) : t.length < l.length := by
  have hlen := List.length_drop n l
  rw [h] at hlen
  simp only [List.length_cons] at hlen
  omega

theorem tryKeyword_length {ks : List (List Char)} {cs body rest : List Char}
    (h : tryKeyword ks cs = some (body, rest)) : rest.length < cs.length := by
  induction ks with
  | nil => simp [tryKeyword] at h
  | cons k ks ih =>
    simp only [tryKeyword] at h
    split at h
    · split at h
      · rename_i hd
        split at h
        · simp only [Option.some.injEq, Prod.mk.injEq] at h
          obtain ⟨-, hr⟩ := h
          subst hr
          exact drop_cons_length hd
        · exact ih h
      · exact ih h
    · exact ih h

theorem runThenSemi_length {p : Char → Bool} {l run rest : List Char}
    (h : runThenSemi p l = some (run, rest)) : rest.length < l.length := by
  simp only [runThenSemi] at h
  split at h
  · split at h
    · rename_i hd
      split at h
      · simp only [Option.some.injEq, Prod.mk.injEq] at h
        obtain ⟨-, hr⟩ := h
        subst hr
        exact drop_cons_length hd
      · simp at h
    · simp at h
  · simp at h

theorem tryNumeric_length {cs body rest : List Char}
    (h : tryNumeric cs = some (body, rest)) : rest.length < cs.length := by
  unfold tryNumeric at h
  split at h
  · simp at h
  · rename_i c rest0
    split at h
    · split at h
      · rename_i ds rest2 hrun
        simp only [Option.some.injEq, Prod.mk.injEq] at h
        obtain ⟨-, hr⟩ := h
        subst hr
        have := runThenSemi_length hrun
        simp only [List.length_cons]
        omega
      · split at h
        · split at h
          · rename_i hs rest2 hrun
            simp only [Option.some.injEq, Prod.mk.injEq] at h
            obtain ⟨-, hr⟩ := h
            subst hr
            have h1 := runThenSemi_length hrun
            have h2 : (rest0.drop 1).length ≤ rest0.length := by
              simp [List.length_drop]
            simp only [List.length_cons]
            omega
          · simp at h
        · simp at h
    · simp at h

theorem matchEntityAt_length {l e rest : List Char}
    (h : matchEntityAt l = some (e, rest)) : rest.length < l.length := by
  unfold matchEntityAt at h
  split at h
  · simp at h
  · rename_i c cs
    split at h
    · split at h
      · rename_i body rest1 hk
        simp only [Option.some.injEq, Prod.mk.injEq] at h
        obtain ⟨-, hr⟩ := h
        subst hr
        have := tryKeyword_length hk
        simp only [List.length_cons]
        omega
      · split at h
        · rename_i body rest1 hn
          simp only [Option.some.injEq, Prod.mk.injEq] at h
          obtain ⟨-, hr⟩ := h
          subst hr
          have := tryNumeric_length hn
          simp only [List.length_cons]
          omega
        · simp at h
    · simp at h

/-- The placeholder string `"\x00ENTITY{n}\x00"` used by the escaper. -/
def placeholder (n : Nat) : List Char :=
  '\x00' :: ("ENTITY".data ++ natDecimal n) ++ ['\x00']

/-- The `re.sub(valid_entity_pattern, save_entity, text)` pass: scan left to
right for leftmost non-overlapping valid entities, replacing the `i`-th one
found by `placeholder (n+i)` and collecting the entity texts in order. -/
def subEntities (l : List Char) (n : Nat) : List Char × List (List Char) :=
  match hm : matchEntityAt l with
  | some (e, rest) =>
    let (t, es) := subEntities rest (n + 1)
    (placeholder n ++ t, e :: es)
  | none =>
    match l with
    | [] => ([], [])
    | c :: cs =>
      let (t, es) := subEntities cs n
      (c :: t, es)
termination_by l.length
decreasing_by
  · exact matchEntityAt_length hm
  · simp

/-- The restore loop: `for i, entity in enumerate(entities):
text = text.replace(placeholder i, entity)`. -/
def restoreEntities (i : Nat) : List (List Char) → List Char → List Char
  | [], t => t
  | e :: es, t => restoreEntities (i + 1) es (replaceAll (placeholder i) e t)

/-- `XMLRepairEngine.escape_entities` (parser.py): escape `&`, `<`, `>` in
text while preserving already-valid entity references via the
placeholder-substitution trick. -/
def escape_entities (l : List Char) : List Char :=
  let (t, es) := subEntities l 0
  let t := replaceAll ['&'] "&amp;".data t
  let t := replaceAll ['<'] "&lt;".data t
  let t := replaceAll ['>'] "&gt;".data t
  restoreEntities 0 es t

/-- `escape_attribute_value` (attribute_parser.py): like `escape_entities`
but additionally escapes the quote character in use (or, aggressively, a
larger set for XSS hardening). -/
def escape_attribute_value (l : List Char) (quoteChar : Char := '"')
    (aggressive : Bool := false) : List Char :=
  let (t, es) := subEntities l 0
  let t := replaceAll ['&'] "&amp;".data t
  let t := replaceAll ['<'] "&lt;".data t
  let t := replaceAll ['>'] "&gt;".data t
  let t :=
    if aggressive then
      let t := replaceAll ['\''] "&apos;".data t
      let t := replaceAll ['"'] "&quot;".data t
      let t := replaceAll ['/'] "&#x2F;".data t
      let t := replaceAll [' '] "&#x20;".data t
      let t := replaceAll ['\t'] "&#x09;".data t
      let t := replaceAll ['\n'] "&#x0A;".data t
      replaceAll ['\r'] "&#x0D;".data t
    else
      if quoteChar = '"' then replaceAll ['"'] "&quot;".data t
      else replaceAll ['\''] "&apos;".data t
  restoreEntities 0 es t

/-! ## Repair actions (`reporting.py`) -/

inductive RepairType where
  | truncation | conversationalFluff | malformedAttribute | unescapedEntity
  | cdataWrapped | tagTypo | tagCaseMismatch | namespaceInjected
  | duplicateAttribute | invalidTagName | invalidNamespace | multipleRoots
  | dangerousPiStripped | dangerousTagStripped | externalEntityStripped
deriving DecidableEq, Repr

structure RepairAction where
  repairType : RepairType
  description : List Char
  location : List Char := []
  before : List Char := []
  after : List Char := []
deriving DecidableEq, Repr

/-! ## Attribute repair (`attribute_parser.py` `fix_malformed_attributes`;
`parser.py` has a behaviourally identical inline copy without action logging,
used by the tokenizer through `.1`). -/

/-- Attribute-name characters: `content[i].isalnum() or content[i] in "_-:"`. -/
def attrNameChar (c : Char) : Bool :=
  c.isAlphanum || c == '_' || c == '-' || c == ':'

/-- Scan a quoted value: `l` is the text after the opening quote; the value
runs to the matching quote (implicitly closed at end of content), and the
closing quote is skipped when present. -/
def scanQuoted (q : Char) (l : List Char) : List Char × List Char :=
  let value := l.takeWhile (fun c => c != q)
  match l.drop value.length with
  | [] => (value, [])
  | _ :: rest2 => (value, rest2)

/-- The unquoted-value lookahead test at a given position: the position holds
whitespace, and after the whitespace run an attribute-name run (possibly
empty) followed by `=` begins. -/
def unquotedBreakAt (l : List Char) : Bool :=
  match l with
  | [] => false
  | c :: _ =>
    pySpace c &&
      (let after := l.dropWhile pySpace
       match after with
       | [] => false
       | _ =>
         match after.dropWhile attrNameChar with
         | d :: _ => d == '='
         | [] => false)

/-- Scan an unquoted value: consume characters until the lookahead finds the
next `word=` attribute start (or end of content). -/
def scanUnquoted : List Char → List Char × List Char
  | [] => ([], [])
  | c :: cs =>
    if unquotedBreakAt (c :: cs) then ([], c :: cs)
    else
      let (v, r) := scanUnquoted cs
      (c :: v, r)

theorem dropWhile_length_le (p : Char → Bool) (l : List Char) :
    (l.dropWhile p).length ≤ l.length := by
  induction l with
  | nil => simp
  | cons c cs ih =>
    simp only [List.dropWhile]
    split
    · simp only [List.length_cons]
      omega
    · simp

theorem scanQuoted_length (q : Char) (l : List Char) :
    (scanQuoted q l).2.length ≤ l.length := by
  simp only [scanQuoted]
  split
  · rename_i hd
    simp
  · rename_i x rest2 hd
    have := drop_cons_length hd
    simp only
    omega

theorem scanUnquoted_length (l : List Char) :
    (scanUnquoted l).2.length ≤ l.length := by
  induction l with
  | nil => simp [scanUnquoted]
  | cons c cs ih =>
    simp only [scanUnquoted]
    split
    · simp
    · simp only [List.length_cons]
      omega

/-- One pass of the attribute loop of `fix_malformed_attributes`, over the
remaining attribute text.  `seen` holds the lowercased names already kept.
Returns the concatenated output pieces and the logged actions. -/
def attrLoop (tagName : List Char) (rest : List Char) (seen : List (List Char)) :
    List Char × List RepairAction :=
  match h1 : rest.dropWhile pySpace with
  | [] => ([], [])
  | c1 :: cs1 =>
    let rest1 := c1 :: cs1
    let name := rest1.takeWhile attrNameChar
    match h2 : rest1.drop name.length with
    | [] => (' ' :: rest1, [])
    | d :: rest3 =>
      if d = '=' then
        if (lowerStr name) ∈ seen then
          -- duplicate: log, parse the value to advance, but drop it
          let act : RepairAction :=
            { repairType := RepairType.duplicateAttribute
              description := "Removed duplicate attribute ".data ++ lowerStr name
              location := tagName }
          match h3 : rest3 with
          | q :: rest4 =>
            if q = '"' ∨ q = '\'' then
              let res := attrLoop tagName (scanQuoted q rest4).2 seen
              (res.1, act :: res.2)
            else
              let res := attrLoop tagName (scanUnquoted rest3).2 seen
              (res.1, act :: res.2)
          | [] =>
            let res := attrLoop tagName [] seen
            (res.1, act :: res.2)
        else
          let seen1 := lowerStr name :: seen
          match h3 : rest3 with
          | [] => (' ' :: (name ++ "=\"".data), [])
          | q :: rest4 =>
            if q = '"' ∨ q = '\'' then
              let v := (scanQuoted q rest4).1
              let escaped := escape_attribute_value v q false
              let piece := ' ' :: (name ++ ['='] ++ [q] ++ escaped ++ [q])
              let res := attrLoop tagName (scanQuoted q rest4).2 seen1
              (piece ++ res.1, res.2)
            else
              let v := pyStrip (scanUnquoted rest3).1
              let escaped := escape_attribute_value v '"' false
              let act : RepairAction :=
                { repairType := RepairType.malformedAttribute
                  description := "Added quotes to unquoted attribute ".data ++ name
                  location := tagName
                  before := name ++ ['='] ++ v
                  after := name ++ "=\"".data ++ escaped ++ ['"'] }
              let piece := ' ' :: (name ++ "=\"".data ++ escaped ++ ['"'])
              let res := attrLoop tagName (scanUnquoted rest3).2 seen1
              (piece ++ res.1, act :: res.2)
      else
        (' ' :: rest1, [])
termination_by rest.length
decreasing_by
  all_goals
    (have hrest1len : rest1.length = cs1.length + 1 := rfl
     have hr1 : (rest.dropWhile pySpace).length ≤ rest.length :=
      dropWhile_length_le pySpace rest
     rw [h1] at hr1
     simp only [List.length_cons] at hr1
     have hr3 := drop_cons_length h2
     try have hq4 := scanQuoted_length q rest4
     try have hu := scanUnquoted_length rest3
     try (have h3len : rest3.length = rest4.length + 1 := by
            rw [h3]; simp)
     simp only [List.length_cons, List.length_nil] at *
     omega)

/-- `fix_malformed_attributes` (attribute_parser.py, non-aggressive mode, as
used by the repair pipeline): read the tag name, then repair the attribute
region; duplicates (case-insensitive, first wins) are dropped with an action;
unquoted values are quoted and escaped. -/
def fix_malformed_attributes (tagContent : List Char) : List Char × List RepairAction :=
  let content := pyStrip tagContent
  let nameRun := content.takeWhile (fun c => !pySpace c)
  if nameRun.length = content.length then (content, [])
  else
    let rest := (content.drop nameRun.length).dropWhile pySpace
    let (out, acts) := attrLoop nameRun rest []
    (nameRun ++ out, acts)

/-! ## Tokenizer (`parser.py` `XMLRepairEngine.tokenize`) -/

inductive TokType where
  | text | whitespace | openTag | closeTag | selfClosingTag | incompleteTag
  | tagName | processingInstruction | comment | cdata | doctype
deriving DecidableEq, Repr

structure Token where
  type : TokType
  content : List Char
  pos : Nat
deriving DecidableEq, Repr

/-- Valid tag-start characters after `<`: letters, `_`, `:`, `/`, `!`, `?`. -/
def validTagStart (c : Char) : Bool :=
  c.isAlpha || c == '_' || c == ':' || c == '/' || c == '!' || c == '?'

/-- Stop condition of the loose-text loop: end of input, or a `<` that is
followed by nothing or by a valid tag-start character. -/
def looseTextStop : List Char → Bool
  | [] => true
  | c :: cs =>
    c == '<' && (match cs with | [] => true | d :: _ => validTagStart d)

/-- The loose-text loop entered at a `<` that does not start a tag: consume
characters until the stop condition holds. -/
def looseTextRun : List Char → List Char × List Char
  | [] => ([], [])
  | c :: cs =>
    if looseTextStop (c :: cs) then ([], c :: cs)
    else
      let r := looseTextRun cs
      (c :: r.1, r.2)

theorem looseTextRun_length (l : List Char) : (looseTextRun l).2.length ≤ l.length := by
  induction l with
  | nil => simp [looseTextRun]
  | cons c cs ih =>
    simp only [looseTextRun]
    split
    · simp
    · simp only [List.length_cons]
      omega

/-- The quote-aware scan for the end of a regular tag: consume characters
(including the terminating `>` when found outside quotes); a `>` inside a
quoted attribute value does not end the tag. -/
def tagScan : List Char → Option Char → List Char × List Char
  | [], _ => ([], [])
  | c :: cs, none =>
    if c = '"' ∨ c = '\'' then
      let r := tagScan cs (some c)
      (c :: r.1, r.2)
    else if c = '>' then ([c], cs)
    else
      let r := tagScan cs none
      (c :: r.1, r.2)
  | c :: cs, some q =>
    if c = q then
      let r := tagScan cs none
      (c :: r.1, r.2)
    else
      let r := tagScan cs (some q)
      (c :: r.1, r.2)

theorem tagScan_length (l : List Char) (q : Option Char) :
    (tagScan l q).2.length ≤ l.length := by
  induction l generalizing q with
  | nil => cases q <;> simp [tagScan]
  | cons c cs ih =>
    cases q with
    | none =>
      simp only [tagScan]
      split
      · have := ih (some c)
        simp only [List.length_cons]
        omega
      · split
        · simp only [List.length_cons]
          omega
        · have := ih none
          simp only [List.length_cons]
          omega
    | some q =>
      simp only [tagScan]
      split
      · have := ih none
        simp only [List.length_cons]
        omega
      · have := ih (some q)
        simp only [List.length_cons]
        omega

/-- The DOCTYPE scan: count characters up to and including the matching
top-level `>`, tracking `[`/`]` bracket state for an internal subset. -/
def docScan : List Char → Bool → Nat
  | [], _ => 0
  | c :: cs, inBracket =>
    if c = '[' then 1 + docScan cs true
    else if c = ']' then 1 + docScan cs false
    else if c = '>' ∧ ¬inBracket then 1
    else 1 + docScan cs inBracket

theorem looseTextRun_lt (l : List Char) (h : looseTextStop l = false) :
    (looseTextRun l).2.length < l.length := by
  cases l with
  | nil => simp [looseTextStop] at h
  | cons c cs =>
    simp only [looseTextRun, h, Bool.false_eq_true, if_false]
    have := looseTextRun_length cs
    simp only [List.length_cons]
    omega

theorem tagScan_snd_lt (c : Char) (cs : List Char) (q : Option Char) :
    (tagScan cs q).2.length < (c :: cs).length := by
  have := tagScan_length cs q
  simp only [List.length_cons]
  omega

theorem drop_lt_cons (c : Char) (cs : List Char) (n : Nat) (h : 0 < n) :
    ((c :: cs).drop n).length < (c :: cs).length := by
  simp only [List.length_drop, List.length_cons]
  omega

theorem length_takeWhile_le' (p : Char → Bool) (l : List Char) :
    (l.takeWhile p).length ≤ l.length := by
  induction l with
  | nil => simp
  | cons c cs ih =>
    simp only [List.takeWhile]
    split
    · simp only [List.length_cons]
      omega
    · simp

theorem textRun_lt (c : Char) (cs : List Char) (h : (c = '<') = False) :
    ((c :: cs).drop ((c :: cs).takeWhile (fun x => x != '<')).length).length <
      (c :: cs).length := by
  have hne : (c != '<') = true := by
    simp only [bne_iff_ne, ne_eq]
    intro hc
    rw [hc] at h
    simp at h
  have h1 : ((c :: cs).takeWhile (fun x => x != '<')).length ≥ 1 := by
    simp only [List.takeWhile, hne, if_pos]
    simp
  apply drop_lt_cons
  omega

/-- The tag name extracted from (repaired) inner tag content:
`inner.split()[0] if inner.split() else inner`. -/
def tagNameOf (inner : List Char) : List Char :=
  match pyFirstWord? inner with
  | some w => w
  | none => inner

/-- `XMLRepairEngine.tokenize`, as a recursion over the remaining suffix
(`pos` is the absolute position of the suffix head in the input). -/
def tokGo (l : List Char) (pos : Nat) : List Token :=
  match hl : l with
  | [] => []
  | c :: cs =>
    if c = '<' then
      match hcs : cs with
      | [] => [⟨TokType.text, ['<'], pos⟩]
      | d :: _ =>
        if ¬ validTagStart d then
          -- `<` that does not start a tag: scan loose text
          let r := looseTextRun (c :: cs)
          (if r.1 ≠ [] then [⟨TokType.text, r.1, pos⟩] else []) ++
            tokGo r.2 (pos + r.1.length)
        else if cs.take 1 = ['?'] then
          -- processing instruction (includes the XML declaration)
          match hf : findSubIdx "?>".data (cs.drop 1) with
          | some k =>
            ⟨TokType.processingInstruction, (c :: cs).take (k + 4), pos⟩ ::
              tokGo ((c :: cs).drop (k + 4)) (pos + k + 4)
          | none =>
            -- malformed PI: incomplete tag holding the raw rest, then stop
            [⟨TokType.incompleteTag, cs, pos⟩]
        else if "!--".data.isPrefixOf cs ∧ (findSubIdx "-->".data (cs.drop 3)).isSome then
          match hf : findSubIdx "-->".data (cs.drop 3) with
          | some k =>
            ⟨TokType.comment, (c :: cs).take (k + 7), pos⟩ ::
              tokGo ((c :: cs).drop (k + 7)) (pos + k + 7)
          | none => []  -- unreachable given the guard
        else if "![CDATA[".data.isPrefixOf cs ∧
            (findSubIdx "]]>".data (cs.drop 8)).isSome then
          match hf : findSubIdx "]]>".data (cs.drop 8) with
          | some k =>
            ⟨TokType.cdata, (c :: cs).take (k + 12), pos⟩ ::
              tokGo ((c :: cs).drop (k + 12)) (pos + k + 12)
          | none => []  -- unreachable given the guard
        else if upperStr ((c :: cs).take 9) = "<!DOCTYPE".data then
          let n := docScan ((c :: cs).drop 9) false
          ⟨TokType.doctype, (c :: cs).take (9 + n), pos⟩ ::
            tokGo ((c :: cs).drop (9 + n)) (pos + 9 + n)
        else
          -- regular tag (also the fall-through for unterminated comments,
          -- unterminated CDATA and other `<!` content)
          let scan := tagScan cs none
          let tagContent := c :: scan.1
          if tagContent.getLast? = some '>' then
            if "</".data.isPrefixOf tagContent then
              let name := pyStrip ((tagContent.drop 2).dropLast)
              ⟨TokType.closeTag, name, pos⟩ ::
                tokGo scan.2 (pos + tagContent.length)
            else if "/>".data.isSuffixOf tagContent then
              let inner := pyStrip (((tagContent.drop 1).dropLast).dropLast)
              let fixed := (fix_malformed_attributes inner).1
              ⟨TokType.selfClosingTag, fixed, pos⟩ ::
                tokGo scan.2 (pos + tagContent.length)
            else
              let inner := pyStrip ((tagContent.drop 1).dropLast)
              let fixed := (fix_malformed_attributes inner).1
              ⟨TokType.openTag, fixed, pos⟩ :: ⟨TokType.tagName, tagNameOf fixed, pos⟩ ::
                tokGo scan.2 (pos + tagContent.length)
          else
            -- truncated tag: everything to end of input, then stop
            let inner := pyStrip cs
            if inner ≠ [] then
              let fixed := (fix_malformed_attributes inner).1
              [⟨TokType.incompleteTag, fixed, pos⟩, ⟨TokType.tagName, tagNameOf fixed, pos⟩]
            else []
    else
      -- text content up to the next `<`
      let run := (c :: cs).takeWhile (fun x => x != '<')
      let rest := (c :: cs).drop run.length
      (if pyStrip run ≠ [] then [⟨TokType.text, run, pos⟩]
       else if run ≠ [] then [⟨TokType.whitespace, run, pos⟩] else []) ++
        tokGo rest (pos + run.length)
termination_by l.length
decreasing_by
  all_goals
    (try subst hl
     try subst hcs
     first
       | exact looseTextRun_lt _ (by simp only [looseTextStop]; simp_all)
       | exact tagScan_snd_lt _ _ _
       | exact drop_lt_cons _ _ _ (by omega)
       | exact textRun_lt _ _ (by simp_all)
       | (simp_all
          omega))

/-- `tokenize`: tokenize a whole input. -/
def tokenize (l : List Char) : List Token := tokGo l 0

/-! ## Configuration

Modelled from the spec: the provided `config.py` flag enums are out of sync
with `parser.py` (which references `RepairFlags.AUTO_WRAP_CDATA` and passes
`auto_wrap_cdata` to `from_booleans`, both absent there), so the effective
configuration surface is taken from spec §6: a struct of named booleans plus
the match threshold.  Defaults mirror the engine's keyword defaults. -/

structure Config where
  matchThreshold : Nat := 2
  stripDangerousPis : Bool := false
  stripExternalEntities : Bool := false
  stripDangerousTags : Bool := false
  wrapMultipleRoots : Bool := false
  sanitizeInvalidTags : Bool := false
  fixNamespaceSyntax : Bool := false
  autoWrapCdata : Bool := false
deriving DecidableEq, Repr

/-- The default engine configuration. -/
def defaultConfig : Config := {}

/-! ## Security filter (`security.py` `XMLSecurityFilter`) -/

def DANGEROUS_PI_PATTERNS : List (List Char) :=
  ["php".data, "asp".data, "jsp".data, "ruby".data, "python".data,
   "perl".data, "exec".data]

def DANGEROUS_TAGS : List (List Char) :=
  ["script".data, "iframe".data, "object".data, "embed".data, "applet".data,
   "meta".data, "link".data, "style".data]

/-- `is_dangerous_pi`: any `<?name` denylist pattern occurs in the lowercased
PI text.  Pure in its argument; independent of the policy flags. -/
def is_dangerous_pi (piContent : List Char) : Bool :=
  let piLower := lowerStr piContent
  DANGEROUS_PI_PATTERNS.any (fun p => containsSub ("<?".data ++ p) piLower)

/-- `is_dangerous_tag`: the first whitespace-delimited token of the lowercased
name is in the denylist.  `tag_name.lower().split()[0] if tag_name else ''`
raises `IndexError` when `tag_name` is nonempty but all-whitespace (the
`split()` is empty); that failure is modelled by `none`. -/
def is_dangerous_tag (tagName : List Char) : Option Bool :=
  if tagName = [] then some (decide ([] ∈ DANGEROUS_TAGS))
  else
    match pyFirstWord? (lowerStr tagName) with
    | some w => some (decide (w ∈ DANGEROUS_TAGS))
    | none => none

/-- `contains_external_entity`: `SYSTEM` or `PUBLIC` occurs in the uppercased
DOCTYPE text. -/
def contains_external_entity (doctype : List Char) : Bool :=
  containsSub "SYSTEM".data (upperStr doctype) ||
    containsSub "PUBLIC".data (upperStr doctype)

/-- `should_strip_dangerous_pi`: policy flag AND the predicate (the Python
`and` short-circuits, so the predicate is not consulted when the flag is
off). -/
def should_strip_dangerous_pi (cfg : Config) (piContent : List Char) : Bool :=
  cfg.stripDangerousPis && is_dangerous_pi piContent

/-- `should_strip_dangerous_tag`: policy flag AND the predicate; the
predicate's possible `IndexError` propagates only when the flag is on. -/
def should_strip_dangerous_tag (cfg : Config) (tagName : List Char) : Option Bool :=
  if cfg.stripDangerousTags then is_dangerous_tag tagName else some false

/-- The bracket-aware body of a DOCTYPE declaration as matched by the regex
`<!DOCTYPE(?:[^>\[]|\[.*?\])*>` (with DOTALL): a sequence of non-`>`/non-`[`
characters or `[...]` groups (each lazy group ending at the first `]`),
terminated by `>`.  Returns the matched length after `<!DOCTYPE`, or `none`
when the regex cannot match here (no terminating `>`, or an unclosed `[`:
extending a lazy group cannot rescue either failure, since everything up to
the next `]`, if any, is consumable by the group anyway). -/
def dtScan : List Char → Option Nat
  | [] => none
  | c :: cs =>
    if c = '>' then some 1
    else if c = '[' then
      match hf : findSubIdx [']'] cs with
      | some k => (dtScan (cs.drop (k + 1))).map (fun n => 1 + (k + 1) + n)
      | none => none
    else (dtScan cs).map (· + 1)
termination_by l => l.length
decreasing_by
  · simp only [List.length_drop, List.length_cons]
    omega
  · simp

theorem dtScan_pos {l : List Char} {n : Nat} (h : dtScan l = some n) : 0 < n := by
  cases l with
  | nil => simp [dtScan] at h
  | cons c cs =>
    rw [dtScan] at h
    split at h
    · simp only [Option.some.injEq] at h
      omega
    · split at h
      · split at h
        · simp only [Option.map_eq_some'] at h
          obtain ⟨m, -, hm⟩ := h
          omega
        · simp at h
      · simp only [Option.map_eq_some'] at h
        obtain ⟨m, -, hm⟩ := h
        omega

/-- `strip_external_entities_from_text` when the flag is on: remove every
`<!DOCTYPE ...>` declaration (case-insensitive, bracket-aware), scanning
left to right non-overlapping as `re.sub` does. -/
def stripDoctypes (l : List Char) : List Char :=
  match l with
  | [] => []
  | c :: cs =>
    if upperStr ((c :: cs).take 9) = "<!DOCTYPE".data then
      match hd : dtScan ((c :: cs).drop 9) with
      | some n => stripDoctypes ((c :: cs).drop (9 + n))
      | none => c :: stripDoctypes cs
    else c :: stripDoctypes cs
termination_by l.length
decreasing_by
  · simp only [List.length_drop, List.length_cons]
    omega
  · simp
  · simp

def strip_external_entities_from_text (cfg : Config) (l : List Char) : List Char :=
  if cfg.stripExternalEntities then stripDoctypes l else l

/-! ## Levenshtein distance and fuzzy close-tag matching (`parser.py`) -/

/-- The inner loop of the DP: walk `s2` together with the previous row,
carrying the last value of the current row. -/
def levInner (c1 : Char) : List Char → List Nat → Nat → List Nat
  | [], _, _ => []
  | _ :: _, [], _ => []
  | c2 :: s2r, pj :: prest, curj =>
    let pj1 := match prest with | x :: _ => x | [] => 0
    let ins := pj1 + 1
    let del := curj + 1
    let sub := pj + (if c1 = c2 then 0 else 1)
    let m := min ins (min del sub)
    m :: levInner c1 s2r prest m

/-- The outer loop: one row per character of `s1` (row index is implicit:
each new row starts with `i + 1`). -/
def levRows : List Char → List Char → List Nat → Nat → List Nat
  | [], _, prev, _ => prev
  | c1 :: s1r, s2, prev, i =>
    levRows s1r s2 ((i + 1) :: levInner c1 s2 prev (i + 1)) (i + 1)

/-- The core of `levenshtein_distance` after the length-ordering swap
(`len s1 ≥ len s2`). -/
def levCore (s1 s2 : List Char) : Nat :=
  if s2.length = 0 then s1.length
  else ((levRows s1 s2 (List.range (s2.length + 1)) 0).getLast?).getD 0

/-- `XMLRepairEngine.levenshtein_distance`. -/
def levenshtein_distance (s1 s2 : List Char) : Nat :=
  if s1.length < s2.length then levCore s2 s1 else levCore s1 s2

/-- The scan loop of `find_best_matching_tag`.  The stack is kept with the
most recently opened tag FIRST (Python keeps it last); the returned index
`m` counts from the top of the stack, so the Python stack index is
`stack.length - 1 - m`.  The scan starts at the top; an exact
(case-insensitive) match returns immediately with distance 0; otherwise the
best (strictly smaller) distance seen wins, so ties keep the entry closest
to the top. -/
def fbLoop (closing : List Char) (threshold : Nat) :
    List (List Char × List Char) → Nat → Option (Nat × List Char × Nat) →
    Option (Nat × List Char × Nat)
  | [], _, best =>
    match best with
    | some (bm, bo, bd) => if bd ≤ threshold then some (bm, bo, bd) else none
    | none => none
  | (orig, lowr) :: stackRest, m, best =>
    if lowr = closing then some (m, orig, 0)
    else
      let d := levenshtein_distance lowr closing
      let best1 :=
        match best with
        | none => some (m, orig, d)
        | some (bm, bo, bd) => if d < bd then some (m, orig, d) else some (bm, bo, bd)
      fbLoop closing threshold stackRest (m + 1) best1

/-- `find_best_matching_tag` over a top-first stack. -/
def find_best_matching_tag (closing : List Char)
    (tagStack : List (List Char × List Char)) (threshold : Nat) :
    Option (Nat × List Char × Nat) :=
  fbLoop closing threshold tagStack 0 none

/-! ## Conversational-fluff extraction (`parser.py` `extract_xml_content`)

The three end-of-XML regexes are fixed patterns; they are embedded as
hand-rolled matchers with Python `re.search` semantics (leftmost match
start, `re.IGNORECASE` — under which `[A-Z]` also matches lowercase). -/

/-- Case-insensitive literal word: `w` (given lowercase) is a prefix of `l`
up to case; returns the rest. -/
def ciPrefix (w : List Char) (l : List Char) : Option (List Char) :=
  if lowerStr (l.take w.length) = w ∧ w.length ≤ l.length then some (l.drop w.length)
  else none

/-- `\s+` followed by a word: the phrase after the whitespace starts with a
letter, so a greedy whitespace run is equivalent. -/
def wsPlus (l : List Char) : Option (List Char) :=
  match l with
  | [] => none
  | c :: _ => if pySpace c then some (l.dropWhile pySpace) else none

/-- `Hope\s+this\s+helps` (case-insensitive) at the head. -/
def phraseHope (l : List Char) : Bool :=
  (do
    let l ← ciPrefix "hope".data l
    let l ← wsPlus l
    let l ← ciPrefix "this".data l
    let l ← wsPlus l
    let _ ← ciPrefix "helps".data l
    pure ()).isSome

/-- `Let\s+me\s+know` (case-insensitive) at the head. -/
def phraseLetMeKnow (l : List Char) : Bool :=
  (do
    let l ← ciPrefix "let".data l
    let l ← wsPlus l
    let l ← ciPrefix "me".data l
    let l ← wsPlus l
    let _ ← ciPrefix "know".data l
    pure ()).isSome

/-- `That\s+should` (case-insensitive) at the head. -/
def phraseThatShould (l : List Char) : Bool :=
  (do
    let l ← ciPrefix "that".data l
    let l ← wsPlus l
    let _ ← ciPrefix "should".data l
    pure ()).isSome

/-- `Please\s+let\s+me\s+know` (case-insensitive) at the head. -/
def phrasePlease (l : List Char) : Bool :=
  (do
    let l ← ciPrefix "please".data l
    let l ← wsPlus l
    let l ← ciPrefix "let".data l
    let l ← wsPlus l
    let l ← ciPrefix "me".data l
    let l ← wsPlus l
    let _ ← ciPrefix "know".data l
    pure ()).isSome

/-- `Is\s+this\s+what` (case-insensitive) at the head. -/
def phraseIsThisWhat (l : List Char) : Bool :=
  (do
    let l ← ciPrefix "is".data l
    let l ← wsPlus l
    let l ← ciPrefix "this".data l
    let l ← wsPlus l
    let _ ← ciPrefix "what".data l
    pure ()).isSome

/-- Pattern 1 `\s+(Hope\s+this\s+helps|Let\s+me\s+know|That\s+should)`
matches at the head: at least one whitespace character, then one of the
phrases (which start with letters, so the whitespace run is maximal). -/
def p1At (l : List Char) : Bool :=
  match l with
  | [] => false
  | c :: _ =>
    pySpace c &&
      (let a := l.dropWhile pySpace
       phraseHope a || phraseLetMeKnow a || phraseThatShould a)

/-- Pattern 2 `\s+(Please\s+let\s+me\s+know|Is\s+this\s+what)` at the head. -/
def p2At (l : List Char) : Bool :=
  match l with
  | [] => false
  | c :: _ =>
    pySpace c &&
      (let a := l.dropWhile pySpace
       phrasePlease a || phraseIsThisWhat a)

/-- The tail of pattern 3 after its `\n`: `\s*[A-Z][^<]*$` — optional
whitespace, a letter (`[A-Z]` matches both cases under `re.IGNORECASE`),
then no `<` up to the end of the text. -/
def p3AfterNl (l : List Char) : Bool :=
  match l.dropWhile pySpace with
  | [] => false
  | a :: rest => a.isAlpha && !(rest.contains '<')

/-- Pattern 3 `\s*\n\s*[A-Z][^<]*$` matches at the head: some whitespace
prefix (possibly empty) reaching a `\n`, then the tail pattern. -/
def p3At : List Char → Bool
  | [] => false
  | c :: cs =>
    if c = '\n' ∧ p3AfterNl cs then true
    else if pySpace c then p3At cs
    else false

/-- `re.search` for a fixed matcher: index of the leftmost match start. -/
def searchFirst (pAt : List Char → Bool) : List Char → Option Nat
  | [] => if pAt [] then some 0 else none
  | c :: cs =>
    if pAt (c :: cs) then some 0
    else (searchFirst pAt cs).map (· + 1)

/-- The first `<` that starts XML-like content: `<` followed by a letter or
`_ : / ! ?`. -/
def findXmlLike : List Char → Nat → Option Nat
  | [], _ => none
  | c :: cs, i =>
    match cs with
    | [] => none
    | d :: _ =>
      if c = '<' ∧ validTagStart d then some i else findXmlLike cs (i + 1)

/-- The backwards `>`-search: largest index `i` with `lo < i ≤ hi` and
`t[i] = '>'` (Python `range(potential_end - 1, xml_start, -1)`); returns
`i + 1`. -/
def findGtBack (t : List Char) : Nat → Nat → Option Nat
  | i, lo =>
    if i ≤ lo then none
    else if t.getD i ' ' = '>' then some (i + 1)
    else findGtBack t (i - 1) lo
termination_by i _ => i

/-- `extract_xml_content`: strip, optionally remove DOCTYPEs, find the XML
start, then search the three conversational end patterns in order (the first
pattern with a match wins) and truncate at the last `>` before the match. -/
def extract_xml_content (cfg : Config) (s : List Char) : List Char :=
  let t := pyStrip s
  let t := strip_external_entities_from_text cfg t
  let xmlStart? : Option Nat :=
    if "<?xml".data.isPrefixOf t then some 0 else findXmlLike t 0
  match xmlStart? with
  | none => t
  | some xs =>
    let region := t.drop xs
    let mStart? :=
      match searchFirst p1At region with
      | some k => some k
      | none =>
        match searchFirst p2At region with
        | some k => some k
        | none => searchFirst p3At region
    match mStart? with
    | none => region
    | some k =>
      let potentialEnd := xs + k
      match findGtBack t (potentialEnd - 1) xs with
      | some e => (t.take e).drop xs
      | none => region

/-! ## Namespace handling (`parser.py`) -/

def COMMON_NAMESPACES : List (List Char × List Char) :=
  [("soap".data, "http://schemas.xmlsoap.org/soap/envelope/".data),
   ("xsi".data, "http://www.w3.org/2001/XMLSchema-instance".data),
   ("xsd".data, "http://www.w3.org/2001/XMLSchema".data),
   ("xs".data, "http://www.w3.org/2001/XMLSchema".data)]

/-- The two capture groups of the prefix regex, after `<` and an optional
`/` (`slash` is 1 when the `/` was consumed): `[a-zA-Z][a-zA-Z0-9]*` then
`:` then `[a-zA-Z][a-zA-Z0-9]*`; returns the first group and the total match
length. -/
def nsGroups (r1 : List Char) (slash : Nat) : Option (List Char × Nat) :=
  match r1 with
  | [] => none
  | a :: r2 =>
    if a.isAlpha then
      match r2.drop (r2.takeWhile Char.isAlphanum).length with
      | ':' :: b :: r4 =>
        if b.isAlpha then
          some (a :: r2.takeWhile Char.isAlphanum,
            1 + slash + (1 + (r2.takeWhile Char.isAlphanum).length) + 1 + 1 +
              (r4.takeWhile Char.isAlphanum).length)
        else none
      | _ => none
    else none

/-- Match the regex `</?([a-zA-Z][a-zA-Z0-9]*):([a-zA-Z][a-zA-Z0-9]*)` at the
head; returns the prefix group and the total match length. -/
def nsMatchAt (l : List Char) : Option (List Char × Nat) :=
  match l with
  | [] => none
  | c :: r0 =>
    if c = '<' then
      match r0 with
      | [] => none
      | d :: r0t => if d = '/' then nsGroups r0t 1 else nsGroups r0 0
    else none

theorem nsGroups_pos {r1 : List Char} {s : Nat} {p : List Char} {n : Nat}
    (h : nsGroups r1 s = some (p, n)) : 0 < n := by
  unfold nsGroups at h
  repeat' split at h
  all_goals simp at h
  all_goals omega

theorem nsMatchAt_pos {l : List Char} {p : List Char} {n : Nat}
    (h : nsMatchAt l = some (p, n)) : 0 < n := by
  unfold nsMatchAt at h
  repeat' split at h
  all_goals try exact absurd h (by simp)
  all_goals exact nsGroups_pos h

/-- `re.findall` of the prefix pattern: scan left to right, non-overlapping. -/
def nsScan (l : List Char) : List (List Char) :=
  match l with
  | [] => []
  | c :: cs =>
    match hm : nsMatchAt (c :: cs) with
    | some (p, n) => p :: nsScan ((c :: cs).drop n)
    | none => nsScan cs
termination_by l.length
decreasing_by
  · have := nsMatchAt_pos hm
    simp only [List.length_drop, List.length_cons]
    omega
  · simp

/-- `extract_namespaces`: keep known prefixes, first occurrence order. -/
def extract_namespaces (xml : List Char) : List (List Char × List Char) :=
  (nsScan xml).foldl
    (fun acc p =>
      match COMMON_NAMESPACES.find? (fun kv => kv.1 = p) with
      | some kv => if (acc.map Prod.fst).contains p then acc else acc ++ [kv]
      | none => acc)
    []

/-- `' '.join`-style separator join. -/
def joinSep (sep : List Char) : List (List Char) → List Char
  | [] => []
  | [x] => x
  | x :: xs => x ++ sep ++ joinSep sep xs

/-- `inject_namespace_declarations`: insert `xmlns:p="uri"` declarations
right after the tag name.  `root_tag.split(None, 1)[0]` raises `IndexError`
on whitespace-only content, modelled by `none`. -/
def inject_namespace_declarations (rootTag : List Char)
    (namespaces : List (List Char × List Char)) : Option (List Char) :=
  if namespaces = [] then some rootTag
  else
    let decls := joinSep [' ']
      (namespaces.map (fun kv => "xmlns:".data ++ kv.1 ++ "=\"".data ++ kv.2 ++ ['"']))
    match pySplit1 rootTag with
    | [] => none
    | [w] => some (w ++ [' '] ++ decls)
    | w :: r :: _ => some (w ++ [' '] ++ decls ++ [' '] ++ r)

/-! ## Preprocessor

Modelled from the spec: `preprocessor.py` (`XMLPreprocessor.preprocess`) is
not among the provided sources (only its import and call sites are).  Spec
§4.1 and the engine docstrings describe a single pass that rewrites invalid
tag names by inserting a fixed prefix (`<123>` → `<tag_123>`, same for the
closing tag) and flattens invalid namespace syntax (`<bad::ns>` →
`<bad_ns>`), each gated by its repair flag; with both flags off the text
passes through unchanged. -/

/-- Modelled from the spec: invalid-tag-name sanitisation — insert `tag_`
after `<` or `</` when a digit follows. -/
def sanitizeTags : List Char → List Char
  | [] => []
  | c :: cs =>
    if c = '<' then
      match hcs : cs with
      | [] => ['<']
      | d :: cs2 =>
        if d = '/' then
          match hcs2 : cs2 with
          | [] => '<' :: sanitizeTags (d :: cs2)
          | e :: cs3 =>
            if e.isDigit then '<' :: '/' :: ("tag_".data ++ sanitizeTags (e :: cs3))
            else '<' :: sanitizeTags (d :: e :: cs3)
        else if d.isDigit then '<' :: ("tag_".data ++ sanitizeTags (d :: cs2))
        else '<' :: sanitizeTags (d :: cs2)
    else c :: sanitizeTags cs
termination_by l => l.length
decreasing_by
  all_goals
    (try subst hcs
     try subst hcs2
     simp only [List.length_cons, List.length_nil]
     omega)

/-- Modelled from the spec: namespace-syntax repair — flatten `::` to `_`. -/
def fixNsSyntax (l : List Char) : List Char := replaceAll "::".data "_".data l

/-- Modelled from the spec: `XMLPreprocessor.preprocess`. -/
def preprocess (cfg : Config) (s : List Char) : List Char :=
  let s := if cfg.sanitizeInvalidTags then sanitizeTags s else s
  if cfg.fixNamespaceSyntax then fixNsSyntax s else s

/-! ## Rebuild pass (`parser.py` `repair_xml`, step 3)

The pass emits output pieces; they are recorded as a trace of `OutItem`s
(one per `result.append`) so that emission-level properties (tag balance,
nesting) can be stated.  The rendered output string is the concatenation of
the rendered items.  Items that open or close elements record whether the
open-tag stack was pushed (`pushed`) — a push happens exactly when a usable
`tag_name` token follows. -/

def CDATA_CANDIDATE_TAGS : List (List Char) :=
  ["code".data, "script".data, "pre".data, "source".data, "sql".data,
   "query".data, "formula".data, "expression".data, "xpath".data, "regex".data]

def isCdataCandidateTag (tagName : List Char) : Bool :=
  CDATA_CANDIDATE_TAGS.contains (lowerStr tagName)

/-- `_content_needs_cdata`: empty/whitespace-only content never needs CDATA;
otherwise any of `<`, `>`, `&` triggers it. -/
def contentNeedsCdata (content : List Char) : Bool :=
  if content.all pySpace then false
  else content.contains '<' || content.contains '>' || content.contains '&'

/-- `_wrap_in_cdata`: wrap in a CDATA section, splitting any embedded
`]]>`. -/
def wrapInCdata (content : List Char) : List Char :=
  let safe := replaceAll "]]>".data "]]]]><![CDATA[>".data content
  "<![CDATA[".data ++ safe ++ "]]>".data

inductive OutItem where
  | piOut (content : List Char)
  | openOut (content : List Char) (pushed : Option (List Char))
  | closePop (name : List Char)
  | closeVerbatim (content : List Char)
  | selfCloseOut (content : List Char)
  | incompleteOut (content : List Char) (pushed : Option (List Char))
  | textOut (content : List Char)
  | wsOut (content : List Char)
  | cdataWrapOut (content : List Char)
  | doctypeOut (content : List Char)
  | commentOut (content : List Char)
  | cdataOut (content : List Char)
deriving DecidableEq, Repr

/-- The rendered text of one emitted piece (what `result.append` appends). -/
def renderItem : OutItem → List Char
  | .piOut c => c
  | .openOut c _ => '<' :: (c ++ ['>'])
  | .closePop n => '<' :: '/' :: (n ++ ['>'])
  | .closeVerbatim c => '<' :: '/' :: (c ++ ['>'])
  | .selfCloseOut c => '<' :: (c ++ "/>".data)
  | .incompleteOut c _ => '<' :: (c ++ ['>'])
  | .textOut c => c
  | .wsOut c => c
  | .cdataWrapOut c => c
  | .doctypeOut c => c
  | .commentOut c => c
  | .cdataOut c => c

structure RebuildState where
  items : List OutItem := []
  /-- Open-tag stack, most recently opened FIRST (Python keeps it last). -/
  tagStack : List (List Char × List Char) := []
  /-- Dangerous-tag stack in Python order (appended at the end; the close
  scan searches from the oldest entry). -/
  dangerStack : List (List Char × List Char) := []
  firstOpenTag : Bool := true
  textBuffer : List (List Char) := []
  inCdataCandidate : Bool := false
deriving DecidableEq, Repr

/-- `flush_text_buffer`. -/
def flushBuffer (cfg : Config) (st : RebuildState) : RebuildState :=
  if st.textBuffer = [] then st
  else
    let combined := st.textBuffer.flatten
    let item :=
      if st.inCdataCandidate ∧ cfg.autoWrapCdata ∧ contentNeedsCdata combined then
        OutItem.cdataWrapOut (wrapInCdata combined)
      else OutItem.textOut (escape_entities combined)
    { st with items := st.items ++ [item], textBuffer := [] }

/-- Remove the first (oldest) dangerous-stack entry whose lowercase name
matches, if any. -/
def removeFirstMatch (closing : List Char) :
    List (List Char × List Char) → Option (List (List Char × List Char))
  | [] => none
  | (o, lw) :: rest =>
    if lw = closing then some rest
    else (removeFirstMatch closing rest).map ((o, lw) :: ·)

/-- One step plus the remainder of the rebuild loop over the token list.
`none` models a Python exception (`IndexError` in
`inject_namespace_declarations` or `is_dangerous_tag`). -/
def rebuildGo (cfg : Config) (ns : List (List Char × List Char)) :
    List Token → RebuildState → Option RebuildState
  | [], st => some st
  | t :: rest, st =>
    match t.type with
    | .processingInstruction =>
      if should_strip_dangerous_pi cfg t.content then rebuildGo cfg ns rest st
      else rebuildGo cfg ns rest { st with items := st.items ++ [.piOut t.content] }
    | .openTag =>
      let st1 := flushBuffer cfg st
      let tagName? : Option (List Char) :=
        match rest with
        | t2 :: _ => if t2.type = TokType.tagName then some t2.content else none
        | [] => none
      let dang? : Option Bool :=
        match tagName? with
        | some tn =>
          if tn ≠ [] then should_strip_dangerous_tag cfg tn else some false
        | none => some false
      match dang? with
      | none => none
      | some true =>
        let tn := tagName?.getD []
        rebuildGo cfg ns rest.tail
          { st1 with dangerStack := st1.dangerStack ++ [(tn, lowerStr tn)] }
      | some false =>
        let content1? :=
          if st1.firstOpenTag ∧ ns ≠ [] then inject_namespace_declarations t.content ns
          else some t.content
        match content1? with
        | none => none
        | some content1 =>
          match tagName? with
          | some tn =>
            if tn ≠ [] then
              rebuildGo cfg ns rest.tail
                { st1 with
                  items := st1.items ++ [.openOut content1 (some tn)],
                  tagStack := (tn, lowerStr tn) :: st1.tagStack,
                  inCdataCandidate := isCdataCandidateTag tn,
                  firstOpenTag := false }
            else
              -- empty tag-name content: no push, the stray token is ignored
              -- by the loop's next iteration
              rebuildGo cfg ns rest
                { st1 with
                  items := st1.items ++ [.openOut content1 none],
                  firstOpenTag := false }
          | none =>
            rebuildGo cfg ns rest
              { st1 with
                items := st1.items ++ [.openOut content1 none],
                firstOpenTag := false }
    | .closeTag =>
      let st1 := flushBuffer cfg st
      let st2 := { st1 with inCdataCandidate := false }
      let closing := lowerStr t.content
      let removed? : Option (List (List Char × List Char)) :=
        if cfg.stripDangerousTags ∧ st2.dangerStack ≠ [] then
          removeFirstMatch closing st2.dangerStack
        else none
      match removed? with
      | some ds => rebuildGo cfg ns rest { st2 with dangerStack := ds }
      | none =>
        match find_best_matching_tag closing st2.tagStack cfg.matchThreshold with
        | some (m, _, _) =>
          let closes := (st2.tagStack.take (m + 1)).map (fun p => OutItem.closePop p.1)
          rebuildGo cfg ns rest
            { st2 with
              items := st2.items ++ closes,
              tagStack := st2.tagStack.drop (m + 1) }
        | none =>
          rebuildGo cfg ns rest
            { st2 with items := st2.items ++ [.closeVerbatim t.content] }
    | .selfClosingTag =>
      let st1 := flushBuffer cfg st
      rebuildGo cfg ns rest { st1 with items := st1.items ++ [.selfCloseOut t.content] }
    | .incompleteTag =>
      let st1 := flushBuffer cfg st
      let content1? :=
        if st1.firstOpenTag ∧ ns ≠ [] then inject_namespace_declarations t.content ns
        else some t.content
      match content1? with
      | none => none
      | some content1 =>
        match rest with
        | t2 :: rest2 =>
          if t2.type = TokType.tagName then
            rebuildGo cfg ns rest2
              { st1 with
                items := st1.items ++ [.incompleteOut content1 (some t2.content)],
                tagStack := (t2.content, lowerStr t2.content) :: st1.tagStack,
                firstOpenTag := false }
          else
            rebuildGo cfg ns (t2 :: rest2)
              { st1 with
                items := st1.items ++ [.incompleteOut content1 none],
                firstOpenTag := false }
        | [] =>
          rebuildGo cfg ns []
            { st1 with
              items := st1.items ++ [.incompleteOut content1 none],
              firstOpenTag := false }
    | .text =>
      if st.inCdataCandidate ∧ cfg.autoWrapCdata then
        rebuildGo cfg ns rest { st with textBuffer := st.textBuffer ++ [t.content] }
      else
        rebuildGo cfg ns rest
          { st with items := st.items ++ [.textOut (escape_entities t.content)] }
    | .whitespace =>
      if st.inCdataCandidate ∧ cfg.autoWrapCdata then
        rebuildGo cfg ns rest { st with textBuffer := st.textBuffer ++ [t.content] }
      else
        rebuildGo cfg ns rest { st with items := st.items ++ [.wsOut t.content] }
    | .doctype =>
      rebuildGo cfg ns rest { st with items := st.items ++ [.doctypeOut t.content] }
    | .comment =>
      rebuildGo cfg ns rest { st with items := st.items ++ [.commentOut t.content] }
    | .cdata =>
      rebuildGo cfg ns rest { st with items := st.items ++ [.cdataOut t.content] }
    | .tagName =>
      -- a tag_name token reached directly has no handler: it is skipped
      rebuildGo cfg ns rest st
termination_by ts _ => ts.length
decreasing_by
  all_goals
    (simp only [List.length_tail, List.length_cons, List.length_nil]
     omega)

/-- Steps 3(end)+4: flush the buffer, then close every remaining open tag in
LIFO order using the original-case names. -/
def rebuildFinish (cfg : Config) (st : RebuildState) : RebuildState :=
  let st1 := flushBuffer cfg st
  { st1 with
    items := st1.items ++ st1.tagStack.map (fun p => OutItem.closePop p.1),
    tagStack := [] }

/-- The full emission trace of the rebuild pass on a token list. -/
def rebuildTrace (cfg : Config) (ns : List (List Char × List Char))
    (tokens : List Token) : Option (List OutItem) :=
  (rebuildGo cfg ns tokens {}).map (fun st => (rebuildFinish cfg st).items)

/-- `_wrap_multiple_roots` (step 5, only when the flag is on). -/
def wrap_multiple_roots (repaired : List Char) : List Char :=
  let tokens := tokenize repaired
  let scan :=
    tokens.foldl
      (fun (acc : Int × Nat × Bool × Option (List Char) × List (List Char)) t =>
        let (depth, rootCount, hasText, xmlDecl, pis) := acc
        match t.type with
        | .processingInstruction =>
          if "<?xml".data.isPrefixOf t.content then
            (depth, rootCount, hasText, some t.content, pis)
          else if depth = 0 then (depth, rootCount, hasText, xmlDecl, pis ++ [t.content])
          else acc
        | .openTag => (depth + 1, (if depth = 0 then rootCount + 1 else rootCount),
            hasText, xmlDecl, pis)
        | .incompleteTag => (depth + 1, (if depth = 0 then rootCount + 1 else rootCount),
            hasText, xmlDecl, pis)
        | .closeTag => (depth - 1, rootCount, hasText, xmlDecl, pis)
        | .selfClosingTag => (depth, (if depth = 0 then rootCount + 1 else rootCount),
            hasText, xmlDecl, pis)
        | .text =>
          if depth = 0 ∧ pyStrip t.content ≠ [] then
            (depth, rootCount, true, xmlDecl, pis)
          else acc
        | _ => acc)
      ((0 : Int), 0, false, none, [])
  let rootCount := scan.2.1
  let hasText := scan.2.2.1
  let xmlDecl := scan.2.2.2.1
  let pis := scan.2.2.2.2
  if rootCount ≤ 1 ∧ ¬hasText then repaired
  else
    let declPart :=
      match xmlDecl with
      | some d => d ++ ['\n']
      | none => []
    let pisPart := (pis.map (fun p => p ++ ['\n'])).flatten
    let content :=
      match xmlDecl with
      | some d => replaceFirst d [] repaired
      | none => repaired
    let content := pis.foldl (fun acc p => replaceFirst p [] acc) content
    declPart ++ pisPart ++ "<document>".data ++ pyStrip content ++ "</document>".data

/-- The emission trace of `repair_xml`'s rebuild pass on an input
(pipeline steps 1–4: preprocess, fluff extraction, namespace scan, tokenize,
rebuild). -/
def repairTrace (cfg : Config) (s : List Char) : Option (List OutItem) :=
  let s1 := preprocess cfg s
  let cleaned := extract_xml_content cfg s1
  rebuildTrace cfg (extract_namespaces cleaned) (tokenize cleaned)

/-- `XMLRepairEngine.repair_xml`: the full pipeline.  `none` models the
(unreachable, as proven below) Python exception paths. -/
def repair_xml (cfg : Config) (s : List Char) : Option (List Char) :=
  match repairTrace cfg s with
  | none => none
  | some items =>
    let repaired := (items.map renderItem).flatten
    if cfg.wrapMultipleRoots then some (wrap_multiple_roots repaired)
    else some repaired

/-- Emitted element open tags (spec: "open tags emitted"): open-tag and
completed incomplete-tag emissions. -/
def isOpenEmit : OutItem → Bool
  | .openOut _ _ => true
  | .incompleteOut _ _ => true
  | _ => false

/-- Emitted element close tags: stack pops and verbatim closes. -/
def isCloseEmit : OutItem → Bool
  | .closePop _ => true
  | .closeVerbatim _ => true
  | _ => false

/-- String-level wrapper for `repair_xml`. -/
def repairXmlS (cfg : Config) (s : String) : Option String :=
  (repair_xml cfg s.data).map (fun l => (⟨l⟩ : String))

/-! ## Streaming proof of concept (`poc_streaming.py`
`StreamingXMLRepairPOC`)

The session state holds exactly the fields of the Python object: a pending
buffer, the lexer state, the tag stack (most recent FIRST here; Python
appends and pops at the end) and the `saw_first_tag` flag.  There is no
depth counter and no abort state. -/

inductive PState where
  | initial | inText | inTag
deriving DecidableEq, Repr

structure PocState where
  buffer : List Char := []
  state : PState := PState.initial
  tagStack : List (List Char) := []
  sawFirstTag : Bool := false
deriving DecidableEq, Repr

/-- `_escape_entities`: three bare sequential replaces (no entity
preservation, unlike the core engine's escaper). -/
def pocEscape (l : List Char) : List Char :=
  replaceAll ['>'] "&gt;".data (replaceAll ['<'] "&lt;".data (replaceAll ['&'] "&amp;".data l))

/-- `_repair_tag`: handle one complete `<...>` tag; no attribute repair is
applied (the source leaves "Could add attribute quoting here" comments). -/
def pocRepairTag (tagStr : List Char) (stack : List (List Char)) :
    List Char × List (List Char) :=
  let t := pyStrip tagStr
  if "<?".data.isPrefixOf t ∨ "<!".data.isPrefixOf t then (t, stack)
  else if "/>".data.isSuffixOf t then (t, stack)
  else if "</".data.isPrefixOf t then
    let name := pyStrip ((t.drop 2).dropLast)
    match stack with
    | top :: rest => if top = name then (t, rest) else (t, stack)
    | [] => (t, stack)
  else
    let content := pyStrip ((t.drop 1).dropLast)
    let name := match pySplit1 content with | w :: _ => w | [] => content
    (t, name :: stack)

/-- `_repair_incomplete_tag`: close a truncated opening tag at EOF and push
its name. -/
def pocRepairIncomplete (tagStr : List Char) (stack : List (List Char)) :
    List Char × List (List Char) :=
  let t := pyStrip tagStr
  if "<".data.isPrefixOf t ∧ ¬ "</".data.isPrefixOf t then
    let t2 := if ¬ ">".data.isSuffixOf t then t ++ ['>'] else t
    let content := pyStrip ((t2.drop 1).dropLast)
    let name := match pySplit1 content with | w :: _ => w | [] => content
    (t2, name :: stack)
  else (t, stack)

theorem findSubIdx_lt {pat l : List Char} {k : Nat} (hp : pat ≠ [])
    (h : findSubIdx pat l = some k) : k < l.length := by
  induction l generalizing k with
  | nil =>
    simp only [findSubIdx] at h
    split at h <;> simp_all
  | cons c cs ih =>
    simp only [findSubIdx] at h
    split at h
    · simp only [Option.some.injEq] at h
      subst h
      simp
    · simp only [Option.map_eq_some'] at h
      obtain ⟨k0, hk0, hk⟩ := h
      subst hk
      have := ih hk0
      simp only [List.length_cons]
      omega

def pocWeight : PState → Nat
  | .initial => 2
  | .inText => 1
  | .inTag => 0

/-- The `while True` loop body of `feed`, run to its `break`: returns the
yielded pieces in order and the final session state. -/
def pocFeedLoop (st : PocState) : List (List Char) × PocState :=
  match hst : st.state with
  | .initial =>
    match hf : findSubIdx ['<'] st.buffer with
    | none => ([], st)
    | some idx =>
      pocFeedLoop
        { st with
          buffer := st.buffer.drop idx
          state := PState.inText
          sawFirstTag := true }
  | .inText =>
    match hf : findSubIdx ['<'] st.buffer with
    | none =>
      if st.buffer.length > 10 then
        let text := st.buffer.take (st.buffer.length - 5)
        let st1 := { st with buffer := st.buffer.drop (st.buffer.length - 5) }
        ((if text ≠ [] then [pocEscape text] else []), st1)
      else ([], st)
    | some idx =>
      if idx > 0 then
        let text := st.buffer.take idx
        let res := pocFeedLoop
          { st with
            buffer := st.buffer.drop idx
            state := PState.inTag }
        (pocEscape text :: res.1, res.2)
      else
        pocFeedLoop { st with state := PState.inTag }
  | .inTag =>
    match hf : findSubIdx ['>'] st.buffer with
    | none => ([], st)
    | some e =>
      let tagStr := st.buffer.take (e + 1)
      let rep := pocRepairTag tagStr st.tagStack
      let st1 :=
        { st with
          buffer := st.buffer.drop (e + 1)
          tagStack := rep.2
          state := PState.inText }
      let res := pocFeedLoop st1
      ((if rep.1 ≠ [] then [rep.1] else []) ++ res.1, res.2)
termination_by 2 * st.buffer.length + pocWeight st.state
decreasing_by
  · simp only [hst, pocWeight, List.length_drop]
    omega
  · simp only [hst, pocWeight, List.length_drop]
    omega
  · simp only [hst, pocWeight]
    omega
  · have := findSubIdx_lt (by simp) hf
    simp only [hst, pocWeight, List.length_drop]
    omega

/-- `feed(chunk)`. -/
def pocFeed (st : PocState) (chunk : List Char) : List (List Char) × PocState :=
  pocFeedLoop { st with buffer := st.buffer ++ chunk }

/-- `finalize()`. -/
def pocFinalize (st : PocState) : List (List Char) :=
  let first : List (List Char) × List (List Char) :=
    if st.buffer ≠ [] then
      match st.state with
      | PState.inTag =>
        let rep := pocRepairIncomplete st.buffer st.tagStack
        ((if rep.1 ≠ [] then [rep.1] else []), rep.2)
      | PState.inText =>
        ((if pyStrip st.buffer ≠ [] then [pocEscape st.buffer] else []), st.tagStack)
      | PState.initial => ([], st.tagStack)
    else ([], st.tagStack)
  first.1 ++ first.2.map (fun n => "</".data ++ (n ++ ['>']))

/-- Feed a list of chunks in sequence, collecting all yields. -/
def pocFeedAll (st : PocState) (chunks : List (List Char)) :
    List (List Char) × PocState :=
  chunks.foldl
    (fun acc chunk =>
      let r := pocFeed acc.2 chunk
      (acc.1 ++ r.1, r.2))
    ([], st)

/-- Full session output on a chunk list: all of `feed`'s yields then all of
`finalize`'s yields, concatenated. -/
def pocRun (chunks : List (List Char)) : List Char :=
  let r := pocFeedAll {} chunks
  (r.1 ++ pocFinalize r.2).flatten

/-! ## Specification-side notions

Definitions in this section follow the SPEC's wording (substring occurrence,
first whitespace-delimited token, minimal edit distance with innermost-first
tie-breaking, emission-level tag balance); the theorems below relate them to
the embedded source functions. -/

/-- `pat` occurs as a contiguous substring of `l`. -/
def OccursIn (pat l : List Char) : Prop := ∃ a b, l = a ++ pat ++ b

theorem isPrefixOf_iff {p l : List Char} :
    p.isPrefixOf l = true ↔ ∃ t, l = p ++ t := by
  rw [List.isPrefixOf_iff_prefix]
  constructor
  · intro h
    obtain ⟨t, ht⟩ := h
    exact ⟨t, ht.symm⟩
  · intro ⟨t, ht⟩
    exact ⟨t, ht.symm⟩

theorem containsSub_iff {pat l : List Char} :
    containsSub pat l = true ↔ OccursIn pat l := by
  induction l with
  | nil =>
    simp only [containsSub, findSubIdx, OccursIn]
    constructor
    · intro h
      split at h
      · rename_i hp
        exact ⟨[], [], by simp [hp]⟩
      · simp at h
    · intro ⟨a, b, hab⟩
      have ha : a = [] := by
        cases a <;> simp_all
      have hp : pat = [] := by
        subst ha
        cases pat <;> simp_all
      simp [hp]
  | cons c cs ih =>
    simp only [containsSub, findSubIdx] at *
    constructor
    · intro h
      split at h
      · rename_i hpre
        obtain ⟨t, ht⟩ := isPrefixOf_iff.mp hpre
        exact ⟨[], t, by simp [ht]⟩
      · simp only [Option.isSome_map'] at h
        obtain ⟨a, b, hab⟩ := ih.mp h
        exact ⟨c :: a, b, by simp [hab]⟩
    · intro ⟨a, b, hab⟩
      split
      · simp
      · rename_i hpre
        simp only [Option.isSome_map']
        apply ih.mpr
        cases a with
        | nil =>
          exfalso
          apply hpre
          apply isPrefixOf_iff.mpr
          exact ⟨b, by simpa using hab⟩
        | cons a0 arest =>
          simp only [List.cons_append, List.cons.injEq] at hab
          exact ⟨arest, b, hab.2⟩

/-! ### C9 — security predicates -/

/-- C9 (counterexample): the claim says `is_dangerous_tag` is a pure
function of its string argument returning a boolean by the first-token rule;
on the nonempty all-whitespace input `"   "` the code instead raises
`IndexError` (`"   ".lower().split()[0]` on an empty split), modelled as
`none`. -/
theorem C9_counterexample : is_dangerous_tag "   ".data = none := by decide

/-- C9 (amended): `is_dangerous_pi` and `contains_external_entity` are total
pure predicates — dangerous-PI detection holds exactly when some `<?name`
denylist pattern occurs in the lowercased text, external-entity detection
exactly when `SYSTEM` or `PUBLIC` occurs in the uppercased text;
`is_dangerous_tag` follows the case-insensitive first-token denylist rule
whenever a first token exists (and returns false on the empty string), but
fails with `IndexError` on nonempty all-whitespace input; and each
`should_strip*` holds only when both the policy flag and the predicate hold,
the flag being checked first (so a cleared flag short-circuits to false
without consulting the predicate). -/
theorem C9_security_predicates :
    (∀ s : List Char, is_dangerous_pi s = true ↔
        ∃ p ∈ DANGEROUS_PI_PATTERNS, OccursIn ("<?".data ++ p) (lowerStr s)) ∧
    (∀ s : List Char, contains_external_entity s = true ↔
        (OccursIn "SYSTEM".data (upperStr s) ∨ OccursIn "PUBLIC".data (upperStr s))) ∧
    (is_dangerous_tag [] = some false) ∧
    (∀ s w : List Char, pyFirstWord? (lowerStr s) = some w →
        is_dangerous_tag s = some (decide (w ∈ DANGEROUS_TAGS))) ∧
    (∀ s : List Char, s ≠ [] → pyFirstWord? (lowerStr s) = none →
        is_dangerous_tag s = none) ∧
    (∀ (cfg : Config) (s : List Char),
        should_strip_dangerous_pi cfg s = (cfg.stripDangerousPis && is_dangerous_pi s)) ∧
    (∀ (cfg : Config) (s : List Char), cfg.stripDangerousTags = false →
        should_strip_dangerous_tag cfg s = some false) ∧
    (∀ (cfg : Config) (s : List Char), cfg.stripDangerousTags = true →
        should_strip_dangerous_tag cfg s = is_dangerous_tag s) := by
  refine ⟨?_, ?_, ?_, ?_, ?_, ?_, ?_, ?_⟩
  · intro s
    simp only [is_dangerous_pi, List.any_eq_true]
    constructor
    · intro ⟨p, hp, hc⟩
      exact ⟨p, hp, containsSub_iff.mp hc⟩
    · intro ⟨p, hp, hc⟩
      exact ⟨p, hp, containsSub_iff.mpr hc⟩
  · intro s
    simp only [contains_external_entity, Bool.or_eq_true]
    constructor
    · intro h
      rcases h with h | h
      · exact Or.inl (containsSub_iff.mp h)
      · exact Or.inr (containsSub_iff.mp h)
    · intro h
      rcases h with h | h
      · exact Or.inl (containsSub_iff.mpr h)
      · exact Or.inr (containsSub_iff.mpr h)
  · decide
  · intro s w hw
    have hs : s ≠ [] := by
      intro h
      subst h
      simp [pyFirstWord?, lowerStr] at hw
    simp only [is_dangerous_tag, hs, if_neg, hw]
    simp
  · intro s hs hw
    simp only [is_dangerous_tag, hs, if_neg, hw]
    simp
  · intro cfg s
    rfl
  · intro cfg s h
    simp [should_strip_dangerous_tag, h]
  · intro cfg s h
    simp [should_strip_dangerous_tag, h]

/-- C9 (witness): the amended theorem applied at concrete inputs. -/
theorem C9_witness :
    is_dangerous_tag "SCRIPT onclick".data = some true ∧
    should_strip_dangerous_tag { stripDangerousTags := false } "script".data = some false := by
  constructor
  · have := C9_security_predicates.2.2.2.1 "SCRIPT onclick".data "script".data (by decide)
    rw [this]
    decide
  · exact C9_security_predicates.2.2.2.2.2.2.1 { stripDangerousTags := false }
      "script".data rfl

/-! ### C5 — truncation closes cleanly -/

unseal replaceAll subEntities attrLoop tokGo dtScan stripDoctypes nsScan
  sanitizeTags findGtBack rebuildGo in
/-- C5: `repair("<root><user name=\"alice\"")` returns exactly
`"<root><user name=\"alice\"></user></root>"`; the rebuild trace shows the
truncated tag being completed (an incomplete-tag emission that pushes
`user`) and, at end of input, the two remaining stack entries popped and
closed in LIFO order (`</user>` before `</root>`) with their original-case
names. -/
theorem C5_truncation_closes :
    repairXmlS defaultConfig "<root><user name=\"alice\"" =
      some "<root><user name=\"alice\"></user></root>" ∧
    repairTrace defaultConfig "<root><user name=\"alice\"".data =
      some [OutItem.openOut "root".data (some "root".data),
        OutItem.incompleteOut "user name=\"alice\"".data (some "user".data),
        OutItem.closePop "user".data,
        OutItem.closePop "root".data] := by
  constructor
  · decide
  · decide

/-! ### C7 — unquoted attribute values -/

unseal replaceAll subEntities attrLoop tokGo dtScan stripDoctypes nsScan
  sanitizeTags findGtBack rebuildGo in
/-- C7: `repair("<item id=123 type=product name=widget>")` returns exactly
`"<item id=\"123\" type=\"product\" name=\"widget\"></item>"`; the unquoted
value scan retains internal whitespace up to the next `word=` lookahead
(`name=John Smith age=30` splits value `John Smith` before `age=30`); and a
retained value is re-emitted double-quoted after the attribute escaper
(`b=<x>` becomes `b="&lt;x&gt;"`). -/
theorem C7_unquoted_attributes :
    repairXmlS defaultConfig "<item id=123 type=product name=widget>" =
      some "<item id=\"123\" type=\"product\" name=\"widget\"></item>" ∧
    (fix_malformed_attributes "p name=John Smith age=30".data).1 =
      "p name=\"John Smith\" age=\"30\"".data ∧
    (fix_malformed_attributes "a b=<x>".data).1 = "a b=\"&lt;x&gt;\"".data := by
  refine ⟨?_, ?_, ?_⟩ <;> decide

/-! ### C2 — streaming equivalence -/

unseal replaceAll subEntities attrLoop tokGo dtScan stripDoctypes nsScan
  sanitizeTags findGtBack rebuildGo pocFeedLoop in
/-- C2: the streaming proof of concept does NOT repair a complete tag as the
core engine would: `_repair_tag` applies no attribute repair (and pops only
on an exact top-of-stack match), so feeding `"<user name=john>"` yields the
tag verbatim and the full session output differs from the core engine's
repair of the same input, which quotes the attribute. -/
theorem C2_streaming_divergence :
    pocRun ["<user name=john>".data] = "<user name=john></user>".data ∧
    repair_xml defaultConfig "<user name=john>".data =
      some "<user name=\"john\"></user>".data ∧
    (pocRepairTag "<user name=john>".data []).1 = "<user name=john>".data ∧
    pocRun ["<user name=john>".data] ≠
      (repair_xml defaultConfig "<user name=john>".data).getD [] := by
  refine ⟨?_, ?_, ?_, ?_⟩ <;> decide

/-! ### C6 — streaming depth guard -/

/-- `n` consecutive nested opening tags, as one chunk. -/
def nestedOpens (n : Nat) : List Char := (List.replicate n "<a>".data).flatten

theorem pocRepairTag_a (stk : List (List Char)) :
    pocRepairTag ['<', 'a', '>'] stk = (['<', 'a', '>'], ['a'] :: stk) := rfl

/-- In text state at a `<`, the loop moves to tag state without consuming. -/
theorem pocFeedLoop_stepText (rest : List Char) (stk : List (List Char)) (b : Bool) :
    pocFeedLoop
      { buffer := '<' :: 'a' :: '>' :: rest
        state := PState.inText
        tagStack := stk
        sawFirstTag := b } =
    pocFeedLoop
      { buffer := '<' :: 'a' :: '>' :: rest
        state := PState.inTag
        tagStack := stk
        sawFirstTag := b } := by
  conv_lhs => rw [pocFeedLoop]
  split
  · rename_i heq
    simp at heq
  · rename_i heq
    split
    · rename_i hf
      dsimp only at hf
      have h0 : findSubIdx ['<'] ('<' :: 'a' :: '>' :: rest) = some 0 := rfl
      rw [h0] at hf
      cases hf
    · rename_i idx hf
      dsimp only at hf
      have h0 : findSubIdx ['<'] ('<' :: 'a' :: '>' :: rest) = some 0 := rfl
      rw [h0] at hf
      have hidx : idx = 0 := by
        injection hf with h
        omega
      subst hidx
      simp
  · rename_i heq
    simp at heq

/-- In tag state on a complete `<a>`, the loop yields the tag verbatim and
pushes its name. -/
theorem pocFeedLoop_stepTag (rest : List Char) (stk : List (List Char)) (b : Bool) :
    pocFeedLoop
      { buffer := '<' :: 'a' :: '>' :: rest
        state := PState.inTag
        tagStack := stk
        sawFirstTag := b } =
    (("<a>".data) :: (pocFeedLoop
      { buffer := rest
        state := PState.inText
        tagStack := "a".data :: stk
        sawFirstTag := b }).1,
     (pocFeedLoop
      { buffer := rest
        state := PState.inText
        tagStack := "a".data :: stk
        sawFirstTag := b }).2) := by
  conv_lhs => rw [pocFeedLoop]
  split
  · rename_i heq
    simp at heq
  · rename_i heq
    simp at heq
  · split
    · rename_i hf
      dsimp only at hf
      have h2 : findSubIdx ['>'] ('<' :: 'a' :: '>' :: rest) = some 2 := by
        simp [findSubIdx, List.isPrefixOf]
      rw [h2] at hf
      cases hf
    · rename_i e hf
      dsimp only at hf
      have h2 : findSubIdx ['>'] ('<' :: 'a' :: '>' :: rest) = some 2 := by
        simp [findSubIdx, List.isPrefixOf]
      rw [h2] at hf
      have he : e = 2 := by
        injection hf with h
        omega
      subst he
      simp [pocRepairTag_a]

/-- The initial state discards nothing when the buffer starts at a `<` and
moves to text state. -/
theorem pocFeedLoop_stepInit (rest : List Char) :
    pocFeedLoop
      { buffer := '<' :: rest
        state := PState.initial
        tagStack := []
        sawFirstTag := false } =
    pocFeedLoop
      { buffer := '<' :: rest
        state := PState.inText
        tagStack := []
        sawFirstTag := true } := by
  conv_lhs => rw [pocFeedLoop]
  split
  · rename_i heq
    split
    · rename_i hf
      dsimp only at hf
      have h0 : findSubIdx ['<'] ('<' :: rest) = some 0 := by
        simp [findSubIdx, List.isPrefixOf]
      rw [h0] at hf
      cases hf
    · rename_i idx hf
      dsimp only at hf
      have h0 : findSubIdx ['<'] ('<' :: rest) = some 0 := by
        simp [findSubIdx, List.isPrefixOf]
      rw [h0] at hf
      have hidx : idx = 0 := by
        injection hf with h
        omega
      subst hidx
      simp
  · rename_i heq
    simp at heq
  · rename_i heq
    simp at heq

/-- The feed loop on a buffer of `n` nested opens (in text state) yields all
`n` tags and pushes all `n` names; nothing ever aborts. -/
theorem pocLoop_nested (n : Nat) :
    ∀ (stk : List (List Char)) (b : Bool),
    pocFeedLoop
      { buffer := nestedOpens n
        state := PState.inText
        tagStack := stk
        sawFirstTag := b } =
    (List.replicate n "<a>".data,
     { buffer := []
       state := PState.inText
       tagStack := List.replicate n "a".data ++ stk
       sawFirstTag := b }) := by
  induction n with
  | zero =>
    intro stk b
    rw [pocFeedLoop]
    simp [nestedOpens, findSubIdx]
  | succ n ih =>
    intro stk b
    have hbuf : nestedOpens (n + 1) = '<' :: 'a' :: '>' :: nestedOpens n := by
      simp only [nestedOpens, List.replicate_succ, List.flatten_cons]
      rfl
    rw [hbuf, pocFeedLoop_stepText, pocFeedLoop_stepTag, ih ("a".data :: stk) b]
    rw [Prod.ext_iff]
    refine ⟨?_, ?_⟩
    · simp [List.replicate_succ]
    · simp [List.replicate_succ']

/-- C6: the streaming session of `poc_streaming.py` has NO depth guard: its
state carries no depth counter or `maxNestingDepth`, and feeding `n`
consecutive nested opening tags — for EVERY `n` — yields all `n` tags and
leaves a stack of depth `n`; no abort path exists and output never stops,
contradicting the claimed fatal abort beyond a configured bound. -/
theorem C6_no_depth_guard (n : Nat) :
    (pocFeed {} (nestedOpens n)).1 = List.replicate n "<a>".data ∧
    (pocFeed {} (nestedOpens n)).2.tagStack = List.replicate n "a".data := by
  cases n with
  | zero =>
    constructor <;> (rw [pocFeed, pocFeedLoop]; simp [nestedOpens, findSubIdx])
  | succ n =>
    have hbuf : nestedOpens (n + 1) = '<' :: 'a' :: '>' :: nestedOpens n := by
      simp only [nestedOpens, List.replicate_succ, List.flatten_cons]
      rfl
    have hinit :
        pocFeed {} (nestedOpens (n + 1)) =
        pocFeedLoop
          { buffer := '<' :: 'a' :: '>' :: nestedOpens n
            state := PState.inText
            tagStack := []
            sawFirstTag := true } := by
      have h0 : pocFeed {} (nestedOpens (n + 1)) =
          pocFeedLoop
            { buffer := nestedOpens (n + 1)
              state := PState.initial
              tagStack := []
              sawFirstTag := false } := rfl
      rw [h0, hbuf, pocFeedLoop_stepInit]
    have hloop := pocLoop_nested (n + 1) [] true
    rw [hbuf] at hloop
    rw [hinit, hloop]
    constructor <;> simp

/-! ### C1 — tag balance (counterexample part) -/

unseal replaceAll subEntities attrLoop tokGo dtScan stripDoctypes nsScan
  sanitizeTags findGtBack rebuildGo in
/-- C1 (counterexample): on input `"</abcdef>"` (with the default
configuration) the rebuild pass emits zero element open tags and one close
tag — the stray close tag is emitted verbatim with no matching open — so
the claimed open/close equality fails. -/
theorem C1_counterexample :
    (repairTrace defaultConfig "</abcdef>".data).map
      (fun items => (items.countP (fun i => isOpenEmit i),
        items.countP (fun i => isCloseEmit i))) = some (0, 1) ∧
    repairXmlS defaultConfig "</abcdef>" = some "</abcdef>" := by
  constructor
  · decide
  · decide

/-! ### C3 — fuzzy close-tag matching -/

theorem fbLoop_exact (closing : List Char) (threshold : Nat) :
    ∀ (stack : List (List Char × List Char)) (m0 : Nat)
      (best : Option (Nat × List Char × Nat)) (m : Nat) (hm : m < stack.length),
      (stack[m]).2 = closing →
      (∀ (i : Nat) (hi : i < m), (stack[i]).2 ≠ closing) →
      fbLoop closing threshold stack m0 best = some (m0 + m, (stack[m]).1, 0) := by
  intro stack
  induction stack with
  | nil =>
    intro m0 best m hm
    exact absurd hm (by simp)
  | cons e rest ih =>
    obtain ⟨o, lw⟩ := e
    intro m0 best m hm hex hfirst
    cases m with
    | zero =>
      simp only [List.getElem_cons_zero] at hex ⊢
      simp [fbLoop, hex]
    | succ k =>
      have h0 : lw ≠ closing := by
        have := hfirst 0 (Nat.succ_pos k)
        simpa using this
      have hm' : k < rest.length := by
        have h := hm
        simp only [List.length_cons] at h
        omega
      have hex' : (rest[k]).2 = closing := by simpa using hex
      have hfirst' : ∀ (i : Nat) (hi : i < k), (rest[i]).2 ≠ closing := by
        intro i hi
        have := hfirst (i + 1) (by omega)
        simpa using this
      simp only [fbLoop, if_neg h0]
      rw [ih (m0 + 1) _ k hm' hex' hfirst']
      simp only [List.getElem_cons_succ]
      have harith : m0 + 1 + k = m0 + (k + 1) := by omega
      rw [harith]

theorem fbLoop_keep (closing : List Char) (threshold : Nat) :
    ∀ (stack : List (List Char × List Char)) (m0 bm : Nat) (bo : List Char) (bd : Nat),
      (∀ (i : Nat) (hi : i < stack.length), (stack[i]).2 ≠ closing) →
      (∀ (i : Nat) (hi : i < stack.length),
        bd ≤ levenshtein_distance (stack[i]).2 closing) →
      bd ≤ threshold →
      fbLoop closing threshold stack m0 (some (bm, bo, bd)) = some (bm, bo, bd) := by
  intro stack
  induction stack with
  | nil =>
    intro m0 bm bo bd hne hge hth
    simp [fbLoop, hth]
  | cons e rest ih =>
    obtain ⟨o, lw⟩ := e
    intro m0 bm bo bd hne hge hth
    have h0 : lw ≠ closing := by
      have := hne 0 (by simp)
      simpa using this
    have hd0 : bd ≤ levenshtein_distance lw closing := by
      have := hge 0 (by simp)
      simpa using this
    have hnlt : ¬ levenshtein_distance lw closing < bd := by omega
    simp only [fbLoop, if_neg h0, if_neg hnlt]
    exact ih (m0 + 1) bm bo bd
      (fun i hi => by
        have := hne (i + 1) (by simp only [List.length_cons]; omega)
        simpa using this)
      (fun i hi => by
        have := hge (i + 1) (by simp only [List.length_cons]; omega)
        simpa using this)
      hth

theorem fbLoop_none (closing : List Char) (threshold : Nat) :
    ∀ (stack : List (List Char × List Char)) (m0 : Nat)
      (best : Option (Nat × List Char × Nat)),
      (∀ (i : Nat) (hi : i < stack.length), (stack[i]).2 ≠ closing) →
      (∀ (i : Nat) (hi : i < stack.length),
        threshold < levenshtein_distance (stack[i]).2 closing) →
      (∀ (bm : Nat) (bo : List Char) (bd : Nat), best = some (bm, bo, bd) →
        threshold < bd) →
      fbLoop closing threshold stack m0 best = none := by
  intro stack
  induction stack with
  | nil =>
    intro m0 best hne hgt hbest
    cases best with
    | none => simp [fbLoop]
    | some b =>
      obtain ⟨bm, bo, bd⟩ := b
      have := hbest bm bo bd rfl
      simp only [fbLoop]
      rw [if_neg (by omega)]
  | cons e rest ih =>
    obtain ⟨o, lw⟩ := e
    intro m0 best hne hgt hbest
    have h0 : lw ≠ closing := by
      have := hne 0 (by simp)
      simpa using this
    have hd0 : threshold < levenshtein_distance lw closing := by
      have := hgt 0 (by simp)
      simpa using this
    have hne' : ∀ (i : Nat) (hi : i < rest.length), (rest[i]).2 ≠ closing := by
      intro i hi
      have := hne (i + 1) (by simp only [List.length_cons]; omega)
      simpa using this
    have hgt' : ∀ (i : Nat) (hi : i < rest.length),
        threshold < levenshtein_distance (rest[i]).2 closing := by
      intro i hi
      have := hgt (i + 1) (by simp only [List.length_cons]; omega)
      simpa using this
    cases best with
    | none =>
      simp only [fbLoop, if_neg h0]
      exact ih (m0 + 1) _ hne' hgt'
        (by
          intro bm bo bd hb
          simp only [Option.some.injEq, Prod.mk.injEq] at hb
          omega)
    | some b =>
      obtain ⟨bm', bo', bd'⟩ := b
      have hbd' : threshold < bd' := hbest bm' bo' bd' rfl
      simp only [fbLoop, if_neg h0]
      by_cases hlt : levenshtein_distance lw closing < bd'
      · rw [if_pos hlt]
        exact ih (m0 + 1) _ hne' hgt'
          (by
            intro bm bo bd hb
            simp only [Option.some.injEq, Prod.mk.injEq] at hb
            omega)
      · rw [if_neg hlt]
        exact ih (m0 + 1) _ hne' hgt'
          (by
            intro bm bo bd hb
            simp only [Option.some.injEq, Prod.mk.injEq] at hb
            omega)

theorem fbLoop_min (closing : List Char) (threshold : Nat) :
    ∀ (stack : List (List Char × List Char)) (m0 : Nat)
      (best : Option (Nat × List Char × Nat)) (m : Nat) (hm : m < stack.length),
      (∀ (i : Nat) (hi : i < stack.length), (stack[i]).2 ≠ closing) →
      (∀ (i : Nat) (hi : i < stack.length),
        levenshtein_distance (stack[m]).2 closing ≤
          levenshtein_distance (stack[i]).2 closing) →
      (∀ (i : Nat) (hi : i < m),
        levenshtein_distance (stack[m]).2 closing <
          levenshtein_distance (stack[i]).2 closing) →
      levenshtein_distance (stack[m]).2 closing ≤ threshold →
      (best = none ∨ ∃ bm bo bd, best = some (bm, bo, bd) ∧
        levenshtein_distance (stack[m]).2 closing < bd) →
      fbLoop closing threshold stack m0 best =
        some (m0 + m, (stack[m]).1,
          levenshtein_distance (stack[m]).2 closing) := by
  intro stack
  induction stack with
  | nil =>
    intro m0 best m hm
    exact absurd hm (by simp)
  | cons e rest ih =>
    obtain ⟨o, lw⟩ := e
    intro m0 best m hm hne hmin hstrict hth hbest
    have h0 : lw ≠ closing := by
      have := hne 0 (by simp)
      simpa using this
    have hne' : ∀ (i : Nat) (hi : i < rest.length), (rest[i]).2 ≠ closing := by
      intro i hi
      have := hne (i + 1) (by simp only [List.length_cons]; omega)
      simpa using this
    cases m with
    | zero =>
      simp only [List.getElem_cons_zero] at hmin hth ⊢
      have hgerest : ∀ (i : Nat) (hi : i < rest.length),
          levenshtein_distance lw closing ≤
            levenshtein_distance (rest[i]).2 closing := by
        intro i hi
        have := hmin (i + 1) (by simp only [List.length_cons]; omega)
        simpa using this
      have hkeep := fbLoop_keep closing threshold rest (m0 + 1) m0 o
        (levenshtein_distance lw closing) hne' hgerest hth
      rcases hbest with hbn | ⟨bm, bo, bd, hbs, hblt⟩
      · subst hbn
        simp only [fbLoop, if_neg h0]
        rw [hkeep]
        simp
      · subst hbs
        simp only [List.getElem_cons_zero] at hblt
        simp only [fbLoop, if_neg h0]
        rw [if_pos hblt, hkeep]
        simp
    | succ k =>
      have hm' : k < rest.length := by
        have h := hm
        simp only [List.length_cons] at h
        omega
      have hd0 : levenshtein_distance (rest[k]).2 closing <
          levenshtein_distance lw closing := by
        have := hstrict 0 (Nat.succ_pos k)
        simpa using this
      have hmin' : ∀ (i : Nat) (hi : i < rest.length),
          levenshtein_distance (rest[k]).2 closing ≤
            levenshtein_distance (rest[i]).2 closing := by
        intro i hi
        have := hmin (i + 1) (by simp only [List.length_cons]; omega)
        simpa using this
      have hstrict' : ∀ (i : Nat) (hi : i < k),
          levenshtein_distance (rest[k]).2 closing <
            levenshtein_distance (rest[i]).2 closing := by
        intro i hi
        have := hstrict (i + 1) (by omega)
        simpa using this
      have hth' : levenshtein_distance (rest[k]).2 closing ≤ threshold := by
        simpa using hth
      rcases hbest with hbn | ⟨bm, bo, bd, hbs, hblt⟩
      · subst hbn
        simp only [fbLoop, if_neg h0]
        rw [ih (m0 + 1) _ k hm' hne' hmin' hstrict' hth'
          (Or.inr ⟨m0, o, levenshtein_distance lw closing, rfl, hd0⟩)]
        simp only [List.getElem_cons_succ]
        have harith : m0 + 1 + k = m0 + (k + 1) := by omega
        rw [harith]
      · subst hbs
        have hblt' : levenshtein_distance (rest[k]).2 closing < bd := by
          simpa using hblt
        simp only [fbLoop, if_neg h0]
        by_cases hlt : levenshtein_distance lw closing < bd
        · rw [if_pos hlt,
            ih (m0 + 1) _ k hm' hne' hmin' hstrict' hth'
              (Or.inr ⟨m0, o, levenshtein_distance lw closing, rfl, hd0⟩)]
          simp only [List.getElem_cons_succ]
          have harith : m0 + 1 + k = m0 + (k + 1) := by omega
          rw [harith]
        · rw [if_neg hlt,
            ih (m0 + 1) _ k hm' hne' hmin' hstrict' hth'
              (Or.inr ⟨bm, bo, bd, rfl, hblt'⟩)]
          simp only [List.getElem_cons_succ]
          have harith : m0 + 1 + k = m0 + (k + 1) := by omega
          rw [harith]

/-- C3: the close-tag matcher scans the open-tag stack from the most
recently opened entry (index 0 in the top-first embedding) toward the
oldest.  (A) An exact case-insensitive name match is taken immediately with
distance 0, at the first matching position from the top.  (B) With no exact
match, the entry with minimal Levenshtein distance wins, ties keeping the
entry closest to the top (strictly smaller distance than every more recent
entry), provided the minimum is within the threshold.  (C) When every entry
is farther than the threshold (in particular on an empty stack) no match is
returned.  (D) In the rebuild pass, a matched close pops and emits a close
tag for every stack entry from the top down to and including the matched
entry, in LIFO order with original-case names; an unmatched close is
emitted verbatim and leaves the stack unchanged. -/
theorem C3_fuzzy_close_matching
    (closing : List Char) (stack : List (List Char × List Char)) (threshold : Nat)
    (cfg : Config) (ns : List (List Char × List Char)) (content : List Char)
    (pos : Nat) (st : RebuildState)
    (htb : st.textBuffer = []) (hds : st.dangerStack = []) :
    (∀ (m : Nat) (hm : m < stack.length),
      (stack[m]).2 = closing →
      (∀ (i : Nat) (hi : i < m), (stack[i]).2 ≠ closing) →
      find_best_matching_tag closing stack threshold =
        some (m, (stack[m]).1, 0)) ∧
    (∀ (m : Nat) (hm : m < stack.length),
      (∀ (i : Nat) (hi : i < stack.length), (stack[i]).2 ≠ closing) →
      (∀ (i : Nat) (hi : i < stack.length),
        levenshtein_distance (stack[m]).2 closing ≤
          levenshtein_distance (stack[i]).2 closing) →
      (∀ (i : Nat) (hi : i < m),
        levenshtein_distance (stack[m]).2 closing <
          levenshtein_distance (stack[i]).2 closing) →
      levenshtein_distance (stack[m]).2 closing ≤ threshold →
      find_best_matching_tag closing stack threshold =
        some (m, (stack[m]).1, levenshtein_distance (stack[m]).2 closing)) ∧
    ((∀ (i : Nat) (hi : i < stack.length), (stack[i]).2 ≠ closing) →
      (∀ (i : Nat) (hi : i < stack.length),
        threshold < levenshtein_distance (stack[i]).2 closing) →
      find_best_matching_tag closing stack threshold = none) ∧
    (∀ (m : Nat) (o : List Char) (d : Nat),
      find_best_matching_tag (lowerStr content) st.tagStack cfg.matchThreshold =
        some (m, o, d) →
      rebuildGo cfg ns [⟨TokType.closeTag, content, pos⟩] st = some
        { st with
          items := st.items ++
            (st.tagStack.take (m + 1)).map (fun p => OutItem.closePop p.1)
          tagStack := st.tagStack.drop (m + 1)
          inCdataCandidate := false }) ∧
    (find_best_matching_tag (lowerStr content) st.tagStack cfg.matchThreshold =
        none →
      rebuildGo cfg ns [⟨TokType.closeTag, content, pos⟩] st = some
        { st with
          items := st.items ++ [OutItem.closeVerbatim content]
          inCdataCandidate := false }) := by
  refine ⟨?_, ?_, ?_, ?_, ?_⟩
  · intro m hm hex hfirst
    have h := fbLoop_exact closing threshold stack 0 none m hm hex hfirst
    simpa [find_best_matching_tag] using h
  · intro m hm hne hmin hstrict hth
    have h := fbLoop_min closing threshold stack 0 none m hm hne hmin hstrict hth
      (Or.inl rfl)
    simpa [find_best_matching_tag] using h
  · intro hne hgt
    have h := fbLoop_none closing threshold stack 0 none hne hgt
      (by intro bm bo bd hb; exact absurd hb (by simp))
    simpa [find_best_matching_tag] using h
  · intro m o d hf
    rw [rebuildGo]
    simp [flushBuffer, htb, hds, hf, rebuildGo]
  · intro hf
    rw [rebuildGo]
    simp [flushBuffer, htb, hds, hf, rebuildGo]

theorem C3_witness :
    find_best_matching_tag "headr".data
        [("inner".data, "inner".data), ("header".data, "header".data)] 2 =
      some (1, "header".data, 1) ∧
    rebuildGo defaultConfig [] [⟨TokType.closeTag, "headr".data, 0⟩]
        { tagStack := [("inner".data, "inner".data),
                       ("header".data, "header".data)] } =
      some { items := [OutItem.closePop "inner".data,
                       OutItem.closePop "header".data]
             tagStack := []
             firstOpenTag := true
             inCdataCandidate := false } := by
  have h := C3_fuzzy_close_matching "headr".data
    [("inner".data, "inner".data), ("header".data, "header".data)] 2
    defaultConfig [] "headr".data 0
    { tagStack := [("inner".data, "inner".data), ("header".data, "header".data)] }
    rfl rfl
  constructor
  · exact (h.2.1 1 (by decide) (by decide) (by decide) (by decide) (by decide)).trans
      (by decide)
  · exact (h.2.2.2.1 1 "header".data 1 (by decide)).trans (by decide)

/-! ### C8 — case-insensitive attribute deduplication, first occurrence wins -/

theorem takeWhile_append_all {p : Char → Bool} {d : Char} {r : List Char}
    (hd : p d = false) :
    ∀ (l : List Char), (∀ c ∈ l, p c = true) → (l ++ d :: r).takeWhile p = l := by
  intro l
  induction l with
  | nil =>
    intro _
    simp [List.takeWhile_cons, hd]
  | cons c cs ih =>
    intro hl
    have hc := hl c (by simp)
    simp only [List.cons_append, List.takeWhile_cons, hc, if_true]
    rw [ih (fun x hx => hl x (by simp [hx]))]

theorem dropWhile_append_all {p : Char → Bool} {d : Char} {r : List Char}
    (hd : p d = false) :
    ∀ (l : List Char), (∀ c ∈ l, p c = true) → (l ++ d :: r).dropWhile p = d :: r := by
  intro l
  induction l with
  | nil =>
    intro _
    simp [List.dropWhile_cons, hd]
  | cons c cs ih =>
    intro hl
    have hc := hl c (by simp)
    simp only [List.cons_append, List.dropWhile_cons, hc, if_true]
    exact ih (fun x hx => hl x (by simp [hx]))

theorem attrNameChar_not_space {c : Char} (h : attrNameChar c = true) :
    pySpace c = false := by
  by_contra hns
  have hs : pySpace c = true := by
    revert hns
    cases pySpace c <;> simp
  simp only [pySpace, Bool.or_eq_true, beq_iff_eq] at hs
  rcases hs with ((((rfl | rfl) | rfl) | rfl) | rfl) | rfl <;> exact absurd h (by decide)

theorem attrLoop_nil (tag : List Char) (seen : List (List Char)) :
    attrLoop tag [] seen = ([], []) := by
  rw [attrLoop]
  rfl

theorem attrLoop_quoted_keep (tag rest n v rest' : List Char) (seen : List (List Char))
    (hdw : rest.dropWhile pySpace = n ++ ('=' :: '"' :: (v ++ ('"' :: rest'))))
    (hn : n ≠ []) (hnc : ∀ c ∈ n, attrNameChar c = true)
    (hv : ∀ c ∈ v, (c != '"') = true)
    (hseen : lowerStr n ∉ seen) :
    attrLoop tag rest seen =
      ((' ' :: (n ++ ['='] ++ ['"'] ++ escape_attribute_value v '"' false ++ ['"'])) ++
          (attrLoop tag rest' (lowerStr n :: seen)).1,
        (attrLoop tag rest' (lowerStr n :: seen)).2) := by
  obtain ⟨m, ms, rfl⟩ := List.exists_cons_of_ne_nil hn
  have hname : (m :: (ms ++ ('=' :: '"' :: (v ++ ('"' :: rest'))))).takeWhile attrNameChar
      = m :: ms := by
    have := @takeWhile_append_all attrNameChar '=' ('"' :: (v ++ ('"' :: rest'))) (by decide)
      (m :: ms) hnc
    simpa using this
  have hscrut : List.drop
      ((m :: (ms ++ ('=' :: '"' :: (v ++ ('"' :: rest'))))).takeWhile attrNameChar).length
      (m :: (ms ++ ('=' :: '"' :: (v ++ ('"' :: rest'))))) =
      '=' :: '"' :: (v ++ ('"' :: rest')) := by
    rw [hname, ← List.cons_append]
    exact List.drop_left _ _
  have hsq : scanQuoted '"' (v ++ ('"' :: rest')) = (v, rest') := by
    have htw : (v ++ ('"' :: rest')).takeWhile (fun c => c != '"') = v :=
      @takeWhile_append_all (fun c => c != '"') '"' rest' (by decide) v hv
    simp only [scanQuoted, htw, List.drop_left]
  rw [attrLoop]
  split
  · rename_i h1
    rw [hdw] at h1
    simp at h1
  · rename_i c1 cs1 h1
    rw [hdw] at h1
    simp only [List.cons_append] at h1
    injection h1 with hc hcs
    subst hc
    subst hcs
    dsimp only
    split
    · rename_i h2
      exact absurd (hscrut.symm.trans h2) (by simp)
    · rename_i d rest3 h2
      have h2' := hscrut.symm.trans h2
      injection h2' with hd hrest3
      subst hd
      subst hrest3
      rw [if_pos rfl]
      have hcond : ¬(lowerStr ((m :: (ms ++ ('=' :: '"' :: (v ++ ('"' :: rest'))))).takeWhile
          attrNameChar) ∈ seen) := by
        rw [hname]
        exact hseen
      rw [if_neg hcond]
      split
      · have hctr : '"' :: (v ++ ('"' :: rest')) = [] := by assumption
        simp at hctr
      · rename_i qv rest4v h2v hdx hr3 hhq
        injection hr3 with hq hrest4
        subst hq
        subst hrest4
        rw [if_pos (Or.inl rfl)]
        rw [hname, hsq]

theorem attrLoop_quoted_dup (tag rest n v rest' : List Char) (seen : List (List Char))
    (hdw : rest.dropWhile pySpace = n ++ ('=' :: '"' :: (v ++ ('"' :: rest'))))
    (hn : n ≠ []) (hnc : ∀ c ∈ n, attrNameChar c = true)
    (hv : ∀ c ∈ v, (c != '"') = true)
    (hseen : lowerStr n ∈ seen) :
    attrLoop tag rest seen =
      ((attrLoop tag rest' seen).1,
        { repairType := RepairType.duplicateAttribute
          description := "Removed duplicate attribute ".data ++ lowerStr n
          location := tag } :: (attrLoop tag rest' seen).2) := by
  obtain ⟨m, ms, rfl⟩ := List.exists_cons_of_ne_nil hn
  have hname : (m :: (ms ++ ('=' :: '"' :: (v ++ ('"' :: rest'))))).takeWhile attrNameChar
      = m :: ms := by
    have := @takeWhile_append_all attrNameChar '=' ('"' :: (v ++ ('"' :: rest'))) (by decide)
      (m :: ms) hnc
    simpa using this
  have hscrut : List.drop
      ((m :: (ms ++ ('=' :: '"' :: (v ++ ('"' :: rest'))))).takeWhile attrNameChar).length
      (m :: (ms ++ ('=' :: '"' :: (v ++ ('"' :: rest'))))) =
      '=' :: '"' :: (v ++ ('"' :: rest')) := by
    rw [hname, ← List.cons_append]
    exact List.drop_left _ _
  have hsq : scanQuoted '"' (v ++ ('"' :: rest')) = (v, rest') := by
    have htw : (v ++ ('"' :: rest')).takeWhile (fun c => c != '"') = v :=
      @takeWhile_append_all (fun c => c != '"') '"' rest' (by decide) v hv
    simp only [scanQuoted, htw, List.drop_left]
  rw [attrLoop]
  split
  · rename_i h1
    rw [hdw] at h1
    simp at h1
  · rename_i c1 cs1 h1
    rw [hdw] at h1
    simp only [List.cons_append] at h1
    injection h1 with hc hcs
    subst hc
    subst hcs
    dsimp only
    split
    · rename_i h2
      exact absurd (hscrut.symm.trans h2) (by simp)
    · rename_i d rest3 h2
      have h2' := hscrut.symm.trans h2
      injection h2' with hd hrest3
      subst hd
      subst hrest3
      rw [if_pos rfl]
      have hcond : lowerStr ((m :: (ms ++ ('=' :: '"' :: (v ++ ('"' :: rest'))))).takeWhile
          attrNameChar) ∈ seen := by
        rw [hname]
        exact hseen
      rw [if_pos hcond]
      split
      · rename_i qv rest4v h2v hdx hr3 hhq
        injection hr3 with hq hrest4
        subst hq
        subst hrest4
        rw [if_pos (Or.inl rfl)]
        rw [hname, hsq]
      · have hctr : '"' :: (v ++ ('"' :: rest')) = [] := by assumption
        simp at hctr

/-- C8: attribute repair deduplicates attribute names case-insensitively with
the first occurrence winning: for every tag name, every pair of attribute
names equal up to case, and every pair of quote-free values, the repaired tag
content keeps only the first occurrence (its value escaped and re-emitted in
quotes), the later duplicate is fully parsed — the scan advances past its
quoted value to the end — but omitted from the output, and a single
DuplicateAttribute repair action naming the duplicate is logged for it. -/
theorem C8_duplicate_attributes
    (tag n1 n2 v1 v2 : List Char)
    (htag : tag ≠ []) (htagc : ∀ c ∈ tag, pySpace c = false)
    (hn1 : n1 ≠ []) (hn1c : ∀ c ∈ n1, attrNameChar c = true)
    (hn2 : n2 ≠ []) (hn2c : ∀ c ∈ n2, attrNameChar c = true)
    (hdup : lowerStr n1 = lowerStr n2)
    (hv1 : ∀ c ∈ v1, (c != '"') = true)
    (hv2 : ∀ c ∈ v2, (c != '"') = true) :
    fix_malformed_attributes
        (tag ++ (' ' :: (n1 ++ ('=' :: '"' ::
          (v1 ++ ('"' :: ' ' :: (n2 ++ ('=' :: '"' :: (v2 ++ ['"'])))))))))
      = (tag ++ (' ' :: (n1 ++ ['='] ++ ['"'] ++
            escape_attribute_value v1 '"' false ++ ['"'])),
         [{ repairType := RepairType.duplicateAttribute
            description := "Removed duplicate attribute ".data ++ lowerStr n2
            location := tag }]) := by
  obtain ⟨t, ts, rfl⟩ := List.exists_cons_of_ne_nil htag
  have hpt : pySpace t = false := htagc t (by simp)
  have hsp : pySpace ' ' = true := by decide
  have h1 : ((t :: ts) ++ (' ' :: (n1 ++ ('=' :: '"' ::
      (v1 ++ ('"' :: ' ' :: (n2 ++ ('=' :: '"' :: (v2 ++ ['"']))))))))).dropWhile pySpace
      = (t :: ts) ++ (' ' :: (n1 ++ ('=' :: '"' ::
      (v1 ++ ('"' :: ' ' :: (n2 ++ ('=' :: '"' :: (v2 ++ ['"'])))))))) := by
    simp [List.dropWhile_cons, hpt]
  have hform : (t :: ts) ++ (' ' :: (n1 ++ ('=' :: '"' ::
      (v1 ++ ('"' :: ' ' :: (n2 ++ ('=' :: '"' :: (v2 ++ ['"']))))))))
      = ((t :: ts) ++ (' ' :: (n1 ++ ('=' :: '"' ::
      (v1 ++ ('"' :: ' ' :: (n2 ++ ('=' :: '"' :: v2)))))))) ++ ['"'] := by
    simp
  have hqs : pySpace '"' = false := by decide
  have hsnoc : ∀ (l : List Char),
      (l ++ ['"']).reverse.dropWhile pySpace = (l ++ ['"']).reverse := by
    intro l
    rw [List.reverse_append]
    simp [List.dropWhile_cons, hqs]
  have hstrip : pyStrip ((t :: ts) ++ (' ' :: (n1 ++ ('=' :: '"' ::
      (v1 ++ ('"' :: ' ' :: (n2 ++ ('=' :: '"' :: (v2 ++ ['"'])))))))))
      = (t :: ts) ++ (' ' :: (n1 ++ ('=' :: '"' ::
      (v1 ++ ('"' :: ' ' :: (n2 ++ ('=' :: '"' :: (v2 ++ ['"'])))))))) := by
    unfold pyStrip
    rw [h1, hform, hsnoc, List.reverse_reverse]
  have hnr : List.takeWhile (fun c => !pySpace c)
      ((t :: ts) ++ (' ' :: (n1 ++ ('=' :: '"' :: (v1 ++ ('"' :: ' ' :: (n2 ++ ('=' :: '"' :: (v2 ++ ['"']))))))))) = t :: ts :=
    @takeWhile_append_all (fun c => !pySpace c) ' '
      (n1 ++ ('=' :: '"' :: (v1 ++ ('"' :: ' ' :: (n2 ++ ('=' :: '"' :: (v2 ++ ['"'])))))))
      (by decide) (t :: ts) (fun c hc => by simp [htagc c hc])
  have hne : ¬((t :: ts).length = ((t :: ts) ++ (' ' :: (n1 ++ ('=' :: '"' ::
      (v1 ++ ('"' :: ' ' :: (n2 ++ ('=' :: '"' :: (v2 ++ ['"']))))))))).length) := by
    simp
  have hdwA : (n1 ++ ('=' :: '"' ::
      (v1 ++ ('"' :: ' ' :: (n2 ++ ('=' :: '"' :: (v2 ++ ['"']))))))).dropWhile pySpace
      = n1 ++ ('=' :: '"' ::
      (v1 ++ ('"' :: ' ' :: (n2 ++ ('=' :: '"' :: (v2 ++ ['"'])))))) := by
    cases n1 with
    | nil => exact absurd rfl hn1
    | cons a1 as1 =>
      have ha1 : pySpace a1 = false := attrNameChar_not_space (hn1c a1 (by simp))
      simp [List.dropWhile_cons, ha1]
  have hdwB : (' ' :: (n2 ++ ('=' :: '"' :: (v2 ++ ['"'])))).dropWhile pySpace
      = n2 ++ ('=' :: '"' :: (v2 ++ ['"'])) := by
    cases n2 with
    | nil => exact absurd rfl hn2
    | cons a2 as2 =>
      have ha2 : pySpace a2 = false := attrNameChar_not_space (hn2c a2 (by simp))
      simp [List.dropWhile_cons, hsp, ha2]
  have hkeep := attrLoop_quoted_keep (t :: ts)
    (n1 ++ ('=' :: '"' :: (v1 ++ ('"' :: ' ' :: (n2 ++ ('=' :: '"' :: (v2 ++ ['"'])))))))
    n1 v1 (' ' :: (n2 ++ ('=' :: '"' :: (v2 ++ ['"'])))) []
    hdwA hn1 hn1c hv1 (by simp)
  have hdup2 := attrLoop_quoted_dup (t :: ts)
    (' ' :: (n2 ++ ('=' :: '"' :: (v2 ++ ['"']))))
    n2 v2 [] (lowerStr n1 :: [])
    hdwB hn2 hn2c hv2 (by simp [hdup])
  simp only [fix_malformed_attributes]
  rw [hstrip, hnr, if_neg hne, List.drop_left]
  have hdwSp : (' ' :: (n1 ++ ('=' :: '"' ::
      (v1 ++ ('"' :: ' ' :: (n2 ++ ('=' :: '"' :: (v2 ++ ['"'])))))))).dropWhile pySpace
      = n1 ++ ('=' :: '"' ::
      (v1 ++ ('"' :: ' ' :: (n2 ++ ('=' :: '"' :: (v2 ++ ['"'])))))) := by
    rw [List.dropWhile_cons, hsp]
    simp only [if_true]
    exact hdwA
  rw [hdwSp, hkeep, hdup2, attrLoop_nil]
  simp

theorem C8_witness :
    fix_malformed_attributes
        ("user".data ++ (' ' :: ("ID".data ++ ('=' :: '"' ::
          ("1".data ++ ('"' :: ' ' :: ("id".data ++ ('=' :: '"' ::
            ("2".data ++ ['"'])))))))))
      = ("user".data ++ (' ' :: ("ID".data ++ ['='] ++ ['"'] ++
            escape_attribute_value "1".data '"' false ++ ['"'])),
         [{ repairType := RepairType.duplicateAttribute
            description := "Removed duplicate attribute ".data ++ lowerStr "id".data
            location := "user".data }]) :=
  C8_duplicate_attributes "user".data "ID".data "id".data "1".data "2".data
    (by decide) (by decide) (by decide) (by decide) (by decide) (by decide)
    (by decide) (by decide) (by decide)

/-! ### C10 — totality: no exception on any input -/

theorem toNat_ofNat_valid (n : Nat) (h : n.isValidChar) : (Char.ofNat n).toNat = n := by
  unfold Char.ofNat
  rw [dif_pos h]
  simp [Char.ofNatAux, Char.toNat, UInt32.toNat]

theorem pySpace_toLower (c : Char) (h : pySpace c = false) : pySpace c.toLower = false := by
  unfold Char.toLower
  dsimp only
  by_cases hc : c.toNat ≥ 65 ∧ c.toNat ≤ 90
  · rw [if_pos hc]
    have hv : (c.toNat + 32).isValidChar := Or.inl (by omega)
    have ht := toNat_ofNat_valid (c.toNat + 32) hv
    simp only [pySpace, Bool.or_eq_false_iff, beq_eq_false_iff_ne, ne_eq]
    refine ⟨⟨⟨⟨⟨?_, ?_⟩, ?_⟩, ?_⟩, ?_⟩, ?_⟩ <;>
      (intro he; rw [he] at ht; simp at ht; try omega)
  · rw [if_neg hc]
    exact h

theorem dropWhile_append_single {p : Char → Bool} {c : Char} (hc : p c = false) :
    ∀ (l : List Char), (l ++ [c]).dropWhile p = l.dropWhile p ++ [c] := by
  intro l
  induction l with
  | nil => simp [List.dropWhile_cons, hc]
  | cons a as ih =>
    by_cases ha : p a = true
    · simp only [List.cons_append, List.dropWhile_cons, ha, if_true]
      exact ih
    · have ha' : p a = false := by revert ha; cases p a <;> simp
      simp [List.dropWhile_cons, ha']

theorem pyStrip_cons_head {c : Char} (hc : pySpace c = false) (cs : List Char) :
    pyStrip (c :: cs) = c :: (cs.reverse.dropWhile pySpace).reverse := by
  unfold pyStrip
  rw [List.dropWhile_cons, if_neg (by simp [hc])]
  rw [List.reverse_cons, dropWhile_append_single hc, List.reverse_append]
  simp

theorem pyFirstWord_cons {c : Char} (hc : pySpace c = false) (cs : List Char) :
    pyFirstWord? (c :: cs) = some (c :: cs.takeWhile (fun x => !pySpace x)) := by
  unfold pyFirstWord?
  rw [List.dropWhile_cons, if_neg (by simp [hc])]
  rw [List.takeWhile_cons, if_pos (by simp [hc])]

theorem is_dangerous_tag_cons_isSome {c : Char} (hc : pySpace c = false) (cs : List Char) :
    (is_dangerous_tag (c :: cs)).isSome := by
  unfold is_dangerous_tag
  rw [if_neg (by simp)]
  have hl : lowerStr (c :: cs) = c.toLower :: lowerStr cs := rfl
  rw [hl, pyFirstWord_cons (pySpace_toLower c hc)]
  rfl

theorem should_strip_dangerous_tag_cons_isSome (cfg : Config) {c : Char}
    (hc : pySpace c = false) (cs : List Char) :
    (should_strip_dangerous_tag cfg (c :: cs)).isSome := by
  unfold should_strip_dangerous_tag
  split
  · exact is_dangerous_tag_cons_isSome hc cs
  · rfl

theorem inject_cons_isSome {c : Char} (hc : pySpace c = false) (cs : List Char)
    (ns : List (List Char × List Char)) :
    (inject_namespace_declarations (c :: cs) ns).isSome := by
  unfold inject_namespace_declarations
  split
  · rfl
  · split
    · rename_i hnil
      exfalso
      unfold pySplit1 at hnil
      rw [List.dropWhile_cons, if_neg (by simp [hc])] at hnil
      dsimp only at hnil
      split at hnil <;> simp at hnil
    · rfl
    · rfl

theorem fix_cons_head {c : Char} (hc : pySpace c = false) (cs : List Char) :
    ∃ r, (fix_malformed_attributes (c :: cs)).1 = c :: r := by
  unfold fix_malformed_attributes
  rw [pyStrip_cons_head hc]
  have hname : (c :: (cs.reverse.dropWhile pySpace).reverse).takeWhile
      (fun x => !pySpace x)
      = c :: ((cs.reverse.dropWhile pySpace).reverse.takeWhile (fun x => !pySpace x)) := by
    rw [List.takeWhile_cons, if_pos (by simp [hc])]
  dsimp only
  rw [hname]
  split
  · exact ⟨_, rfl⟩
  · exact ⟨_, rfl⟩

theorem tagNameOf_cons_head {c : Char} (hc : pySpace c = false) (cs : List Char) :
    ∃ r, tagNameOf (c :: cs) = c :: r := by
  unfold tagNameOf
  rw [pyFirstWord_cons hc]
  exact ⟨_, rfl⟩

/-- Token wellformedness produced by the tokenizer: element open and
incomplete tags carry nonempty content with a non-whitespace head, and tag
names are empty or headed by a non-whitespace character. -/
def goodTok (t : Token) : Bool :=
  match t.type with
  | TokType.openTag => (match t.content with | [] => false | c :: _ => !pySpace c)
  | TokType.incompleteTag => (match t.content with | [] => false | c :: _ => !pySpace c)
  | TokType.tagName => (match t.content with | [] => true | c :: _ => !pySpace c)
  | _ => true

theorem validTagStart_not_space {c : Char} (h : validTagStart c = true) :
    pySpace c = false := by
  by_contra hns
  have hs : pySpace c = true := by
    revert hns
    cases pySpace c <;> simp
  simp only [pySpace, Bool.or_eq_true, beq_iff_eq] at hs
  rcases hs with ((((rfl | rfl) | rfl) | rfl) | rfl) | rfl <;> exact absurd h (by decide)

theorem tagScan_fst_cons (c : Char) (cs : List Char) :
    ∃ r, (tagScan (c :: cs) none).1 = c :: r := by
  rw [tagScan]
  split
  · exact ⟨_, rfl⟩
  · split
    · exact ⟨_, rfl⟩
    · exact ⟨_, rfl⟩

theorem tokGo_good : ∀ (l : List Char) (pos : Nat), ∀ t ∈ tokGo l pos, goodTok t = true := by
  intro l pos
  induction l, pos using tokGo.induct with
  | case1 =>
    intro t ht
    rw [tokGo.eq_def] at ht
    simp at ht
  | case2 =>
    intro t ht
    rw [tokGo.eq_def] at ht
    dsimp only at ht
    rw [if_pos rfl] at ht
    simp at ht
    subst ht
    rfl
  | case3 pos d tail hnv r hl ih =>
    intro t ht
    rw [tokGo.eq_def] at ht
    dsimp only at ht
    rw [if_pos rfl, if_pos hnv] at ht
    rcases List.mem_append.mp ht with hmem | hmem
    · split at hmem
      · simp at hmem
        subst hmem
        rfl
      · simp at hmem
    · exact ih t hmem
  | case4 pos d tail hnv k htake hf hl ih =>
    intro t ht
    rw [tokGo.eq_def] at ht
    dsimp only at ht
    rw [if_pos rfl, if_neg hnv, if_pos htake] at ht
    split at ht
    · rename_i k2 heq
      have hk := hf.symm.trans heq
      injection hk with hk
      subst hk
      rcases List.mem_cons.mp ht with hmem | hmem
      · subst hmem
        rfl
      · exact ih t hmem
    · rename_i heq
      exact absurd (hf.symm.trans heq) (by simp)
  | case5 pos d tail hnv htake hf hl =>
    intro t ht
    rw [tokGo.eq_def] at ht
    dsimp only at ht
    rw [if_pos rfl, if_neg hnv, if_pos htake] at ht
    split at ht
    · rename_i k2 heq
      exact absurd (hf.symm.trans heq) (by simp)
    · have hd : d = '?' := by
        simpa using congrArg (fun l => l.headD ' ') htake
      simp at ht
      subst ht
      subst hd
      rfl
  | case6 pos d tail hnv k htake hcm hf hl ih =>
    intro t ht
    rw [tokGo.eq_def] at ht
    dsimp only at ht
    rw [if_pos rfl, if_neg hnv, if_neg htake, if_pos hcm] at ht
    split at ht
    · rename_i k2 heq
      have hk := hf.symm.trans heq
      injection hk with hk
      subst hk
      rcases List.mem_cons.mp ht with hmem | hmem
      · subst hmem
        rfl
      · exact ih t hmem
    · rename_i heq
      exact absurd (hf.symm.trans heq) (by simp)
  | case7 pos d tail hnv htake hcm hf hl =>
    intro t ht
    obtain ⟨hpre, hsome⟩ := hcm
    rw [hf] at hsome
    simp at hsome
  | case8 pos d tail hnv k htake hcm hcd hf hl ih =>
    intro t ht
    rw [tokGo.eq_def] at ht
    dsimp only at ht
    rw [if_pos rfl, if_neg hnv, if_neg htake, if_neg hcm, if_pos hcd] at ht
    split at ht
    · rename_i k2 heq
      have hk := hf.symm.trans heq
      injection hk with hk
      subst hk
      rcases List.mem_cons.mp ht with hmem | hmem
      · subst hmem
        rfl
      · exact ih t hmem
    · rename_i heq
      exact absurd (hf.symm.trans heq) (by simp)
  | case9 pos d tail hnv htake hcm hcd hf hl =>
    intro t ht
    obtain ⟨hpre, hsome⟩ := hcd
    rw [hf] at hsome
    simp at hsome
  | case10 pos d tail hnv htake hcm hcd hdoc n hl ih =>
    intro t ht
    rw [tokGo.eq_def] at ht
    dsimp only at ht
    rw [if_pos rfl, if_neg hnv, if_neg htake, if_neg hcm, if_neg hcd,
      if_pos hdoc] at ht
    rcases List.mem_cons.mp ht with hmem | hmem
    · subst hmem
      rfl
    · exact ih t hmem
  | case11 pos d tail hnv htake hcm hcd scan hdoc tagContent hlast hclose hl ih =>
    intro t ht
    rw [tokGo.eq_def] at ht
    dsimp only at ht
    rw [if_pos rfl, if_neg hnv, if_neg htake, if_neg hcm, if_neg hcd,
      if_neg hdoc, if_pos hlast, if_pos hclose] at ht
    rcases List.mem_cons.mp ht with hmem | hmem
    · subst hmem
      rfl
    · exact ih t hmem
  | case12 pos d tail hnv htake hcm hcd scan hdoc tagContent hlast hclose hself hl ih =>
    intro t ht
    rw [tokGo.eq_def] at ht
    dsimp only at ht
    rw [if_pos rfl, if_neg hnv, if_neg htake, if_neg hcm, if_neg hcd,
      if_neg hdoc, if_pos hlast, if_neg hclose, if_pos hself] at ht
    rcases List.mem_cons.mp ht with hmem | hmem
    · subst hmem
      rfl
    · exact ih t hmem
  | case13 pos d tail hnv htake hcm hcd scan hdoc tagContent hlast hclose hself hl ih =>
    intro t ht
    have hv : validTagStart d = true := not_not.mp hnv
    have hds : pySpace d = false := validTagStart_not_space hv
    rw [tokGo.eq_def] at ht
    dsimp only at ht
    rw [if_pos rfl, if_neg hnv, if_neg htake, if_neg hcm, if_neg hcd,
      if_neg hdoc, if_pos hlast, if_neg hclose, if_neg hself] at ht
    obtain ⟨r1, hscan1⟩ := tagScan_fst_cons d tail
    rw [hscan1] at ht
    have hlast2 : ('<' :: d :: r1).getLast? = some '>' := by
      have h := hlast
      rw [show tagContent = '<' :: (tagScan (d :: tail) none).1 from rfl, hscan1] at h
      exact h
    cases r1 with
    | nil =>
      exfalso
      simp [List.getLast?] at hlast2
      subst hlast2
      exact absurd hv (by decide)
    | cons e r2 =>
      have hdl : (d :: e :: r2).dropLast = d :: (e :: r2).dropLast := by
        simp
      rw [show ('<' :: d :: e :: r2).drop 1 = d :: e :: r2 from rfl, hdl,
        pyStrip_cons_head hds] at ht
      obtain ⟨fr, hfix⟩ := fix_cons_head hds
        (((e :: r2).dropLast.reverse.dropWhile pySpace).reverse)
      rw [hfix] at ht
      obtain ⟨tr, htn⟩ := tagNameOf_cons_head hds fr
      rw [htn] at ht
      rcases List.mem_cons.mp ht with hmem | hmem
      · subst hmem
        simp [goodTok, hds]
      · rcases List.mem_cons.mp hmem with hmem2 | hmem2
        · subst hmem2
          simp [goodTok, hds]
        · have hlen : tagContent.length = ('<' :: d :: e :: r2).length := by
            rw [show tagContent = '<' :: (tagScan (d :: tail) none).1 from rfl, hscan1]
          rw [hlen] at ih
          exact ih t hmem2
  | case14 pos d tail hnv htake hcm hcd scan inner hinner hdoc tagContent hlast hl =>
    intro t ht
    have hv : validTagStart d = true := not_not.mp hnv
    have hds : pySpace d = false := validTagStart_not_space hv
    rw [tokGo.eq_def] at ht
    dsimp only at ht
    rw [if_pos rfl, if_neg hnv, if_neg htake, if_neg hcm, if_neg hcd,
      if_neg hdoc, if_neg hlast] at ht
    rw [pyStrip_cons_head hds] at ht
    rw [if_pos (by simp)] at ht
    obtain ⟨fr, hfix⟩ := fix_cons_head hds ((tail.reverse.dropWhile pySpace).reverse)
    rw [hfix] at ht
    obtain ⟨tr, htn⟩ := tagNameOf_cons_head hds fr
    rw [htn] at ht
    rcases List.mem_cons.mp ht with hmem | hmem
    · subst hmem
      simp [goodTok, hds]
    · rcases List.mem_cons.mp hmem with hmem2 | hmem2
      · subst hmem2
        simp [goodTok, hds]
      · simp at hmem2
  | case15 pos d tail hnv htake hcm hcd scan inner hinner hdoc tagContent hlast hl =>
    intro t ht
    have hv : validTagStart d = true := not_not.mp hnv
    have hds : pySpace d = false := validTagStart_not_space hv
    exfalso
    have hinner2 : ¬ pyStrip (d :: tail) ≠ [] := hinner
    rw [pyStrip_cons_head hds] at hinner2
    simp at hinner2
  | case16 pos d rest3 hd run rest ih =>
    intro t ht
    rw [tokGo.eq_def] at ht
    dsimp only at ht
    rw [if_neg hd] at ht
    rcases List.mem_append.mp ht with hmem | hmem
    · split at hmem
      · simp at hmem
        subst hmem
        rfl
      · split at hmem
        · simp at hmem
          subst hmem
          rfl
        · simp at hmem
    · exact ih t hmem

theorem rebuildGo_total (cfg : Config) (ns : List (List Char × List Char)) :
    ∀ (n : Nat) (ts : List Token) (st : RebuildState),
      ts.length ≤ n → (∀ t ∈ ts, goodTok t = true) →
      (rebuildGo cfg ns ts st).isSome := by
  intro n
  induction n with
  | zero =>
    intro ts st hlen hgood
    have hnil : ts = [] := List.eq_nil_of_length_eq_zero (Nat.le_zero.mp hlen)
    subst hnil
    rw [rebuildGo]
    rfl
  | succ k ih =>
    intro ts st hlen hgood
    cases ts with
    | nil =>
      rw [rebuildGo]
      rfl
    | cons t rest =>
      obtain ⟨ty, content, p⟩ := t
      have hgr : ∀ x ∈ rest, goodTok x = true := fun x hx => hgood x (by simp [hx])
      have hgt : goodTok ⟨ty, content, p⟩ = true := hgood _ (by simp)
      have hlr : rest.length ≤ k := by
        simp only [List.length_cons] at hlen
        omega
      have hltail : rest.tail.length ≤ k := by
        have := List.length_tail rest
        omega
      have hgrt : ∀ x ∈ rest.tail, goodTok x = true :=
        fun x hx => hgr x (List.mem_of_mem_tail hx)
      cases ty with
      | processingInstruction =>
        cases rest
        all_goals
          (rw [rebuildGo]
           dsimp only
           split
           · exact ih _ _ hlr hgr
           · exact ih _ _ hlr hgr)
      | openTag =>
        obtain ⟨c, cs2, rfl, hcs⟩ : ∃ c cs2, content = c :: cs2 ∧ pySpace c = false := by
          cases content with
          | nil => simp [goodTok] at hgt
          | cons c cs2 => exact ⟨c, cs2, rfl, by simpa [goodTok] using hgt⟩
        cases rest with
        | nil =>
          rw [rebuildGo]
          dsimp only
          split
          · rename_i hcnone
            exfalso
            split at hcnone
            · have := inject_cons_isSome hcs cs2 ns
              rw [hcnone] at this
              simp at this
            · simp at hcnone
          · exact ih [] _ (by simp) (by simp)
        | cons t2 rest2 =>
          rw [rebuildGo]
          dsimp only
          by_cases hty : t2.type = TokType.tagName
          · rw [if_pos hty]
            try dsimp only
            by_cases htn : t2.content = []
            · rw [if_neg (by simp [htn])]
              try dsimp only
              split
              · rename_i hcnone
                exfalso
                split at hcnone
                · have := inject_cons_isSome hcs cs2 ns
                  rw [hcnone] at this
                  simp at this
                · simp at hcnone
              · rename_i content1 hcsome
                rw [if_neg (by simp [htn])]
                exact ih _ _ hlr hgr
            · obtain ⟨c2, cs3, ht2c⟩ : ∃ c2 cs3, t2.content = c2 :: cs3 := by
                cases h2c : t2.content with
                | nil => exact absurd h2c htn
                | cons a b => exact ⟨a, b, rfl⟩
              have hg2 : goodTok t2 = true := hgr t2 (by simp)
              have hc2 : pySpace c2 = false := by
                rw [goodTok, hty, ht2c] at hg2
                simpa using hg2
              rw [if_pos (by simp [ht2c])]
              try dsimp only
              rcases hss : should_strip_dangerous_tag cfg t2.content with _ | b
              · exfalso
                have := should_strip_dangerous_tag_cons_isSome cfg hc2 cs3
                rw [← ht2c, hss] at this
                simp at this
              · try dsimp only
                cases b with
                | true => exact ih rest2 _ hltail hgrt
                | false =>
                  try dsimp only
                  split
                  · rename_i hcnone
                    exfalso
                    split at hcnone
                    · have := inject_cons_isSome hcs cs2 ns
                      rw [hcnone] at this
                      simp at this
                    · simp at hcnone
                  · rename_i content1 hcsome
                    rw [if_pos (by simp [ht2c])]
                    exact ih rest2 _ hltail hgrt
          · rw [if_neg hty]
            try dsimp only
            split
            · rename_i hcnone
              exfalso
              split at hcnone
              · have := inject_cons_isSome hcs cs2 ns
                rw [hcnone] at this
                simp at this
              · simp at hcnone
            · exact ih _ _ hlr hgr
      | closeTag =>
        cases rest
        all_goals
          (rw [rebuildGo]
           dsimp only
           split
           · exact ih _ _ hlr hgr
           · split
             · exact ih _ _ hlr hgr
             · exact ih _ _ hlr hgr)
      | selfClosingTag =>
        cases rest
        all_goals
          (rw [rebuildGo]
           dsimp only
           exact ih _ _ hlr hgr)
      | incompleteTag =>
        obtain ⟨c, cs2, rfl, hcs⟩ : ∃ c cs2, content = c :: cs2 ∧ pySpace c = false := by
          cases content with
          | nil => simp [goodTok] at hgt
          | cons c cs2 => exact ⟨c, cs2, rfl, by simpa [goodTok] using hgt⟩
        cases rest with
        | nil =>
          rw [rebuildGo]
          dsimp only
          split
          · rename_i hcnone
            exfalso
            split at hcnone
            · have := inject_cons_isSome hcs cs2 ns
              rw [hcnone] at this
              simp at this
            · simp at hcnone
          · exact ih [] _ (by simp) (by simp)
        | cons t2 rest2 =>
          have hlen2 : rest2.length ≤ k := by
            simp only [List.length_cons] at hlr
            omega
          have hg2 : ∀ x ∈ rest2, goodTok x = true :=
            fun x hx => hgr x (by simp [hx])
          rw [rebuildGo]
          dsimp only
          split
          · rename_i hcnone
            exfalso
            split at hcnone
            · have := inject_cons_isSome hcs cs2 ns
              rw [hcnone] at this
              simp at this
            · simp at hcnone
          · rename_i content1 hcsome
            split
            · exact ih rest2 _ hlen2 hg2
            · exact ih (t2 :: rest2) _ hlr hgr
      | text =>
        cases rest
        all_goals
          (rw [rebuildGo]
           dsimp only
           split
           · exact ih _ _ hlr hgr
           · exact ih _ _ hlr hgr)
      | whitespace =>
        cases rest
        all_goals
          (rw [rebuildGo]
           dsimp only
           split
           · exact ih _ _ hlr hgr
           · exact ih _ _ hlr hgr)
      | doctype =>
        cases rest
        all_goals
          (rw [rebuildGo]
           dsimp only
           exact ih _ _ hlr hgr)
      | comment =>
        cases rest
        all_goals
          (rw [rebuildGo]
           dsimp only
           exact ih _ _ hlr hgr)
      | cdata =>
        cases rest
        all_goals
          (rw [rebuildGo]
           dsimp only
           exact ih _ _ hlr hgr)
      | tagName =>
        cases rest
        all_goals
          (rw [rebuildGo]
           dsimp only
           exact ih _ _ hlr hgr)

/-- C10: for every input string and every engine configuration the pipeline
is total: the tokenizer returns a (wellformed) token list and `repair_xml`
returns normally with a repaired string — the Python exception paths
modelled by `none` (the `IndexError`s inside `is_dangerous_tag` and
`inject_namespace_declarations`) are unreachable from `tokenize` output, so
no exception is raised on malformed content. -/
theorem C10_never_raises (cfg : Config) (s : List Char) :
    (∀ t ∈ tokenize s, goodTok t = true) ∧ ∃ out, repair_xml cfg s = some out := by
  constructor
  · exact tokGo_good s 0
  · have htr : (repairTrace cfg s).isSome := by
      unfold repairTrace rebuildTrace
      rw [Option.isSome_map']
      exact rebuildGo_total cfg _ (tokenize _).length _ {} (le_refl _) (tokGo_good _ 0)
    unfold repair_xml
    rcases ho : repairTrace cfg s with _ | items
    · rw [ho] at htr
      simp at htr
    · dsimp only
      split
      · exact ⟨_, rfl⟩
      · exact ⟨_, rfl⟩

/-! ### C1 — tag balance (amended: LIFO discipline of the emission trace) -/

/-- Replay of the emission trace at the level of the open-tag discipline:
pushed opens push their tag name, every stack-pop close must name the
current innermost open (LIFO), all other emissions leave the stack alone. -/
def replayItems : List OutItem → List (List Char) → Option (List (List Char))
  | [], stk => some stk
  | i :: rest, stk =>
    match i with
    | OutItem.openOut _ (some n) => replayItems rest (n :: stk)
    | OutItem.incompleteOut _ (some n) => replayItems rest (n :: stk)
    | OutItem.closePop n =>
      match stk with
      | top :: stk2 => if top = n then replayItems rest stk2 else none
      | [] => none
    | _ => replayItems rest stk

theorem replayItems_append (a b : List OutItem) :
    ∀ stk, replayItems (a ++ b) stk =
      match replayItems a stk with
      | some stk2 => replayItems b stk2
      | none => none := by
  induction a with
  | nil => intro stk; rfl
  | cons i rest ih =>
    intro stk
    cases i with
    | openOut c pushed =>
      cases pushed with
      | none => exact ih stk
      | some n => exact ih (n :: stk)
    | incompleteOut c pushed =>
      cases pushed with
      | none => exact ih stk
      | some n => exact ih (n :: stk)
    | closePop n =>
      cases stk with
      | nil => rfl
      | cons top stk2 =>
        by_cases h : top = n
        · simp only [List.cons_append, replayItems, if_pos h]
          exact ih stk2
        · simp only [List.cons_append, replayItems, if_neg h]
    | piOut c => exact ih stk
    | closeVerbatim c => exact ih stk
    | selfCloseOut c => exact ih stk
    | textOut c => exact ih stk
    | wsOut c => exact ih stk
    | cdataWrapOut c => exact ih stk
    | doctypeOut c => exact ih stk
    | commentOut c => exact ih stk
    | cdataOut c => exact ih stk

theorem replayItems_closes (pre : List (List Char × List Char)) :
    ∀ (post : List (List Char)),
    replayItems (pre.map (fun p => OutItem.closePop p.1)) (pre.map Prod.fst ++ post) =
      some post := by
  induction pre with
  | nil => intro post; rfl
  | cons e pre2 ih =>
    intro post
    simp only [List.map_cons, List.cons_append, replayItems, if_pos rfl]
    exact ih post

theorem flushBuffer_replay (cfg : Config) (st : RebuildState)
    (h : replayItems st.items [] = some (st.tagStack.map Prod.fst)) :
    replayItems (flushBuffer cfg st).items [] =
      some ((flushBuffer cfg st).tagStack.map Prod.fst) := by
  unfold flushBuffer
  split
  · exact h
  · dsimp only
    rw [replayItems_append, h]
    dsimp only
    split
    · rfl
    · rfl

theorem flushBuffer_tagStack (cfg : Config) (st : RebuildState) :
    (flushBuffer cfg st).tagStack = st.tagStack := by
  unfold flushBuffer
  split
  · rfl
  · rfl

theorem replay_after (items : List OutItem) (S : List (List Char)) (xs : List OutItem)
    (h : replayItems items [] = some S) :
    replayItems (items ++ xs) [] = replayItems xs S := by
  rw [replayItems_append, h]

theorem rebuildGo_replay (cfg : Config) (ns : List (List Char × List Char)) :
    ∀ (n : Nat) (ts : List Token) (st st' : RebuildState), ts.length ≤ n →
      rebuildGo cfg ns ts st = some st' →
      replayItems st.items [] = some (st.tagStack.map Prod.fst) →
      replayItems st'.items [] = some (st'.tagStack.map Prod.fst) := by
  intro n
  induction n with
  | zero =>
    intro ts st st' hlen heq hinv
    have hnil : ts = [] := List.eq_nil_of_length_eq_zero (Nat.le_zero.mp hlen)
    subst hnil
    rw [rebuildGo] at heq
    injection heq with heq
    subst heq
    exact hinv
  | succ k ih =>
    intro ts st st' hlen heq hinv
    cases ts with
    | nil =>
      rw [rebuildGo] at heq
      injection heq with heq
      subst heq
      exact hinv
    | cons t rest =>
      obtain ⟨ty, content, p⟩ := t
      have hlr : rest.length ≤ k := by
        simp only [List.length_cons] at hlen
        omega
      have hltail : rest.tail.length ≤ k := by
        have := List.length_tail rest
        omega
      have hinv1 : replayItems (flushBuffer cfg st).items [] =
          some ((flushBuffer cfg st).tagStack.map Prod.fst) :=
        flushBuffer_replay cfg st hinv
      cases ty with
      | processingInstruction =>
        cases rest
        all_goals
          (rw [rebuildGo] at heq
           dsimp only at heq
           split at heq
           · exact ih _ _ _ hlr heq hinv
           · exact ih _ _ _ hlr heq ((replay_after _ _ _ hinv).trans rfl))
      | openTag =>
        cases rest with
        | nil =>
          rw [rebuildGo] at heq
          dsimp only at heq
          split at heq
          · exact absurd heq (by simp)
          · rename_i content1 hcsome
            exact ih [] _ _ (by simp) heq ((replay_after _ _ _ hinv1).trans rfl)
        | cons t2 rest2 =>
          rw [rebuildGo] at heq
          dsimp only at heq
          by_cases hty : t2.type = TokType.tagName
          · rw [if_pos hty] at heq
            dsimp only at heq
            by_cases htn : t2.content = []
            · rw [if_neg (by simp [htn])] at heq
              dsimp only at heq
              split at heq
              · exact absurd heq (by simp)
              · rename_i content1 hcsome
                rw [if_neg (by simp [htn])] at heq
                exact ih _ _ _ hlr heq ((replay_after _ _ _ hinv1).trans rfl)
            · rw [if_pos (by simp [htn])] at heq
              try dsimp only at heq
              rcases hss : should_strip_dangerous_tag cfg t2.content with _ | b
              · rw [hss] at heq
                exact absurd heq (by simp)
              · rw [hss] at heq
                try dsimp only at heq
                cases b with
                | true =>
                  exact ih _ _ _ hltail heq hinv1
                | false =>
                  split at heq
                  · exact absurd heq (by simp)
                  · rename_i dang2 hcontra
                    simp at hcontra
                  · rename_i dang2 hok
                    split at heq
                    · exact absurd heq (by simp)
                    · rename_i content1 hcsome
                      rw [if_pos (by simp [htn])] at heq
                      exact ih _ _ _ hltail heq ((replay_after _ _ _ hinv1).trans rfl)
          · rw [if_neg hty] at heq
            dsimp only at heq
            split at heq
            · exact absurd heq (by simp)
            · rename_i content1 hcsome
              exact ih _ _ _ hlr heq ((replay_after _ _ _ hinv1).trans rfl)
      | closeTag =>
        cases rest
        all_goals
          rw [rebuildGo] at heq
          dsimp only at heq
          split at heq
        all_goals try exact ih _ _ _ hlr heq hinv1
        all_goals
          split at heq
          · rename_i m o d hf
            refine ih _ _ _ hlr heq ?_
            have hcl := replayItems_closes ((flushBuffer cfg st).tagStack.take (m + 1))
              (((flushBuffer cfg st).tagStack.drop (m + 1)).map Prod.fst)
            rw [← List.map_append, List.take_append_drop] at hcl
            exact (replay_after _ _ _ hinv1).trans hcl
          · exact ih _ _ _ hlr heq ((replay_after _ _ _ hinv1).trans rfl)
      | selfClosingTag =>
        cases rest
        all_goals
          (rw [rebuildGo] at heq
           dsimp only at heq
           exact ih _ _ _ hlr heq ((replay_after _ _ _ hinv1).trans rfl))
      | incompleteTag =>
        cases rest with
        | nil =>
          rw [rebuildGo] at heq
          dsimp only at heq
          split at heq
          · exact absurd heq (by simp)
          · rename_i content1 hcsome
            exact ih [] _ _ (by simp) heq ((replay_after _ _ _ hinv1).trans rfl)
        | cons t2 rest2 =>
          have hlen2 : rest2.length ≤ k := by
            simp only [List.length_cons] at hlr
            omega
          rw [rebuildGo] at heq
          dsimp only at heq
          split at heq
          · exact absurd heq (by simp)
          · rename_i content1 hcsome
            split at heq
            · exact ih _ _ _ hlen2 heq ((replay_after _ _ _ hinv1).trans rfl)
            · exact ih _ _ _ hlr heq ((replay_after _ _ _ hinv1).trans rfl)
      | text =>
        cases rest
        all_goals
          (rw [rebuildGo] at heq
           dsimp only at heq
           split at heq
           · exact ih _ _ _ hlr heq hinv
           · exact ih _ _ _ hlr heq ((replay_after _ _ _ hinv).trans rfl))
      | whitespace =>
        cases rest
        all_goals
          (rw [rebuildGo] at heq
           dsimp only at heq
           split at heq
           · exact ih _ _ _ hlr heq hinv
           · exact ih _ _ _ hlr heq ((replay_after _ _ _ hinv).trans rfl))
      | doctype =>
        cases rest
        all_goals
          (rw [rebuildGo] at heq
           dsimp only at heq
           exact ih _ _ _ hlr heq ((replay_after _ _ _ hinv).trans rfl))
      | comment =>
        cases rest
        all_goals
          (rw [rebuildGo] at heq
           dsimp only at heq
           exact ih _ _ _ hlr heq ((replay_after _ _ _ hinv).trans rfl))
      | cdata =>
        cases rest
        all_goals
          (rw [rebuildGo] at heq
           dsimp only at heq
           exact ih _ _ _ hlr heq ((replay_after _ _ _ hinv).trans rfl))
      | tagName =>
        cases rest
        all_goals
          (rw [rebuildGo] at heq
           dsimp only at heq
           exact ih _ _ _ hlr heq hinv)

/-- C1 (amended): the rebuild pass maintains a strict LIFO open/close
discipline on the emission trace — replaying the trace, where each pushed
open pushes its tag name, each stack-pop close must name the innermost open,
and all other emissions (including verbatim unmatched close tags) are
neutral, ends with an EMPTY stack for every input and configuration: every
pushed open is eventually closed, in properly nested order. -/
theorem C1_tag_balance (cfg : Config) (s : List Char) :
    ∃ tr, repairTrace cfg s = some tr ∧ replayItems tr [] = some [] := by
  obtain ⟨st', hst'⟩ : ∃ st',
      rebuildGo cfg (extract_namespaces (extract_xml_content cfg (preprocess cfg s)))
        (tokenize (extract_xml_content cfg (preprocess cfg s))) {} = some st' := by
    have := rebuildGo_total cfg
      (extract_namespaces (extract_xml_content cfg (preprocess cfg s)))
      (tokenize (extract_xml_content cfg (preprocess cfg s))).length
      (tokenize (extract_xml_content cfg (preprocess cfg s))) {} (le_refl _)
      (tokGo_good _ 0)
    exact Option.isSome_iff_exists.mp this
  have hinv : replayItems st'.items [] = some (st'.tagStack.map Prod.fst) :=
    rebuildGo_replay cfg _ (tokenize (extract_xml_content cfg (preprocess cfg s))).length
      _ {} st' (le_refl _) hst' rfl
  refine ⟨(rebuildFinish cfg st').items, ?_, ?_⟩
  · unfold repairTrace rebuildTrace
    dsimp only
    rw [hst']
    rfl
  · unfold rebuildFinish
    dsimp only
    have h1 : replayItems (flushBuffer cfg st').items [] =
        some ((flushBuffer cfg st').tagStack.map Prod.fst) :=
      flushBuffer_replay cfg st' hinv
    have hcl := replayItems_closes (flushBuffer cfg st').tagStack []
    rw [List.append_nil] at hcl
    exact (replay_after _ _ _ h1).trans hcl

/-! ## C4: idempotence of `escape_entities` -/

/-- An atom of the escaper's view of a string: a single non-entity character
or one valid entity reference. -/
inductive EAtom where
  | rawA (c : Char)
  | entA (e : List Char)
deriving DecidableEq, Repr

def atomStr : EAtom → List Char
  | EAtom.rawA c => [c]
  | EAtom.entA e => e

def flatA (atoms : List EAtom) : List Char := (atoms.map atomStr).flatten

/-- The valid-entity grammar recognised by the escaper's regex. -/
def ValidEnt (e : List Char) : Prop :=
  (∃ k, k ∈ entityKeywords ∧ e = '&' :: (k ++ [';'])) ∨
  (∃ ds, ds ≠ [] ∧ (∀ c ∈ ds, c.isDigit = true) ∧ e = '&' :: '#' :: (ds ++ [';'])) ∨
  (∃ hs, hs ≠ [] ∧ (∀ c ∈ hs, hexDigit c = true) ∧ e = '&' :: '#' :: 'x' :: (hs ++ [';']))

theorem runThenSemi_spec {p : Char → Bool} (ds rest : List Char)
    (hne : ds ≠ []) (hall : ∀ c ∈ ds, p c = true) (hsemi : p ';' = false) :
    runThenSemi p (ds ++ ';' :: rest) = some (ds, rest) := by
  have htw : (ds ++ ';' :: rest).takeWhile p = ds :=
    takeWhile_append_all hsemi ds hall
  simp only [runThenSemi, htw, List.drop_left, if_pos hne]
  simp

theorem matchEntityAt_valid {e : List Char} (rest : List Char) (h : ValidEnt e) :
    matchEntityAt (e ++ rest) = some (e, rest) := by
  rcases h with ⟨k, hk, he⟩ | ⟨ds, hne, hall, he⟩ | ⟨hs, hne, hall, he⟩
  · subst he
    simp only [entityKeywords, List.mem_cons, List.not_mem_nil, or_false] at hk
    rcases hk with rfl | rfl | rfl | rfl | rfl <;> rfl
  · subst he
    have hform : ('&' :: '#' :: (ds ++ [';'])) ++ rest =
        '&' :: '#' :: (ds ++ ';' :: rest) := by simp
    rw [hform]
    have hkw : tryKeyword entityKeywords ('#' :: (ds ++ ';' :: rest)) = none := rfl
    have hnum : runThenSemi Char.isDigit (ds ++ ';' :: rest) = some (ds, rest) :=
      runThenSemi_spec ds rest hne hall (by decide)
    simp only [matchEntityAt, if_pos rfl, hkw, tryNumeric, hnum]
    simp
  · subst he
    have hform : ('&' :: '#' :: 'x' :: (hs ++ [';'])) ++ rest =
        '&' :: '#' :: 'x' :: (hs ++ ';' :: rest) := by simp
    rw [hform]
    have hkw : tryKeyword entityKeywords ('#' :: 'x' :: (hs ++ ';' :: rest)) = none := rfl
    have hd1 : runThenSemi Char.isDigit ('x' :: (hs ++ ';' :: rest)) = none := by
      simp [runThenSemi, List.takeWhile_cons]
    have hhex : runThenSemi hexDigit (hs ++ ';' :: rest) = some (hs, rest) :=
      runThenSemi_spec hs rest hne hall (by decide)
    simp only [matchEntityAt, if_pos rfl, hkw, tryNumeric, hd1, hhex]
    simp [hhex]

theorem takeWhile_mem {p : Char → Bool} : ∀ (l : List Char), ∀ c ∈ l.takeWhile p, p c = true := by
  intro l
  induction l with
  | nil => simp
  | cons a as ih =>
    intro c hc
    rw [List.takeWhile_cons] at hc
    by_cases ha : p a = true
    · rw [if_pos ha] at hc
      rcases List.mem_cons.mp hc with rfl | hc2
      · exact ha
      · exact ih c hc2
    · rw [if_neg ha] at hc
      simp at hc

theorem takeWhile_self_append {p : Char → Bool} :
    ∀ (l : List Char), l = l.takeWhile p ++ l.drop (l.takeWhile p).length := by
  intro l
  induction l with
  | nil => rfl
  | cons a as ih =>
    rw [List.takeWhile_cons]
    by_cases ha : p a = true
    · rw [if_pos ha]
      simp only [List.length_cons, List.drop_succ_cons, List.cons_append]
      exact congrArg (a :: ·) ih
    · rw [if_neg ha]
      rfl

theorem runThenSemi_sound {p : Char → Bool} {l run rest : List Char}
    (h : runThenSemi p l = some (run, rest)) :
    run ≠ [] ∧ (∀ c ∈ run, p c = true) ∧ l = run ++ ';' :: rest := by
  simp only [runThenSemi] at h
  split at h
  · rename_i hne
    split at h
    · rename_i d rest2 hd
      split at h
      · rename_i hdsemi
        simp only [Option.some.injEq, Prod.mk.injEq] at h
        obtain ⟨h1, h2⟩ := h
        subst h1
        subst h2
        subst hdsemi
        refine ⟨hne, takeWhile_mem l, ?_⟩
        have hsplit := takeWhile_self_append (p := p) l
        rw [hd] at hsplit
        exact hsplit
      · simp at h
    · simp at h
  · simp at h

theorem tryKeyword_sound : ∀ {ks : List (List Char)} {cs body rest : List Char},
    tryKeyword ks cs = some (body, rest) →
    ∃ k ∈ ks, body = k ++ [';'] ∧ cs = k ++ ';' :: rest := by
  intro ks
  induction ks with
  | nil => intro cs body rest h; simp [tryKeyword] at h
  | cons k ks ih =>
    intro cs body rest h
    simp only [tryKeyword] at h
    split at h
    · rename_i hpre
      split at h
      · rename_i d rest2 hd
        split at h
        · rename_i hdsemi
          simp only [Option.some.injEq, Prod.mk.injEq] at h
          obtain ⟨h1, h2⟩ := h
          subst h1
          subst h2
          subst hdsemi
          obtain ⟨t, ht⟩ := isPrefixOf_iff.mp hpre
          refine ⟨k, by simp, rfl, ?_⟩
          have hdrop : cs.drop k.length = t := by
            rw [ht, List.drop_left]
          rw [hdrop] at hd
          rw [ht, hd]
        · obtain ⟨k2, hk2, hb, hc⟩ := ih h
          exact ⟨k2, by simp [hk2], hb, hc⟩
      · obtain ⟨k2, hk2, hb, hc⟩ := ih h
        exact ⟨k2, by simp [hk2], hb, hc⟩
    · obtain ⟨k2, hk2, hb, hc⟩ := ih h
      exact ⟨k2, by simp [hk2], hb, hc⟩

theorem tryNumeric_sound {cs body rest : List Char}
    (h : tryNumeric cs = some (body, rest)) :
    (∃ ds, ds ≠ [] ∧ (∀ c ∈ ds, c.isDigit = true) ∧ body = '#' :: (ds ++ [';']) ∧
      cs = '#' :: (ds ++ ';' :: rest)) ∨
    (∃ hs, hs ≠ [] ∧ (∀ c ∈ hs, hexDigit c = true) ∧ body = '#' :: 'x' :: (hs ++ [';']) ∧
      cs = '#' :: 'x' :: (hs ++ ';' :: rest)) := by
  unfold tryNumeric at h
  split at h
  · simp at h
  · rename_i c rest0
    split at h
    · rename_i hc
      subst hc
      split at h
      · rename_i ds rest2 hrun
        simp only [Option.some.injEq, Prod.mk.injEq] at h
        obtain ⟨h1, h2⟩ := h
        subst h1
        subst h2
        obtain ⟨hne, hall, hform⟩ := runThenSemi_sound hrun
        exact Or.inl ⟨ds, hne, hall, rfl, by rw [hform]⟩
      · split at h
        · rename_i hx
          split at h
          · rename_i hs rest2 hrun
            simp only [Option.some.injEq, Prod.mk.injEq] at h
            obtain ⟨h1, h2⟩ := h
            subst h1
            subst h2
            obtain ⟨hne, hall, hform⟩ := runThenSemi_sound hrun
            refine Or.inr ⟨hs, hne, hall, rfl, ?_⟩
            have hr0 : rest0 = 'x' :: (hs ++ ';' :: rest2) := by
              cases rest0 with
              | nil => simp at hx
              | cons x0 r0 =>
                simp only [List.take_succ_cons, List.take_zero] at hx
                have hx0 : x0 = 'x' := by
                  injection hx
                subst hx0
                simp only [List.drop_succ_cons, List.drop_zero] at hform
                rw [hform]
            rw [hr0]
          · simp at h
        · simp at h
    · simp at h

theorem matchEntityAt_sound {l e rest : List Char}
    (h : matchEntityAt l = some (e, rest)) : ValidEnt e ∧ l = e ++ rest := by
  unfold matchEntityAt at h
  split at h
  · simp at h
  · rename_i c cs
    split at h
    · rename_i hc
      subst hc
      split at h
      · rename_i body rest1 hk
        simp only [Option.some.injEq, Prod.mk.injEq] at h
        obtain ⟨h1, h2⟩ := h
        subst h1
        subst h2
        obtain ⟨k, hkm, hb, hcs⟩ := tryKeyword_sound hk
        subst hb
        constructor
        · exact Or.inl ⟨k, hkm, rfl⟩
        · rw [hcs]
          simp
      · split at h
        · rename_i body rest1 hn
          simp only [Option.some.injEq, Prod.mk.injEq] at h
          obtain ⟨h1, h2⟩ := h
          subst h1
          subst h2
          rcases tryNumeric_sound hn with ⟨ds, hne, hall, hb, hcs⟩ | ⟨hs, hne, hall, hb, hcs⟩
          · subst hb
            constructor
            · exact Or.inr (Or.inl ⟨ds, hne, hall, rfl⟩)
            · rw [hcs]
              simp
          · subst hb
            constructor
            · exact Or.inr (Or.inr ⟨hs, hne, hall, rfl⟩)
            · rw [hcs]
              simp
        · simp at h
    · simp at h

/-- The escaper's segmentation of a string into entities and raw chars. -/
def scanAtoms (l : List Char) : List EAtom :=
  match hm : matchEntityAt l with
  | some (e, rest) => EAtom.entA e :: scanAtoms rest
  | none =>
    match l with
    | [] => []
    | c :: cs => EAtom.rawA c :: scanAtoms cs
termination_by l.length
decreasing_by
  · exact matchEntityAt_length hm
  · simp

/-- The substituted text of an atom list: placeholders for entities,
numbered from `n`. -/
def phT : List EAtom → Nat → List Char
  | [], _ => []
  | EAtom.rawA c :: as, n => c :: phT as n
  | EAtom.entA _ :: as, n => placeholder n ++ phT as (n + 1)

/-- The collected entity texts of an atom list, in order. -/
def entsA : List EAtom → List (List Char)
  | [] => []
  | EAtom.rawA _ :: as => entsA as
  | EAtom.entA e :: as => e :: entsA as

/-- Character-level escape of `&`, `<`, `>`. -/
def escC (c : Char) : List Char :=
  if c = '&' then "&amp;".data
  else if c = '<' then "&lt;".data
  else if c = '>' then "&gt;".data
  else [c]

/-- The substituted-and-escaped text: raw chars escaped, placeholders for
entities. -/
def phE : List EAtom → Nat → List Char
  | [], _ => []
  | EAtom.rawA c :: as, n => escC c ++ phE as n
  | EAtom.entA _ :: as, n => placeholder n ++ phE as (n + 1)

/-- The final output of one escaper pass on an atom list. -/
def outA : EAtom → List Char
  | EAtom.rawA c => escC c
  | EAtom.entA e => e

def outAll (atoms : List EAtom) : List Char := (atoms.map outA).flatten

theorem scanAtoms_nil : scanAtoms [] = [] := by
  rw [scanAtoms]
  rfl

theorem scanAtoms_some {l e rest : List Char} (hm : matchEntityAt l = some (e, rest)) :
    scanAtoms l = EAtom.entA e :: scanAtoms rest := by
  conv_lhs => rw [scanAtoms]
  split
  · rename_i e2 rest2 hm2
    rw [hm] at hm2
    injection hm2 with h
    injection h with h1 h2
    subst h1
    subst h2
    rfl
  · rename_i hm2
    rw [hm] at hm2
    cases hm2

theorem scanAtoms_none {c : Char} {cs : List Char}
    (hm : matchEntityAt (c :: cs) = none) :
    scanAtoms (c :: cs) = EAtom.rawA c :: scanAtoms cs := by
  conv_lhs => rw [scanAtoms]
  split
  · rename_i e2 rest2 hm2
    rw [hm] at hm2
    cases hm2
  · rfl

theorem subEntities_nil (n : Nat) : subEntities [] n = ([], []) := by
  rw [subEntities]
  rfl

theorem subEntities_some {l e rest : List Char} (n : Nat)
    (hm : matchEntityAt l = some (e, rest)) :
    subEntities l n =
      (placeholder n ++ (subEntities rest (n + 1)).1,
        e :: (subEntities rest (n + 1)).2) := by
  conv_lhs => rw [subEntities]
  split
  · rename_i e2 rest2 hm2
    rw [hm] at hm2
    injection hm2 with h
    injection h with h1 h2
    subst h1
    subst h2
    rfl
  · rename_i hm2
    rw [hm] at hm2
    cases hm2

theorem subEntities_none {c : Char} {cs : List Char} (n : Nat)
    (hm : matchEntityAt (c :: cs) = none) :
    subEntities (c :: cs) n =
      (c :: (subEntities cs n).1, (subEntities cs n).2) := by
  conv_lhs => rw [subEntities]
  split
  · rename_i e2 rest2 hm2
    rw [hm] at hm2
    cases hm2
  · rfl

theorem subEntities_scanAtoms : ∀ (N : Nat) (l : List Char) (n : Nat), l.length ≤ N →
    subEntities l n = (phT (scanAtoms l) n, entsA (scanAtoms l)) := by
  intro N
  induction N with
  | zero =>
    intro l n hlen
    have : l = [] := List.eq_nil_of_length_eq_zero (Nat.le_zero.mp hlen)
    subst this
    rw [subEntities_nil, scanAtoms_nil]
    rfl
  | succ k ih =>
    intro l n hlen
    rcases hm : matchEntityAt l with _ | ⟨e, rest⟩
    · cases l with
      | nil =>
        rw [subEntities_nil, scanAtoms_nil]
        rfl
      | cons c cs =>
        rw [subEntities_none n hm, scanAtoms_none hm, phT, entsA]
        rw [ih cs n (by simp at hlen; omega)]
    · have hlt := matchEntityAt_length hm
      rw [subEntities_some n hm, scanAtoms_some hm, phT, entsA]
      rw [ih rest (n + 1) (by omega)]

theorem flatA_scanAtoms : ∀ (N : Nat) (l : List Char), l.length ≤ N →
    flatA (scanAtoms l) = l := by
  intro N
  induction N with
  | zero =>
    intro l hlen
    have : l = [] := List.eq_nil_of_length_eq_zero (Nat.le_zero.mp hlen)
    subst this
    rw [scanAtoms_nil]
    rfl
  | succ k ih =>
    intro l hlen
    rcases hm : matchEntityAt l with _ | ⟨e, rest⟩
    · cases l with
      | nil =>
        rw [scanAtoms_nil]
        rfl
      | cons c cs =>
        rw [scanAtoms_none hm]
        have := ih cs (by simp at hlen; omega)
        simp only [flatA, List.map_cons, List.flatten_cons, atomStr] at this ⊢
        rw [this]
        rfl
    · have hlt := matchEntityAt_length hm
      obtain ⟨hv, hl⟩ := matchEntityAt_sound hm
      rw [scanAtoms_some hm]
      have := ih rest (by omega)
      simp only [flatA, List.map_cons, List.flatten_cons, atomStr] at this ⊢
      rw [this, hl]

theorem ents_scanAtoms_valid : ∀ (N : Nat) (l : List Char), l.length ≤ N →
    ∀ e, EAtom.entA e ∈ scanAtoms l → ValidEnt e := by
  intro N
  induction N with
  | zero =>
    intro l hlen
    have : l = [] := List.eq_nil_of_length_eq_zero (Nat.le_zero.mp hlen)
    subst this
    rw [scanAtoms_nil]
    simp
  | succ k ih =>
    intro l hlen e he
    rcases hm : matchEntityAt l with _ | ⟨e2, rest⟩
    · cases l with
      | nil =>
        rw [scanAtoms_nil] at he
        simp at he
      | cons c cs =>
        rw [scanAtoms_none hm] at he
        rcases List.mem_cons.mp he with h2 | h2
        · cases h2
        · exact ih cs (by simp at hlen; omega) e h2
    · have hlt := matchEntityAt_length hm
      rw [scanAtoms_some hm] at he
      rcases List.mem_cons.mp he with h2 | h2
      · injection h2 with h3
        subst h3
        exact (matchEntityAt_sound hm).1
      · exact ih rest (by omega) e h2

theorem raw_scanAtoms_mem : ∀ (N : Nat) (l : List Char), l.length ≤ N →
    ∀ c, EAtom.rawA c ∈ scanAtoms l → c ∈ l := by
  intro N
  induction N with
  | zero =>
    intro l hlen
    have : l = [] := List.eq_nil_of_length_eq_zero (Nat.le_zero.mp hlen)
    subst this
    rw [scanAtoms_nil]
    simp
  | succ k ih =>
    intro l hlen c hc
    rcases hm : matchEntityAt l with _ | ⟨e, rest⟩
    · cases l with
      | nil =>
        rw [scanAtoms_nil] at hc
        simp at hc
      | cons c0 cs =>
        rw [scanAtoms_none hm] at hc
        rcases List.mem_cons.mp hc with h2 | h2
        · injection h2 with h3
          subst h3
          simp
        · exact List.mem_cons_of_mem c0 (ih cs (by simp at hlen; omega) c h2)
    · have hlt := matchEntityAt_length hm
      obtain ⟨hv, hl⟩ := matchEntityAt_sound hm
      rw [scanAtoms_some hm] at hc
      rcases List.mem_cons.mp hc with h2 | h2
      · cases h2
      · have := ih rest (by omega) c h2
        rw [hl]
        simp [this]

/-- Concatenated character map. -/
def cmap (f : Char → List Char) (l : List Char) : List Char := (l.map f).flatten

theorem cmap_nil (f : Char → List Char) : cmap f [] = [] := rfl

theorem cmap_cons (f : Char → List Char) (c : Char) (l : List Char) :
    cmap f (c :: l) = f c ++ cmap f l := by
  simp [cmap]

theorem cmap_append (f : Char → List Char) (a b : List Char) :
    cmap f (a ++ b) = cmap f a ++ cmap f b := by
  simp [cmap]

theorem replaceAll_single (a : Char) (r : List Char) :
    ∀ (l : List Char), replaceAll [a] r l = cmap (fun c => if c = a then r else [c]) l := by
  intro l
  induction l with
  | nil => rw [replaceAll]; rfl
  | cons c cs ih =>
    rw [replaceAll]
    rw [dif_neg (by simp)]
    by_cases hc : c = a
    · subst hc
      rw [if_pos (by simp [List.isPrefixOf])]
      simp only [List.length_cons, List.length_nil, List.drop_succ_cons, List.drop_zero]
      rw [cmap_cons, if_pos rfl, ih]
    · rw [if_neg (by simp only [List.isPrefixOf, List.isPrefixOf.eq_def, beq_iff_eq]; simp; exact fun h => hc h.symm)]
      rw [cmap_cons, if_neg hc, ih]
      rfl

theorem cmap_cmap (g f : Char → List Char) :
    ∀ (l : List Char), cmap g (cmap f l) = cmap (fun c => cmap g (f c)) l := by
  intro l
  induction l with
  | nil => rfl
  | cons c cs ih =>
    rw [cmap_cons, cmap_append, cmap_cons, ih]

theorem cmap_fixed {f : Char → List Char} :
    ∀ (l : List Char), (∀ c ∈ l, f c = [c]) → cmap f l = l := by
  intro l
  induction l with
  | nil => intro _; rfl
  | cons c cs ih =>
    intro h
    rw [cmap_cons, h c (by simp), ih (fun x hx => h x (by simp [hx]))]
    rfl

theorem natDecimal_toNat : ∀ (n : Nat), ∀ c ∈ natDecimal n, 48 ≤ c.toNat ∧ c.toNat ≤ 57 := by
  intro n c hc
  unfold natDecimal at hc
  split at hc
  · simp at hc
    subst hc
    constructor <;> decide
  · simp only [List.mem_map, List.mem_reverse] at hc
    obtain ⟨d, hd, hcd⟩ := hc
    have hdlt : d < 10 := Nat.digits_lt_base (by norm_num) hd
    have hval : (48 + d).isValidChar := Or.inl (by omega)
    have := toNat_ofNat_valid (48 + d) hval
    rw [← hcd] at *
    omega

theorem escC_digit_fixed {c : Char} (h : 48 ≤ c.toNat ∧ c.toNat ≤ 57) : escC c = [c] := by
  have hne1 : c ≠ '&' := fun he => by subst he; exact absurd h (by decide)
  have hne2 : c ≠ '<' := fun he => by subst he; exact absurd h (by decide)
  have hne3 : c ≠ '>' := fun he => by subst he; exact absurd h (by decide)
  rw [escC, if_neg hne1, if_neg hne2, if_neg hne3]

theorem escC_placeholder (n : Nat) : cmap escC (placeholder n) = placeholder n := by
  have hD : cmap escC (natDecimal n) = natDecimal n :=
    cmap_fixed _ (fun c hc => escC_digit_fixed (natDecimal_toNat n c hc))
  rw [placeholder, cmap_append, cmap_cons, cmap_append, hD]
  rfl

theorem cmap_escC_phT : ∀ (atoms : List EAtom) (n : Nat),
    cmap escC (phT atoms n) = phE atoms n := by
  intro atoms
  induction atoms with
  | nil => intro n; rfl
  | cons a as ih =>
    intro n
    cases a with
    | rawA c =>
      rw [phT, phE, cmap_cons, ih]
    | entA e =>
      rw [phT, phE, cmap_append, escC_placeholder, ih]

theorem cmap_congr {f g : Char → List Char} (h : ∀ c, f c = g c) (l : List Char) :
    cmap f l = cmap g l := by
  unfold cmap
  rw [funext h]

theorem escape_phase (l : List Char) :
    escape_entities l = restoreEntities 0 (entsA (scanAtoms l)) (phE (scanAtoms l) 0) := by
  rw [escape_entities, subEntities_scanAtoms l.length l 0 le_rfl]
  dsimp only
  rw [replaceAll_single, replaceAll_single, replaceAll_single, cmap_cmap, cmap_cmap]
  congr 1
  rw [← cmap_escC_phT]
  apply cmap_congr
  intro c
  by_cases h1 : c = '&'
  · subst h1
    rfl
  · by_cases h2 : c = '<'
    · subst h2
      simp [escC, cmap]
    · by_cases h3 : c = '>'
      · subst h3
        simp [escC, cmap]
      · simp [escC, cmap, h1, h2, h3]

theorem natDecimal_ne_x00 (n : Nat) : ∀ c ∈ natDecimal n, c ≠ '\x00' := by
  intro c hc he
  have h := natDecimal_toNat n c hc
  subst he
  exact absurd h (by decide)

theorem entityCore_ne_x00 (n : Nat) :
    ∀ c ∈ "ENTITY".data ++ natDecimal n, c ≠ '\x00' := by
  intro c hc
  rw [List.mem_append] at hc
  rcases hc with hc | hc
  · intro he
    subst he
    exact absurd hc (by decide)
  · exact natDecimal_ne_x00 n c hc

theorem placeholder_cons (n : Nat) :
    placeholder n = '\x00' :: (("ENTITY".data ++ natDecimal n) ++ ['\x00']) := by
  simp [placeholder]

theorem valD_natDecimal (n : Nat) :
    Nat.ofDigits 10 (((natDecimal n).map (fun c => c.toNat - 48)).reverse) = n := by
  unfold natDecimal
  split
  · rename_i h
    subst h
    decide
  · rename_i h
    rw [List.map_map, List.map_reverse, List.reverse_reverse]
    have hmap : (Nat.digits 10 n).map ((fun c => c.toNat - 48) ∘ fun d => Char.ofNat (48 + d))
        = (Nat.digits 10 n).map id := by
      apply List.map_congr_left
      intro d hd
      have hdlt : d < 10 := Nat.digits_lt_base (by norm_num) hd
      have hval : (48 + d).isValidChar := Or.inl (by omega)
      have h2 := toNat_ofNat_valid (48 + d) hval
      simp only [Function.comp, id]
      omega
    rw [hmap, List.map_id, Nat.ofDigits_digits]

theorem natDecimal_inj {m n : Nat} (h : natDecimal m = natDecimal n) : m = n := by
  have hm := valD_natDecimal m
  rw [h, valD_natDecimal n] at hm
  exact hm.symm

theorem xfree_append_inj {x : Char} :
    ∀ (A B Y Z : List Char), (∀ c ∈ A, c ≠ x) → (∀ c ∈ B, c ≠ x) →
      A ++ x :: Y = B ++ x :: Z → A = B := by
  intro A
  induction A with
  | nil =>
    intro B Y Z _ hB h
    cases B with
    | nil => rfl
    | cons b B' =>
      simp only [List.nil_append, List.cons_append, List.cons.injEq] at h
      exact absurd h.1.symm (hB b (by simp))
  | cons a A' ih =>
    intro B Y Z hA hB h
    cases B with
    | nil =>
      simp only [List.nil_append, List.cons_append, List.cons.injEq] at h
      exact absurd h.1 (hA a (by simp))
    | cons b B' =>
      simp only [List.cons_append, List.cons.injEq] at h
      rw [h.1, ih B' Y Z (fun c hc => hA c (by simp [hc])) (fun c hc => hB c (by simp [hc])) h.2]

theorem append_eq_split {x : Char} :
    ∀ (X Y A B : List Char), x ∉ X → X ++ Y = A ++ x :: B →
      ∃ Aa, A = X ++ Aa ∧ Y = Aa ++ x :: B := by
  intro X
  induction X with
  | nil =>
    intro Y A B _ h
    exact ⟨A, rfl, h⟩
  | cons c X' ih =>
    intro Y A B hmem h
    cases A with
    | nil =>
      simp only [List.cons_append, List.nil_append, List.cons.injEq] at h
      exact absurd h.1 (by simp at hmem; exact fun he => hmem.1 he.symm)
    | cons a A₂ =>
      simp only [List.cons_append, List.cons.injEq] at h
      obtain ⟨Aa, h1, h2⟩ := ih Y A₂ B (fun hm => hmem (by simp [hm])) h.2
      exact ⟨Aa, by rw [h.1, h1]; rfl, h2⟩

theorem append_eq_split2 {x : Char} :
    ∀ (X Y A B : List Char), x ∉ X → X ++ (x :: Y) = A ++ x :: B →
      (A = X ∧ Y = B) ∨ ∃ A2, A = (X ++ [x]) ++ A2 ∧ Y = A2 ++ x :: B := by
  intro X
  induction X with
  | nil =>
    intro Y A B _ h
    cases A with
    | nil =>
      simp only [List.nil_append, List.cons.injEq] at h
      exact Or.inl ⟨rfl, h.2⟩
    | cons a A₂ =>
      simp only [List.nil_append, List.cons_append, List.cons.injEq] at h
      exact Or.inr ⟨A₂, by rw [← h.1]; rfl, h.2⟩
  | cons c X' ih =>
    intro Y A B hmem h
    cases A with
    | nil =>
      simp only [List.cons_append, List.nil_append, List.cons.injEq] at h
      exact absurd h.1 (by simp at hmem; exact fun he => hmem.1 he.symm)
    | cons a A₂ =>
      simp only [List.cons_append, List.cons.injEq] at h
      rcases ih Y A₂ B (fun hm => hmem (by simp [hm])) h.2 with ⟨h1, h2⟩ | ⟨A2, h1, h2⟩
      · exact Or.inl ⟨by rw [h.1, h1], h2⟩
      · exact Or.inr ⟨A2, by rw [h.1, h1]; rfl, h2⟩

theorem replaceAll_pass {p' : List Char} (r : List Char) :
    ∀ (A B : List Char), (∀ c ∈ A, c ≠ '\x00') →
      replaceAll ('\x00' :: p') r (A ++ (('\x00' :: p') ++ B)) =
        A ++ (r ++ replaceAll ('\x00' :: p') r B) := by
  intro A
  induction A with
  | nil =>
    intro B _
    rw [List.nil_append, List.nil_append, List.cons_append, replaceAll]
    rw [dif_neg (by simp)]
    rw [if_pos (isPrefixOf_iff.mpr ⟨B, by simp⟩)]
    have hdrop : (('\x00' :: p') ++ B).drop ('\x00' :: p').length = B := List.drop_left _ _
    rw [← List.cons_append, hdrop]
  | cons a A' ih =>
    intro B hA
    rw [List.cons_append, replaceAll]
    rw [dif_neg (by simp)]
    rw [if_neg (by
      intro hpre
      obtain ⟨t, ht⟩ := isPrefixOf_iff.mp hpre
      simp only [List.cons_append, List.cons.injEq] at ht
      exact hA a (by simp) ht.1)]
    rw [ih B (fun c hc => hA c (by simp [hc]))]
    rfl

theorem occursIn_cons {p : List Char} {c : Char} {cs : List Char}
    (h : OccursIn p cs) : OccursIn p (c :: cs) := by
  obtain ⟨a, b, hab⟩ := h
  exact ⟨c :: a, b, by rw [hab]; rfl⟩

theorem replaceAll_id {p r : List Char} (hp : p ≠ []) :
    ∀ t, ¬ OccursIn p t → replaceAll p r t = t := by
  intro t
  induction t with
  | nil =>
    intro _
    rw [replaceAll, dif_neg hp]
  | cons c cs ih =>
    intro hocc
    rw [replaceAll, dif_neg hp]
    rw [if_neg (by
      intro hpre
      obtain ⟨t', ht⟩ := isPrefixOf_iff.mp hpre
      exact hocc ⟨[], t', by rw [ht]; rfl⟩)]
    rw [ih (fun h => hocc (occursIn_cons h))]

theorem escC_ne_x00 {c : Char} (hc : c ≠ '\x00') : ∀ d ∈ escC c, d ≠ '\x00' := by
  intro d hd
  rw [escC] at hd
  split at hd
  · intro he
    subst he
    exact absurd hd (by decide)
  · split at hd
    · intro he
      subst he
      exact absurd hd (by decide)
    · split at hd
      · intro he
        subst he
        exact absurd hd (by decide)
      · simp at hd
        subst hd
        exact hc

theorem validEnt_ne_x00 {e : List Char} (h : ValidEnt e) : ∀ c ∈ e, c ≠ '\x00' := by
  intro c hc
  rcases h with ⟨k, hk, rfl⟩ | ⟨ds, hne, hall, rfl⟩ | ⟨hs, hne, hall, rfl⟩
  · fin_cases hk <;> (intro he; subst he; exact absurd hc (by decide))
  · simp only [List.mem_cons, List.mem_append, List.mem_singleton] at hc
    rcases hc with rfl | rfl | hc | hfin
    · decide
    · decide
    · intro he
      subst he
      have := hall _ hc
      exact absurd this (by decide)
    · rcases hfin with rfl | h0
      · decide
      · exact absurd h0 (by simp)
  · simp only [List.mem_cons, List.mem_append, List.mem_singleton] at hc
    rcases hc with rfl | rfl | rfl | hc | hfin
    · decide
    · decide
    · decide
    · intro he
      subst he
      have := hall _ hc
      rw [hexDigit] at this
      exact absurd this (by decide)
    · rcases hfin with rfl | h0
      · decide
      · exact absurd h0 (by simp)

theorem validEnt_head {e : List Char} (h : ValidEnt e) : ∃ tl, e = '&' :: tl := by
  rcases h with ⟨k, _, rfl⟩ | ⟨ds, _, _, rfl⟩ | ⟨hs, _, _, rfl⟩
  · exact ⟨_, rfl⟩
  · exact ⟨_, rfl⟩
  · exact ⟨_, rfl⟩

theorem phE_x00_suffix :
    ∀ (atoms : List EAtom) (m : Nat) (A B : List Char),
      (∀ c, EAtom.rawA c ∈ atoms → c ≠ '\x00') →
      phE atoms m = A ++ '\x00' :: B →
      (∃ (rest : List EAtom) (mq : Nat), m ≤ mq ∧
        ('\x00' :: B) = placeholder mq ++ phE rest (mq + 1)) ∨
      (∃ (rest : List EAtom) (mq : Nat), m ≤ mq ∧ B = phE rest (mq + 1) ∧ rest <:+ atoms) := by
  intro atoms
  induction atoms with
  | nil =>
    intro m A B _ h
    rw [phE] at h
    exact absurd h (by simp)
  | cons a rest ih =>
    intro m A B hraw h
    cases a with
    | rawA c =>
      rw [phE] at h
      have hcne : c ≠ '\x00' := hraw c (by simp)
      have hnot : '\x00' ∉ escC c := fun hm => escC_ne_x00 hcne _ hm rfl
      obtain ⟨Aa, _, h2⟩ := append_eq_split _ _ _ _ hnot h
      rcases ih m Aa B (fun c' hc' => hraw c' (by simp [hc'])) h2 with hl | ⟨r2, mq, hm2, hb, hs⟩
      · exact Or.inl hl
      · exact Or.inr ⟨r2, mq, hm2, hb, hs.trans (List.suffix_cons _ _)⟩
    | entA e =>
      rw [phE, placeholder_cons] at h
      simp only [List.cons_append, List.append_assoc, List.singleton_append] at h
      cases A with
      | nil =>
        simp only [List.nil_append, List.cons.injEq] at h
        refine Or.inl ⟨rest, m, le_refl m, ?_⟩
        rw [placeholder_cons]
        simp only [List.cons_append, List.append_assoc, List.singleton_append]
        rw [← h.2]
        simp
      | cons a0 A2 =>
        simp only [List.cons_append, List.cons.injEq] at h
        have hnotc : '\x00' ∉ ("ENTITY".data ++ natDecimal m) :=
          fun hm => entityCore_ne_x00 m _ hm rfl
        rcases append_eq_split2 _ _ _ _ hnotc h.2 with ⟨_, hYB⟩ | ⟨A3, _, hY⟩
        · exact Or.inr ⟨rest, m, le_refl m, hYB.symm, List.suffix_cons _ _⟩
        · rcases ih (m + 1) A3 B (fun c' hc' => hraw c' (by simp [hc'])) hY with
            ⟨r2, mq, hm2, he⟩ | ⟨r2, mq, hm2, hb, hs⟩
          · exact Or.inl ⟨r2, mq, by omega, he⟩
          · exact Or.inr ⟨r2, mq, by omega, hb, hs.trans (List.suffix_cons _ _)⟩

theorem placeholder_append_inj {i m : Nat} {Y Z : List Char}
    (h : placeholder i ++ Y = placeholder m ++ Z) : i = m := by
  rw [placeholder_cons, placeholder_cons] at h
  simp only [List.cons_append, List.append_assoc, List.singleton_append,
    List.cons.injEq, List.nil_append] at h
  have heq : natDecimal i ++ '\x00' :: Y = natDecimal m ++ '\x00' :: Z :=
    h.2.2.2.2.2.2.2
  exact natDecimal_inj
    (xfree_append_inj _ _ _ _ (natDecimal_ne_x00 i) (natDecimal_ne_x00 m) heq)

theorem phE_prefix_trans :
    ∀ (w : List Char) (atoms : List EAtom) (k : Nat) (Y : List Char),
      (∀ c ∈ w, c ≠ '&' ∧ c ≠ '\x00') →
      (∀ c, EAtom.rawA c ∈ atoms → c ≠ '\x00') →
      phE atoms k = w ++ Y → ∃ Z, flatA atoms = w ++ Z := by
  intro w
  induction w with
  | nil =>
    intro atoms k Y _ _ _
    exact ⟨flatA atoms, rfl⟩
  | cons a w' ih =>
    intro atoms k Y hw hraw h
    cases atoms with
    | nil =>
      rw [phE] at h
      exact absurd h (by simp)
    | cons at0 rest =>
      cases at0 with
      | rawA c =>
        rw [phE] at h
        by_cases hc : c = '&' ∨ c = '<' ∨ c = '>'
        · exfalso
          have hhead : (escC c ++ phE rest k).head? = some '&' := by
            rcases hc with rfl | rfl | rfl <;> rfl
          rw [h] at hhead
          simp only [List.cons_append, List.head?_cons, Option.some.injEq] at hhead
          exact (hw a (by simp)).1 hhead
        · push_neg at hc
          have hesc : escC c = [c] := by
            rw [escC, if_neg hc.1, if_neg hc.2.1, if_neg hc.2.2]
          rw [hesc, List.singleton_append] at h
          simp only [List.cons_append, List.cons.injEq] at h
          obtain ⟨Z, hZ⟩ := ih rest k Y (fun d hd => hw d (by simp [hd]))
            (fun c' hc' => hraw c' (by simp [hc'])) h.2
          refine ⟨Z, ?_⟩
          show atomStr (EAtom.rawA c) ++ flatA rest = a :: (w' ++ Z)
          rw [atomStr, hZ, h.1]
          rfl
      | entA e =>
        exfalso
        rw [phE, placeholder_cons] at h
        simp only [List.cons_append, List.cons.injEq] at h
        exact (hw a (by simp)).2 h.1.symm

theorem phE_no_ph_occ (atoms : List EAtom) (m i : Nat) (him : i < m)
    (hraw : ∀ c, EAtom.rawA c ∈ atoms → c ≠ '\x00')
    (hA3 : ∀ tl, tl <:+ atoms → ¬ ∃ t, flatA tl = "ENTITY".data ++ t) :
    ¬ OccursIn (placeholder i) (phE atoms m) := by
  rintro ⟨A, B₂, heq⟩
  rw [placeholder_cons] at heq
  simp only [List.cons_append, List.append_assoc, List.singleton_append] at heq
  rcases phE_x00_suffix atoms m A _ hraw heq with ⟨rest, mq, hm, he⟩ | ⟨rest, mq, hm, hb, hs⟩
  · have hpp : placeholder i ++ B₂ = placeholder mq ++ phE rest (mq + 1) := by
      rw [placeholder_cons]
      simp only [List.cons_append, List.append_assoc, List.singleton_append]
      exact he
    have := placeholder_append_inj hpp
    omega
  · have hE : phE rest (mq + 1) = "ENTITY".data ++ (natDecimal i ++ '\x00' :: B₂) := by
      rw [← hb]
      simp [List.append_assoc]
    obtain ⟨Z, hZ⟩ := phE_prefix_trans "ENTITY".data rest (mq + 1) _ (by decide)
      (fun c hc => hraw c (hs.subset hc)) hE
    exact hA3 rest hs ⟨Z, hZ⟩

theorem restore_phase :
    ∀ (atoms : List EAtom) (n : Nat) (P : List Char),
      (∀ c ∈ P, c ≠ '\x00') →
      (∀ c, EAtom.rawA c ∈ atoms → c ≠ '\x00') →
      (∀ e, EAtom.entA e ∈ atoms → ValidEnt e) →
      (∀ tl, tl <:+ atoms → ¬ ∃ t, flatA tl = "ENTITY".data ++ t) →
      restoreEntities n (entsA atoms) (P ++ phE atoms n) = P ++ outAll atoms := by
  intro atoms
  induction atoms with
  | nil =>
    intro n P _ _ _ _
    rw [entsA, phE, restoreEntities]
    simp [outAll]
  | cons a rest ih =>
    intro n P hP hraw hent hA3
    cases a with
    | rawA c =>
      rw [entsA, phE]
      have hstep : P ++ (escC c ++ phE rest n) = (P ++ escC c) ++ phE rest n := by
        rw [List.append_assoc]
      rw [hstep]
      have hP' : ∀ d ∈ P ++ escC c, d ≠ '\x00' := by
        intro d hd
        rcases List.mem_append.mp hd with hd | hd
        · exact hP d hd
        · exact escC_ne_x00 (hraw c (by simp)) d hd
      rw [ih n (P ++ escC c) hP' (fun c' hc' => hraw c' (by simp [hc']))
        (fun e he => hent e (by simp [he]))
        (fun tl htl => hA3 tl (htl.trans (List.suffix_cons _ _)))]
      show (P ++ escC c) ++ outAll rest = P ++ (outA (EAtom.rawA c) ++ outAll rest)
      rw [outA, List.append_assoc]
    | entA e =>
      rw [entsA, phE, restoreEntities]
      have hppat : placeholder n ++ phE rest (n + 1) =
          ('\x00' :: (("ENTITY".data ++ natDecimal n) ++ ['\x00'])) ++ phE rest (n + 1) := by
        rw [placeholder_cons]
      rw [hppat, placeholder_cons]
      rw [replaceAll_pass e P (phE rest (n + 1)) hP]
      rw [← placeholder_cons]
      rw [replaceAll_id (by rw [placeholder_cons]; simp)
        (phE rest (n + 1))
        (phE_no_ph_occ rest (n + 1) n (by omega)
          (fun c' hc' => hraw c' (by simp [hc']))
          (fun tl htl => hA3 tl (htl.trans (List.suffix_cons _ _))))]
      have hstep : P ++ (e ++ phE rest (n + 1)) = (P ++ e) ++ phE rest (n + 1) := by
        rw [List.append_assoc]
      rw [hstep]
      have hP' : ∀ d ∈ P ++ e, d ≠ '\x00' := by
        intro d hd
        rcases List.mem_append.mp hd with hd | hd
        · exact hP d hd
        · exact validEnt_ne_x00 (hent e (by simp)) d hd
      rw [ih (n + 1) (P ++ e) hP' (fun c' hc' => hraw c' (by simp [hc']))
        (fun e' he' => hent e' (by simp [he']))
        (fun tl htl => hA3 tl (htl.trans (List.suffix_cons _ _)))]
      show (P ++ e) ++ outAll rest = P ++ (outA (EAtom.entA e) ++ outAll rest)
      rw [outA, List.append_assoc]

theorem flatA_append (a b : List EAtom) : flatA (a ++ b) = flatA a ++ flatA b := by
  simp [flatA]

theorem flatA_suffix {tl atoms : List EAtom} (h : tl <:+ atoms) :
    flatA tl <:+ flatA atoms := by
  obtain ⟨pre, hpre⟩ := h
  exact ⟨flatA pre, by rw [← hpre, flatA_append]⟩

theorem escape_scan (l : List Char) (h1 : '\x00' ∉ l)
    (h2 : ¬ OccursIn "ENTITY".data l) :
    escape_entities l = outAll (scanAtoms l) := by
  rw [escape_phase]
  have hres := restore_phase (scanAtoms l) 0 []
    (by simp)
    (fun c hc he => h1 (by
      have := raw_scanAtoms_mem l.length l le_rfl c hc
      rw [← he]
      exact this))
    (fun e he => ents_scanAtoms_valid l.length l le_rfl e he)
    (fun tl htl ⟨t, ht⟩ => by
      have hsuf : flatA tl <:+ flatA (scanAtoms l) := flatA_suffix htl
      rw [flatA_scanAtoms l.length l le_rfl] at hsuf
      obtain ⟨pre, hpre⟩ := hsuf
      exact h2 ⟨pre, t, by rw [← hpre, ht, List.append_assoc]⟩)
  simpa using hres

/-- The single-pass transformation on atoms: special raw characters become
their escape entities, everything else is unchanged. -/
def tauA : EAtom → EAtom
  | EAtom.rawA c => if c = '&' ∨ c = '<' ∨ c = '>' then EAtom.entA (escC c) else EAtom.rawA c
  | EAtom.entA e => EAtom.entA e

theorem matchEntityAt_none_head {c : Char} (hc : c ≠ '&') (l : List Char) :
    matchEntityAt (c :: l) = none := by
  rw [matchEntityAt, if_neg hc]

theorem outAll_cons (a : EAtom) (rest : List EAtom) :
    outAll (a :: rest) = outA a ++ outAll rest := by
  simp [outAll]

theorem scanAtoms_outAll :
    ∀ (atoms : List EAtom),
      (∀ e, EAtom.entA e ∈ atoms → ValidEnt e) →
      scanAtoms (outAll atoms) = atoms.map tauA := by
  intro atoms
  induction atoms with
  | nil =>
    intro _
    rw [scanAtoms]
    rfl
  | cons a rest ih =>
    intro hent
    rw [outAll_cons]
    cases a with
    | rawA c =>
      rw [outA]
      by_cases hc : c = '&' ∨ c = '<' ∨ c = '>'
      · have hval : ValidEnt (escC c) := by
          rcases hc with rfl | rfl | rfl
          · exact Or.inl ⟨"amp".data, by decide, rfl⟩
          · exact Or.inl ⟨"lt".data, by decide, rfl⟩
          · exact Or.inl ⟨"gt".data, by decide, rfl⟩
        rw [scanAtoms_some (matchEntityAt_valid (outAll rest) hval)]
        rw [ih (fun e he => hent e (by simp [he]))]
        rw [List.map_cons, tauA, if_pos hc]
      · push_neg at hc
        have hesc : escC c = [c] := by
          rw [escC, if_neg hc.1, if_neg hc.2.1, if_neg hc.2.2]
        rw [hesc, List.singleton_append]
        rw [scanAtoms_none (matchEntityAt_none_head hc.1 _)]
        rw [ih (fun e he => hent e (by simp [he]))]
        rw [List.map_cons, tauA, if_neg (by push_neg; exact hc)]
    | entA e =>
      rw [outA]
      rw [scanAtoms_some (matchEntityAt_valid (outAll rest) (hent e (by simp)))]
      rw [ih (fun e' he' => hent e' (by simp [he']))]
      rw [List.map_cons, tauA]

theorem escC_valid {c : Char} (hc : c = '&' ∨ c = '<' ∨ c = '>') : ValidEnt (escC c) := by
  rcases hc with rfl | rfl | rfl
  · exact Or.inl ⟨"amp".data, by decide, rfl⟩
  · exact Or.inl ⟨"lt".data, by decide, rfl⟩
  · exact Or.inl ⟨"gt".data, by decide, rfl⟩

theorem atomStr_tauA (a : EAtom) : atomStr (tauA a) = outA a := by
  cases a with
  | rawA c =>
    simp only [tauA]
    split
    · rename_i hc
      rw [atomStr, outA]
    · rename_i hc
      push_neg at hc
      rw [atomStr, outA, escC, if_neg hc.1, if_neg hc.2.1, if_neg hc.2.2]
  | entA e => rfl

theorem outA_tauA (a : EAtom) : outA (tauA a) = outA a := by
  cases a with
  | rawA c =>
    simp only [tauA]
    split
    · rw [outA, outA]
    · rfl
  | entA e => rfl

theorem flatA_map_tauA (atoms : List EAtom) : flatA (atoms.map tauA) = outAll atoms := by
  simp only [flatA, outAll, List.map_map]
  congr 1
  exact List.map_congr_left (fun a _ => atomStr_tauA a)

theorem outAll_map_tauA (atoms : List EAtom) : outAll (atoms.map tauA) = outAll atoms := by
  simp only [outAll, List.map_map]
  congr 1
  exact List.map_congr_left (fun a _ => outA_tauA a)

theorem map_suffix_split {α β : Type} (f : α → β) :
    ∀ (pre : List β) (atoms : List α) (tl : List β), pre ++ tl = atoms.map f →
      ∃ tl', tl' <:+ atoms ∧ tl = tl'.map f := by
  intro pre
  induction pre with
  | nil =>
    intro atoms tl h
    exact ⟨atoms, List.suffix_refl _, by simpa using h⟩
  | cons p ps ih =>
    intro atoms tl h
    cases atoms with
    | nil => simp at h
    | cons a rest =>
      rw [List.map_cons] at h
      simp only [List.cons_append, List.cons.injEq] at h
      obtain ⟨tl', hs, he⟩ := ih rest tl h.2
      exact ⟨tl', hs.trans (List.suffix_cons _ _), he⟩

theorem outAll_prefix_trans :
    ∀ (w : List Char) (atoms : List EAtom) (Y : List Char),
      (∀ c ∈ w, c ≠ '&') →
      (∀ e, EAtom.entA e ∈ atoms → ValidEnt e) →
      outAll atoms = w ++ Y → ∃ Z, flatA atoms = w ++ Z := by
  intro w
  induction w with
  | nil =>
    intro atoms Y _ _ _
    exact ⟨flatA atoms, rfl⟩
  | cons a w' ih =>
    intro atoms Y hw hent h
    cases atoms with
    | nil =>
      rw [outAll] at h
      exact absurd h (by simp)
    | cons at0 rest =>
      rw [outAll_cons] at h
      cases at0 with
      | rawA c =>
        rw [outA] at h
        by_cases hc : c = '&' ∨ c = '<' ∨ c = '>'
        · exfalso
          have hhead : (escC c ++ outAll rest).head? = some '&' := by
            rcases hc with rfl | rfl | rfl <;> rfl
          rw [h] at hhead
          simp only [List.cons_append, List.head?_cons, Option.some.injEq] at hhead
          exact hw a (by simp) hhead
        · push_neg at hc
          have hesc : escC c = [c] := by
            rw [escC, if_neg hc.1, if_neg hc.2.1, if_neg hc.2.2]
          rw [hesc, List.singleton_append] at h
          simp only [List.cons_append, List.cons.injEq] at h
          obtain ⟨Z, hZ⟩ := ih rest Y (fun d hd => hw d (by simp [hd]))
            (fun e he => hent e (by simp [he])) h.2
          refine ⟨Z, ?_⟩
          show atomStr (EAtom.rawA c) ++ flatA rest = a :: (w' ++ Z)
          rw [atomStr, hZ, h.1]
          rfl
      | entA e =>
        exfalso
        rw [outA] at h
        obtain ⟨tl, htl⟩ := validEnt_head (hent e (by simp))
        rw [htl] at h
        simp only [List.cons_append, List.cons.injEq] at h
        exact hw a (by simp) h.1.symm

/-- C4 (amended): on inputs free of NUL characters and of the literal
substring `ENTITY`, `escape_entities` is idempotent: a second pass leaves
the output of the first unchanged. -/
theorem C4_escape_idempotent (s : List Char) (h1 : '\x00' ∉ s)
    (h2 : containsSub "ENTITY".data s = false) :
    escape_entities (escape_entities s) = escape_entities s := by
  have hocc : ¬ OccursIn "ENTITY".data s := by
    intro h
    rw [← containsSub_iff] at h
    rw [h2] at h
    exact Bool.noConfusion h
  have hents1 : ∀ e, EAtom.entA e ∈ scanAtoms s → ValidEnt e :=
    ents_scanAtoms_valid s.length s le_rfl
  have hraw1 : ∀ c, EAtom.rawA c ∈ scanAtoms s → c ≠ '\x00' := by
    intro c hc he
    exact h1 (by rw [← he]; exact raw_scanAtoms_mem s.length s le_rfl c hc)
  have hp1 : escape_entities s = outAll (scanAtoms s) := escape_scan s h1 hocc
  rw [hp1, escape_phase, scanAtoms_outAll (scanAtoms s) hents1]
  have hraw2 : ∀ c, EAtom.rawA c ∈ (scanAtoms s).map tauA → c ≠ '\x00' := by
    intro c hc
    rw [List.mem_map] at hc
    obtain ⟨a, ha, hta⟩ := hc
    cases a with
    | rawA c2 =>
      simp only [tauA] at hta
      split at hta
      · exact absurd hta (by simp)
      · rw [EAtom.rawA.injEq] at hta
        rw [← hta]
        exact hraw1 c2 ha
    | entA e =>
      simp only [tauA] at hta
      exact absurd hta (by simp)
  have hent2 : ∀ e, EAtom.entA e ∈ (scanAtoms s).map tauA → ValidEnt e := by
    intro e he
    rw [List.mem_map] at he
    obtain ⟨a, ha, hta⟩ := he
    cases a with
    | rawA c2 =>
      simp only [tauA] at hta
      split at hta
      · rename_i hc2
        rw [EAtom.entA.injEq] at hta
        rw [← hta]
        exact escC_valid hc2
      · exact absurd hta (by simp)
    | entA e2 =>
      simp only [tauA, EAtom.entA.injEq] at hta
      rw [← hta]
      exact hents1 e2 ha
  have hA32 : ∀ tl, tl <:+ (scanAtoms s).map tauA →
      ¬ ∃ t, flatA tl = "ENTITY".data ++ t := by
    rintro tl htl ⟨t, ht⟩
    obtain ⟨pre0, hpre0⟩ := htl
    obtain ⟨tl', hs', rfl⟩ := map_suffix_split tauA pre0 (scanAtoms s) tl hpre0
    rw [flatA_map_tauA] at ht
    obtain ⟨Z, hZ⟩ := outAll_prefix_trans "ENTITY".data tl' t (by decide)
      (fun e he => hents1 e (hs'.subset he)) ht
    have hsuf := flatA_suffix hs'
    rw [flatA_scanAtoms s.length s le_rfl] at hsuf
    obtain ⟨pre, hpre⟩ := hsuf
    exact hocc ⟨pre, Z, by rw [← hpre, hZ, List.append_assoc]⟩
  have hres := restore_phase ((scanAtoms s).map tauA) 0 [] (by simp) hraw2 hent2 hA32
  simp only [List.nil_append] at hres
  rw [hres, outAll_map_tauA]

unseal replaceAll subEntities Nat.digitsAux in
/-- C4 counterexample: escaping is not idempotent. On
`"&lt;&gt;ENTITY0&amp;"` the literal text `ENTITY0` sits between entity
placeholders, so during restoration the placeholder pattern `\x00ENTITY0\x00`
also matches a spurious straddling occurrence; the first pass already
corrupts the text and the second pass produces yet another string. -/
theorem C4_counterexample :
    escape_entities (escape_entities "&lt;&gt;ENTITY0&amp;".data) ≠
      escape_entities "&lt;&gt;ENTITY0&amp;".data := by
  decide

/-- Witness: a concrete NUL-free, `ENTITY`-free input satisfying the
hypotheses of the idempotence theorem. -/
theorem C4_witness : '\x00' ∉ "a&amp;<b".data ∧
    containsSub "ENTITY".data "a&amp;<b".data = false ∧
    escape_entities (escape_entities "a&amp;<b".data) = escape_entities "a&amp;<b".data :=
  ⟨by decide, by decide, C4_escape_idempotent _ (by decide) (by decide)⟩

end Xenon
